import Mathlib

/-!
# RSM model documents: parser, hierarchy builder and serializer

A shallow embedding of `brolib/BroLib/Rsm.cpp` (`Rsm::Rsm`, `Rsm::save`,
`Rsm::Mesh::Mesh`, `Rsm::Mesh::save`, `Rsm::Mesh::fetchChildren`,
`Rsm::Mesh::foreach`).

Conventions of the embedding.

* A file is a list of bytes.  A read that runs past the end of the file is the
  stream's short-read error.
* `short`, `unsigned short`, `int` and `float` values are kept as their bit
  patterns (`Word16`, `Word32`); `toInt` gives the signed value wherever the
  code compares or counts with a signed type.  Floats are never computed with
  in the parser or the serializer, so their bit pattern is all that matters.
* `assert` is modelled as active: a failing assertion ends the run with a
  failure of its own.
* `std::map<std::string, Mesh*>` is a list of key/value pairs kept strictly
  increasing by key (byte-wise lexicographic order of `std::string`).
* A `Mesh*` is the allocation index `addr` of the mesh (the loop index of the
  `new Mesh` that created it).
* The constructor's call of `updateMatrices` and the face normals only fill
  derived floating-point fields; they neither read the stream nor change a
  field that `save` writes, and are left out of the parser model.
* `fetchChildren` recurses along parent names and need not terminate (a cycle
  of parent names through the root); its model takes the depth it may use as
  `fuel`, and so do the constructor and `parse`.
* The byte stream (`blib::util::StreamInFile`, `blib::util::StreamOut`) is not
  part of the sources; it is modelled from the specification: little-endian
  fixed-width integers and floats, 40-byte padded strings, an error on a
  short read.
-/

namespace Rsm

abbrev Byte := Fin 256
abbrev Word16 := Fin 65536
abbrev Word32 := Fin 4294967296

/-- A `std::string`: the sequence of its chars. -/
abbrev Str := List Byte

/-- Signed value of a `short`. -/
def Word16.toInt (w : Word16) : Int :=
  if w.val < 32768 then (w.val : Int) else (w.val : Int) - 65536

/-- Signed value of an `int`. -/
def Word32.toInt (w : Word32) : Int :=
  if w.val < 2147483648 then (w.val : Int) else (w.val : Int) - 4294967296

/-- Conversion of a `std::size_t` to `int` (as a bit pattern). -/
def Word32.ofSize (n : Nat) : Word32 := ⟨n % 4294967296, Nat.mod_lt _ (by decide)⟩

/-- The ways a run of the constructor can end without `loaded = true`. -/
inductive Failure where
  /-- "Unknown RSM header in file ..., stopped loading": early return; `rest` is the unread part of the file. -/
  | unknownHeader (rest : List Byte)
  /-- "Invalid textureCount, aborting": early return; `textures` is the texture list at that moment. -/
  | invalidTextureCount (textures : List Str) (rest : List Byte)
  /-- The check `assert(unknown[i] == 0)` failed. -/
  | assertUnknown
  /-- The check `assert(todo == 0)` failed. -/
  | assertTodo
  /-- The check `assert(numKeyFrames == 0)` failed. -/
  | assertNumKeyFrames
  /-- The stream ran out of bytes. -/
  | shortRead
  /-- A `std::vector::resize` with a negative count (converted to `std::size_t`) threw. -/
  | lengthError
  /-- The code `meshes.begin()->second` was evaluated on an empty map. -/
  | emptyMeshes
  /-- The recursion of `fetchChildren` did not finish within the given depth. -/
  | outOfFuel
  deriving DecidableEq, Repr

/-- A read operation on the input stream: the state is the unread part of the file. -/
abbrev Reader (α : Type) := StateT (List Byte) (Except Failure) α

namespace StreamInFile

/-- Modelled from the spec: `blib::util::StreamInFile::read`, the byte-stream collaborator
(raw block read; a short read is an error). -/
def read (n : Nat) : Reader (List Byte) := fun s =>
  if n ≤ s.length then .ok (s.take n, s.drop n) else .error .shortRead

/-- Modelled from the spec: `blib::util::StreamInFile::get`, one byte. -/
def get : Reader Byte := fun s =>
  match s with
  | b :: rest => .ok (b, rest)
  | [] => .error .shortRead

/-- Modelled from the spec: `blib::util::StreamInFile::readShort`, 16 bits little-endian. -/
def readShort : Reader Word16 := fun s =>
  match s with
  | a :: b :: rest => .ok (⟨a.val + 256 * b.val, by omega⟩, rest)
  | _ => .error .shortRead

/-- Modelled from the spec: `blib::util::StreamInFile::readWord`, 16 bits little-endian. -/
def readWord : Reader Word16 := readShort

/-- Modelled from the spec: `blib::util::StreamInFile::readInt`, 32 bits little-endian. -/
def readInt : Reader Word32 := fun s =>
  match s with
  | a :: b :: c :: d :: rest =>
    .ok (⟨a.val + 256 * b.val + 65536 * c.val + 16777216 * d.val, by omega⟩, rest)
  | _ => .error .shortRead

/-- Modelled from the spec: `blib::util::StreamInFile::readFloat`, the 32 bits of a float. -/
def readFloat : Reader Word32 := readInt

/-- Modelled from the spec: `blib::util::StreamInFile::readString`, a fixed-length padded
string: `n` bytes are consumed, the string ends at the first NUL. -/
def readString (n : Nat) : Reader Str := do
  let raw ← read n
  pure (raw.takeWhile (fun c => c ≠ 0))

end StreamInFile

namespace StreamOut

/-- Modelled from the spec: `blib::util::StreamOut::writeShort`. -/
def writeShort (w : Word16) : List Byte :=
  [⟨w.val % 256, Nat.mod_lt _ (by decide)⟩, ⟨w.val / 256, by omega⟩]

/-- Modelled from the spec: `blib::util::StreamOut::writeWord`. -/
def writeWord (w : Word16) : List Byte := writeShort w

/-- Modelled from the spec: `blib::util::StreamOut::writeInt`. -/
def writeInt (w : Word32) : List Byte :=
  [⟨w.val % 256, Nat.mod_lt _ (by decide)⟩, ⟨w.val / 256 % 256, Nat.mod_lt _ (by decide)⟩,
   ⟨w.val / 65536 % 256, Nat.mod_lt _ (by decide)⟩, ⟨w.val / 16777216, by omega⟩]

/-- Modelled from the spec: `blib::util::StreamOut::writeFloat`. -/
def writeFloat (w : Word32) : List Byte := writeInt w

/-- Modelled from the spec: `blib::util::StreamOut::writeString`, a fixed-length padded
string: exactly `n` bytes, the chars of `s` (at most `n` of them) followed by NULs. -/
def writeString (s : Str) (n : Nat) : List Byte :=
  s.take n ++ List.replicate (n - s.length) 0

end StreamOut

open StreamInFile StreamOut

structure Vec2 where
  x : Word32
  y : Word32
  deriving DecidableEq, Repr

structure Vec3 where
  x : Word32
  y : Word32
  z : Word32
  deriving DecidableEq, Repr

structure Quat where
  x : Word32
  y : Word32
  z : Word32
  w : Word32
  deriving DecidableEq, Repr

/-- The entries of `glm::mat4 offset` that the file stores: `c0 = offset[0][0..2]` and so on. -/
structure Offset where
  c0 : Vec3
  c1 : Vec3
  c2 : Vec3
  deriving DecidableEq, Repr

/-- The type `Rsm::Mesh::Face` without the derived normal. -/
structure Face where
  vertices0 : Word16
  vertices1 : Word16
  vertices2 : Word16
  texvertices0 : Word16
  texvertices1 : Word16
  texvertices2 : Word16
  texIndex : Word16
  twoSide : Word32
  smoothGroup : Word32
  deriving DecidableEq, Repr

/-- The type `Rsm::Mesh::Frame`. -/
structure Frame where
  time : Word32
  quaternion : Quat
  deriving DecidableEq, Repr

/-- The stored fields of an `Rsm::Mesh` object; `addr` is the identity of the object. -/
structure Mesh where
  addr : Nat
  name : Str
  parentName : Str
  textures : List Word32
  offset : Offset
  pos_ : Vec3
  pos : Vec3
  rotangle : Word32
  rotaxis : Vec3
  scale : Vec3
  vertices : List Vec3
  texCoords : List Vec2
  faces : List Face
  frames : List Frame
  deriving DecidableEq, Repr

/-- A mesh together with the links that `fetchChildren` sets: the `parent` back-reference
(`none` is `NULL`) and the owned `children`. -/
inductive Node where
  | mk (mesh : Mesh) (parent : Option Nat) (children : List Node)

def Node.mesh : Node → Mesh
  | .mk m _ _ => m

def Node.parent : Node → Option Nat
  | .mk _ p _ => p

def Node.children : Node → List Node
  | .mk _ _ c => c

/-- The document `Rsm` once `loaded = true`. -/
structure Document where
  version : Word16
  animLen : Word32
  shadeType : Word32
  alpha : Byte
  unknown : List Byte
  textures : List Str
  rootMesh : Node

namespace StreamInFile

def readVec2 : Reader Vec2 := do
  let x ← readFloat
  let y ← readFloat
  pure ⟨x, y⟩

def readVec3 : Reader Vec3 := do
  let x ← readFloat
  let y ← readFloat
  let z ← readFloat
  pure ⟨x, y, z⟩

end StreamInFile

namespace StreamOut

def writeVec2 (v : Vec2) : List Byte := writeFloat v.x ++ writeFloat v.y

def writeVec3 (v : Vec3) : List Byte := writeFloat v.x ++ writeFloat v.y ++ writeFloat v.z

end StreamOut

/-- A counted loop `for (i = 0; i < n; i++) xs[i] = r()`. -/
def readMany {α : Type} (r : Reader α) : Nat → Reader (List α)
  | 0 => pure []
  | n + 1 => do
    let a ← r
    let as ← readMany r n
    pure (a :: as)

/-- The call `xs.resize(count)` with an `int` count: a negative count converts to a
`std::size_t` above `max_size()` and throws. -/
def resize (count : Word32) : Reader Nat :=
  if count.toInt < 0 then throw .lengthError else pure count.val

/-- The macro `assert(c)`, active: the run ends with the failure `e` when `c` is false. -/
def assert (c : Bool) (e : Failure) : Reader Unit :=
  if c then pure () else throw e

/-- An early `return` of the constructor under the condition `c`, `loaded` still false. -/
def returnIf (c : Bool) (f : List Byte → Failure) : Reader Unit := fun rest =>
  if c then .error (f rest) else .ok ((), rest)

/-- The extra float of a texture coordinate, read from version 0x0102 on and asserted to
be zero; the comparison `todo == 0` on a float holds for +0.0 and for -0.0. -/
def readTodo (version : Word16) : Reader Unit :=
  if version.toInt ≥ 0x0102 then do
    let todo ← readFloat
    assert (todo.val == 0 || todo.val == 2147483648) .assertTodo
  else pure ()

/-- One texture coordinate of a mesh record. -/
def readTexCoord (version : Word16) : Reader Vec2 := do
  readTodo version
  readVec2

/-- One face of a mesh record; the padding word is read and dropped. -/
def readFace : Reader Face := do
  let v0 ← readWord
  let v1 ← readWord
  let v2 ← readWord
  let t0 ← readWord
  let t1 ← readWord
  let t2 ← readWord
  let texIndex ← readWord
  let _padding ← readWord
  let twoSide ← readInt
  let smoothGroup ← readInt
  pure ⟨v0, v1, v2, t0, t1, t2, texIndex, twoSide, smoothGroup⟩

/-- One animation frame: `glm::quat(w, x, y, z)` stores the four floats read as x, y, z, w. -/
def readFrame : Reader Frame := do
  let time ← readInt
  let x ← readFloat
  let y ← readFloat
  let z ← readFloat
  let w ← readFloat
  pure ⟨time, ⟨x, y, z, w⟩⟩

/-- The constructor `Rsm::Mesh::Mesh(Rsm* model, StreamInFile* rsmFile)`; `version` is
`model->version` and `addr` the identity of the new object. -/
def Mesh.read (version : Word16) (addr : Nat) : Reader Mesh := do
  let name ← readString 40
  let parentName ← readString 40
  let textureCount ← readInt
  let textures ← readMany readInt textureCount.toInt.toNat
  let c0 ← readVec3
  let c1 ← readVec3
  let c2 ← readVec3
  let pos_ ← readVec3
  let pos ← readVec3
  let rotangle ← readFloat
  let rotaxis ← readVec3
  let scale ← readVec3
  let vertexCount ← readInt
  let n ← resize vertexCount
  let vertices ← readMany readVec3 n
  let texCoordCount ← readInt
  let n ← resize texCoordCount
  let texCoords ← readMany (readTexCoord version) n
  let faceCount ← readInt
  let n ← resize faceCount
  let faces ← readMany readFace n
  let frameCount ← readInt
  let n ← resize frameCount
  let frames ← readMany readFrame n
  pure { addr, name, parentName, textures, offset := ⟨c0, c1, c2⟩, pos_, pos, rotangle,
         rotaxis, scale, vertices, texCoords, faces, frames }

/-- The order `std::less<std::string>`: byte-wise lexicographic, a proper initial segment first. -/
def strLt : Str → Str → Bool
  | [], [] => false
  | [], _ :: _ => true
  | _ :: _, [] => false
  | a :: as, b :: bs =>
    if a.val < b.val then true else if b.val < a.val then false else strLt as bs

/-- The type `std::map<std::string, Mesh*>`: its entries in iteration order. -/
abbrev MeshMap := List (Str × Mesh)

namespace MeshMap

/-- The lookup `meshes.find(key)`; `none` is `meshes.end()`. -/
def find : MeshMap → Str → Option Mesh
  | [], _ => none
  | (k, v) :: rest, key => if k = key then some v else find rest key

/-- The assignment `meshes[key] = mesh`: a new entry at its place in the order, or the
value of the existing entry replaced. -/
def insert : MeshMap → Str → Mesh → MeshMap
  | [], key, mesh => [(key, mesh)]
  | (k, v) :: rest, key, mesh =>
    if strLt key k then (key, mesh) :: (k, v) :: rest
    else if k = key then (key, mesh) :: rest
    else (k, v) :: insert rest key mesh

end MeshMap

/-- The string literal "(duplicate)". -/
def duplicate : Str := [40, 100, 117, 112, 108, 105, 99, 97, 116, 101, 41]

/-- The body of the loop of `Rsm::Rsm` over the mesh records, once the mesh is read: a
mesh whose name is already in the map gets "(duplicate)" appended, then
`meshes[mesh->name] = mesh`. -/
def addMesh (meshes : MeshMap) (mesh : Mesh) : MeshMap :=
  let mesh :=
    if (MeshMap.find meshes mesh.name).isSome then
      { mesh with name := mesh.name ++ duplicate }
    else mesh
  MeshMap.insert meshes mesh.name mesh

/-- The loop of `Rsm::Rsm` over the mesh records: `n` records are left to read, `i` is the
index of the next one, `meshes` the map so far. -/
def readMeshes (version : Word16) : Nat → Nat → MeshMap → Reader MeshMap
  | 0, _, meshes => pure meshes
  | n + 1, i, meshes => do
    let mesh ← Mesh.read version i
    readMeshes version n (i + 1) (addMesh meshes mesh)

/-- All results, if every one is there. -/
def collect {α : Type} : List (Option α) → Option (List α)
  | [] => some []
  | none :: _ => none
  | some a :: rest =>
    match collect rest with
    | some as => some (a :: as)
    | none => none

/-- The first loop of `fetchChildren`: the meshes of the map, in map order, whose
`parentName` is the name of `self` and which are not `self`. -/
def newChildren (meshes : MeshMap) (self : Mesh) : List Mesh :=
  (meshes.filter (fun e => decide (e.2.parentName = self.name ∧ e.2.addr ≠ self.addr))).map
    (fun e => e.2)

/-- The method `Rsm::Mesh::fetchChildren` on the mesh `self` whose `parent` field holds
`parent`: the new children get `parent = this`, then each is visited in turn.  `fuel` bounds
the depth of the recursion; `none` means it was not enough. -/
def fetchChildren (meshes : MeshMap) : Nat → Mesh → Option Nat → Option Node
  | 0, _, _ => none
  | fuel + 1, self, parent =>
    match collect ((newChildren meshes self).map
        (fun c => fetchChildren meshes fuel c (some self.addr))) with
    | some children => some (Node.mk self parent children)
    | none => none

/-- The file magic that is rejected: 'G', 'R', 'G', 'M'. -/
def rejectedHeader : List Byte := [71, 82, 71, 77]

/-- The result of `fetchChildren` as a step of the constructor. -/
def orOutOfFuel (root : Option Node) : Reader Node :=
  match root with
  | some root => pure root
  | none => throw .outOfFuel

/-- The choice of `rootMesh`: `meshes[mainNodeName]` when the name is found, else
`meshes.begin()->second`. -/
def selectRoot (meshes : MeshMap) (mainNodeName : Str) : Except Failure Mesh :=
  match MeshMap.find meshes mainNodeName with
  | some m => .ok m
  | none =>
    match meshes with
    | (_, m) :: _ => .ok m
    | [] => .error .emptyMeshes

/-- The constructor `Rsm::Rsm` from the main-node name on (lines 66 to 89): the mesh
records, the root and the hierarchy. -/
def loadMeshes (fuel : Nat) (version : Word16) (animLen shadeType : Word32) (alpha : Byte)
    (unknown : List Byte) (textures : List Str) : Reader Document := do
  let mainNodeName ← readString 40
  let meshCount ← readInt
  let meshes ← readMeshes version meshCount.toInt.toNat 0 []
  let rootMesh ← liftM (selectRoot meshes mainNodeName)
  -- `rootMesh->parent = NULL; rootMesh->fetchChildren(meshes);`
  let root ← orOutOfFuel (fetchChildren meshes fuel rootMesh none)
  pure { version, animLen, shadeType, alpha, unknown, textures, rootMesh := root }

/-- The constructor `Rsm::Rsm` from the texture count on (lines 52 to 64, then the rest). -/
def loadTextures (fuel : Nat) (version : Word16) (animLen shadeType : Word32) (alpha : Byte)
    (unknown : List Byte) : Reader Document := do
  let textures : List Str := []
  let textureCount ← readInt
  returnIf (textureCount.toInt > 100) (.invalidTextureCount textures)
  let textures ← readMany (readString 40) textureCount.toInt.toNat
  loadMeshes fuel version animLen shadeType alpha unknown textures

/-- The alpha byte: read from version 0x0104 on, else 0. -/
def readAlpha (version : Word16) : Reader Byte :=
  if version.toInt ≥ 0x0104 then StreamInFile.get else pure 0

/-- The constructor `Rsm::Rsm` from the version field on (lines 41 to 50, then the rest). -/
def loadFields (fuel : Nat) : Reader Document := do
  let version ← readShort
  let animLen ← readInt
  let shadeType ← readInt
  let alpha ← readAlpha version
  let unknown ← read 16
  assert (unknown.all (fun b => b == 0)) .assertUnknown
  loadTextures fuel version animLen shadeType alpha unknown

/-- The constructor `Rsm::Rsm` on an opened file up to the hierarchy (lines 32 to 89). -/
def loadBody (fuel : Nat) : Reader Document := do
  let header ← read 4
  returnIf (header == rejectedHeader) .unknownHeader
  loadFields fuel

/-- The two trailing counts (lines 92 to 97). -/
def loadTrailer : Reader Unit := do
  let numKeyFrames ← readInt
  assert (numKeyFrames.val == 0) .assertNumKeyFrames
  -- a nonzero value only logs "WARNING! This model has ... volume boxes!"
  let _numVolumeBox ← readInt
  pure ()

/-- The constructor `Rsm::Rsm` on an opened file, up to `loaded = true`. -/
def load (fuel : Nat) : Reader Document := do
  let doc ← loadBody fuel
  loadTrailer
  pure doc

/-- The construction of an `Rsm` from the bytes of its file: the document when the
constructor ends with `loaded = true`, else how it ended. -/
def parse (fuel : Nat) (file : List Byte) : Except Failure Document :=
  match load fuel file with
  | .ok (doc, _) => .ok doc
  | .error e => .error e

/-- Offset of the 16 reserved bytes in a file of the given version: after the magic (4),
the version (2), the animation length (4), the shade type (4) and, from version 0x0104 on,
the alpha byte. -/
def unknownOffset (version : Word16) : Nat :=
  if version.toInt ≥ 0x0104 then 15 else 14

mutual
/-- The method `Rsm::Mesh::foreach`: the callback on this mesh, then on each child's
subtree in order; the state `σ` is what the callback captures. -/
def Node.foreach {σ : Type} (callback : σ → Mesh → σ) : Node → σ → σ
  | .mk mesh _ children, s => foreachChildren callback children (callback s mesh)
/-- The loop `for (auto child : children) child->foreach(callback)`. -/
def foreachChildren {σ : Type} (callback : σ → Mesh → σ) : List Node → σ → σ
  | [], s => s
  | child :: rest, s => foreachChildren callback rest (child.foreach callback s)
end

mutual
/-- The meshes of a subtree in depth-first pre-order: the node, then its children's
subtrees in order. -/
def Node.preorder : Node → List Mesh
  | .mk mesh _ children => mesh :: preorderChildren children
/-- The pre-orders of a child list, one after the other. -/
def preorderChildren : List Node → List Mesh
  | [] => []
  | child :: rest => child.preorder ++ preorderChildren rest
end

mutual
/-- The nodes reachable from a node through child lists, the node itself first. -/
def Node.reachable : Node → List Node
  | .mk mesh parent children => .mk mesh parent children :: reachableChildren children
/-- The nodes reachable from the nodes of a child list. -/
def reachableChildren : List Node → List Node
  | [] => []
  | child :: rest => child.reachable ++ reachableChildren rest
end

/-- One face as `Rsm::Mesh::save` writes it; the padding word is always 0. -/
def writeFace (f : Face) : List Byte :=
  writeWord f.vertices0 ++ writeWord f.vertices1 ++ writeWord f.vertices2 ++
  writeWord f.texvertices0 ++ writeWord f.texvertices1 ++ writeWord f.texvertices2 ++
  writeWord f.texIndex ++ writeWord 0 ++ writeInt f.twoSide ++ writeInt f.smoothGroup

/-- One frame as `Rsm::Mesh::save` writes it. -/
def writeFrame (f : Frame) : List Byte :=
  writeInt f.time ++ writeFloat f.quaternion.x ++ writeFloat f.quaternion.y ++
  writeFloat f.quaternion.z ++ writeFloat f.quaternion.w

/-- One texture coordinate as `Rsm::Mesh::save` writes it. -/
def writeTexCoord (version : Word16) (t : Vec2) : List Byte :=
  (if version.toInt ≥ 0x0102 then writeFloat 0 else []) ++ writeVec2 t

/-- The method `Rsm::Mesh::save`: the bytes appended to the output; `version` is
`model->version`. -/
def Mesh.save (version : Word16) (m : Mesh) : List Byte :=
  writeString m.name 40 ++ writeString m.parentName 40 ++
  writeInt (Word32.ofSize m.textures.length) ++ m.textures.flatMap writeInt ++
  writeVec3 m.offset.c0 ++ writeVec3 m.offset.c1 ++ writeVec3 m.offset.c2 ++
  writeVec3 m.pos_ ++ writeVec3 m.pos ++ writeFloat m.rotangle ++
  writeVec3 m.rotaxis ++ writeVec3 m.scale ++
  writeInt (Word32.ofSize m.vertices.length) ++ m.vertices.flatMap writeVec3 ++
  writeInt (Word32.ofSize m.texCoords.length) ++ m.texCoords.flatMap (writeTexCoord version) ++
  writeInt (Word32.ofSize m.faces.length) ++ m.faces.flatMap writeFace ++
  writeInt (Word32.ofSize m.frames.length) ++ m.frames.flatMap writeFrame

/-- The bytes `Rsm::save` writes before the main-node name. -/
def saveHeader (doc : Document) : List Byte :=
  [71, 82, 83, 77] ++ writeShort doc.version ++ writeInt doc.animLen ++ writeInt doc.shadeType ++
  (if doc.version.toInt ≥ 0x0104 then [doc.alpha] else []) ++ doc.unknown ++
  writeInt (Word32.ofSize doc.textures.length) ++
  doc.textures.flatMap (fun t => writeString t 40)

/-- The method `Rsm::save` on an opened output file: the bytes written. -/
def save (doc : Document) : List Byte :=
  let out := saveHeader doc
  let out := out ++ writeString doc.rootMesh.mesh.name 40
  let meshCount : Nat := doc.rootMesh.foreach (fun count _ => count + 1) 0
  let out := out ++ writeInt (Word32.ofSize meshCount)
  let out := doc.rootMesh.foreach (fun out mesh => out ++ mesh.save doc.version) out
  let out := out ++ writeInt 0
  out ++ writeInt 0


/-- Every failure of the reader `r` satisfies `P`. -/
def FailsWith (P : Failure → Prop) {α : Type} (r : Reader α) : Prop :=
  ∀ s e, r s = .error e → P e

/-- The failures of the stream and of the mesh records: none of them is an early `return`
of the constructor. -/
def Failure.inRecord : Failure → Prop
  | .shortRead => True
  | .lengthError => True
  | .assertTodo => True
  | _ => False

/-- The keys of the map are strictly increasing. -/
def MeshMap.Sorted (meshes : MeshMap) : Prop :=
  List.Pairwise (fun a b : Str × Mesh => strLt a.1 b.1 = true) meshes

/-- A string that a 40-byte name field holds unchanged: at most 40 chars, none of them NUL. -/
def fitsField (s : Str) : Prop :=
  s.length ≤ 40 ∧ ∀ c ∈ s, c ≠ 0

/-- What every mesh of the map satisfies: no NUL in the name, a parent name as a name field
holds it, and lists whose sizes are non-negative `int` values. -/
def Mesh.wf (m : Mesh) : Prop :=
  (∀ c ∈ m.name, c ≠ 0) ∧ fitsField m.parentName ∧
  m.textures.length < 2147483648 ∧ m.vertices.length < 2147483648 ∧
  m.texCoords.length < 2147483648 ∧ m.faces.length < 2147483648 ∧
  m.frames.length < 2147483648

/-- The parent of a mesh by name: the mesh of the map under the key `parentName`, unless it
is the mesh itself. -/
def parentOf (meshes : MeshMap) (x : Mesh) : Option Mesh :=
  match MeshMap.find meshes x.parentName with
  | some y => if y.addr ≠ x.addr then some y else none
  | none => none

/-- The `k`-th ancestor by name. -/
def ancestor (meshes : MeshMap) : Nat → Mesh → Option Mesh
  | 0, x => some x
  | k + 1, x =>
    match parentOf meshes x with
    | some y => ancestor meshes k y
    | none => none

/-- The invariant of the map in the loop of `Rsm::Rsm`: keys strictly increasing, every
mesh under its own name, every mesh allocated before index `i`, no two meshes at the same
address, every mesh well-formed. -/
def MeshMap.Inv (meshes : MeshMap) (i : Nat) : Prop :=
  MeshMap.Sorted meshes ∧ (∀ e ∈ meshes, e.1 = e.2.name) ∧ (∀ e ∈ meshes, e.2.addr < i) ∧
  (∀ e ∈ meshes, ∀ e' ∈ meshes, e.2.addr = e'.2.addr → e = e') ∧ (∀ e ∈ meshes, e.2.wf)

/-- The meshes of a list at the addresses that the loop of `Rsm::Rsm` gives them when it
reads them in this order, starting at index `i`. -/
def readdress : Nat → List Mesh → List Mesh
  | _, [] => []
  | i, m :: ms => { m with addr := i } :: readdress (i + 1) ms

/-- The position of the first occurrence of a name in a list of names. -/
def position (n : Str) : List Str → Nat
  | [] => 0
  | a :: as => if a = n then 0 else position n as + 1

/-- A mesh at the address `i` plus the position of its name in `names`. -/
def reindex (i : Nat) (names : List Str) (m : Mesh) : Mesh :=
  { m with addr := i + position m.name names }

/-- The correspondence between the map of the first parse (`meshes₁`) and the map of the
parse of the saved file (`meshes₂`): the meshes `l` of the tree, each taken to its copy at a
new address by `g`. -/
structure Rebuilt (meshes₁ meshes₂ : MeshMap) (l : List Mesh) (g : Mesh → Mesh) : Prop where
  name : ∀ x, (g x).name = x.name
  parentName : ∀ x, (g x).parentName = x.parentName
  addr : ∀ x ∈ l, ∀ y ∈ l, (g x).addr = (g y).addr → x.name = y.name
  mem₂ : ∀ e, e ∈ meshes₂ ↔ ∃ x ∈ l, e = ((g x).name, g x)
  mem₁ : ∀ x ∈ l, (x.name, x) ∈ meshes₁

/-! ### Example inputs -/

/-- Example input: a mesh record with the given names and no textures, vertices, texture
coordinates, faces or frames; every float is 0. -/
def recordOf (name parentName : Str) : List Byte :=
  writeString name 40 ++ writeString parentName 40 ++ List.replicate 108 0

/-- The mesh that the record `recordOf name parentName` holds. -/
def meshOf (addr : Nat) (name parentName : Str) : Mesh :=
  { addr, name, parentName, textures := [], offset := ⟨⟨0, 0, 0⟩, ⟨0, 0, 0⟩, ⟨0, 0, 0⟩⟩,
    pos_ := ⟨0, 0, 0⟩, pos := ⟨0, 0, 0⟩, rotangle := 0, rotaxis := ⟨0, 0, 0⟩,
    scale := ⟨0, 0, 0⟩, vertices := [], texCoords := [], faces := [], frames := [] }

/-- Example input: the first 30 bytes of a version 0x0103 file (magic "GRSM", no alpha byte,
reserved bytes 0). -/
def headerOf : List Byte :=
  [71, 82, 83, 77, 3, 1] ++ List.replicate 24 0

/-- Example input: a version 0x0103 file without textures, with the given main-node name,
mesh records and trailing counts. -/
def fileOf (mainNodeName : Str) (records : List (List Byte))
    (numKeyFrames numVolumeBox : Word32) : List Byte :=
  headerOf ++ writeInt 0 ++ writeString mainNodeName 40 ++
  writeInt (Word32.ofSize records.length) ++ records.flatten ++
  writeInt numKeyFrames ++ writeInt numVolumeBox

/-- The document of a version 0x0103 file without textures. -/
def documentOf (root : Node) : Document :=
  { version := 259, animLen := 0, shadeType := 0, alpha := 0, unknown := List.replicate 16 0,
    textures := [], rootMesh := root }

/-- Example input: a header whose texture count is 101, followed by three more bytes. -/
def fileOfCount101 : List Byte :=
  headerOf ++ [101, 0, 0, 0] ++ [1, 2, 3]

/-- Example input: a header whose reserved byte 5 is 7. -/
def fileOfReserved7 : List Byte :=
  [71, 82, 83, 77, 3, 1] ++ List.replicate 8 0 ++ [0, 0, 0, 0, 0, 7] ++ List.replicate 10 0

/-- The name "A". -/
def nameA : Str := [65]

/-- The name "B". -/
def nameB : Str := [66]

/-- The name "Z". -/
def nameZ : Str := [90]

/-- The name "Body". -/
def nameBody : Str := [66, 111, 100, 121]

/-- The name "b". -/
def nameLowerB : Str := [98]

/-- The name "c". -/
def nameLowerC : Str := [99]

/-- A name of 39 chars: 39 times 'a'. -/
def name39 : Str := List.replicate 39 97

/-- A name of 40 chars: 39 times 'a', then '('.  It is the first 40 chars of `name39`
followed by "(duplicate)". -/
def name40 : Str := name39 ++ [40]

/-- Example input: five mesh records.  The second has the name of the first and becomes
`name39` followed by "(duplicate)", 50 chars long. -/
def longNameFile : List Byte :=
  fileOf name39
    [recordOf name39 [], recordOf name39 name39, recordOf nameLowerB name39,
     recordOf name40 nameLowerB, recordOf nameLowerC name40] 0 0

/-- The document that `longNameFile` loads as. -/
def longNameDocument : Document :=
  documentOf (.mk (meshOf 0 name39 []) none
    [.mk (meshOf 1 (name39 ++ duplicate) name39) (some 0) [],
     .mk (meshOf 2 nameLowerB name39) (some 0)
       [.mk (meshOf 3 name40 nameLowerB) (some 2)
         [.mk (meshOf 4 nameLowerC name40) (some 3) []]]])

/-- What `save` writes for `longNameDocument`: the long name is cut to 40 chars. -/
def longNameSaved : List Byte :=
  fileOf name39
    [recordOf name39 [], recordOf name40 name39, recordOf nameLowerB name39,
     recordOf name40 nameLowerB, recordOf nameLowerC name40] 0 0

/-- The document that `longNameSaved` loads as. -/
def longNameDocument2 : Document :=
  documentOf (.mk (meshOf 0 name39 []) none
    [.mk (meshOf 1 name40 name39) (some 0)
       [.mk (meshOf 4 nameLowerC name40) (some 1) []],
     .mk (meshOf 2 nameLowerB name39) (some 0)
       [.mk (meshOf 3 (name40 ++ duplicate) nameLowerB) (some 2) []]])

/-- What `save` writes for `longNameDocument2`. -/
def longNameSaved2 : List Byte :=
  fileOf name39
    [recordOf name39 [], recordOf name40 name39, recordOf nameLowerC name40,
     recordOf nameLowerB name39, recordOf name40 nameLowerB] 0 0

/-- The document of a file with the mesh "A" and its child "B". -/
def twoMeshDocument : Document :=
  documentOf (.mk (meshOf 0 nameA []) none [.mk (meshOf 1 nameB nameA) (some 0) []])

/-!
# The transform engine, the animation sampler and the bounding-box passes

A shallow embedding of `Rsm::updateMatrices`, `Rsm::Mesh::calcMatrix1`,
`Rsm::Mesh::calcMatrix2`, `Rsm::Mesh::setBoundingBox` and
`Rsm::Mesh::setBoundingBox2`.

Conventions of this part.

* A floating-point value is the rational number it stands for; there is no
  infinity and no NaN.  A division whose divisor is zero has no rational
  result and ends the run (`none`).  The value of a stored float is given by
  `Glm.val`, which is a parameter.
* The float operations that `Rsm.cpp` writes on scalars and on `vec3` values
  (the `(float)` conversions and the quotient of `interval`, `(a + b) / 2.0f`,
  `-bbmax.y + bbrange.y`, `pos + pos_`, `rotangle * 180.0f / 3.14159f`) are
  rounded to binary32 by `roundFloat`: to the nearest value of 24 significant
  bits, ties to even, with the subnormal range; a result beyond the largest
  binary32 value is rounded the same way (overflow to infinity is not
  modelled).  Negation and the product with -1 are exact.
* The sums and products inside the operators of glm on `mat4` and `vec4`
  values (`mat4 * mat4`, `mat4 * vec4`, `vec4 += vec4`, `translate`, `scale`)
  are exact.
* The functions of the glm library that need a square root or a trigonometric
  function (`rotate`, `radians`, `mix`, `normalize`, `toMat4`) are parameters;
  `translate`, `scale`, the matrix product and `min`/`max` are defined.
* `vertices[i]` with `i` outside the vector is undefined behaviour and ends the
  run (`none`).
* `int` arithmetic wraps modulo 2^32; `%` is the truncated remainder of C++.
* The clock `model->renderer->timer.millis()` is one fixed sample for a whole
  run; `none` stands for `model->renderer == NULL`.
-/


/-! ### Rounding to binary32 -/

/-- The number of times `n` can be halved before it is below 2, `fuel` being enough. -/
def halvings : Nat → Nat → Nat
  | 0, _ => 0
  | fuel + 1, n => if n < 2 then 0 else halvings fuel (n / 2) + 1

/-- The position of the leading bit of `n`: the `e` with 2^e ≤ n < 2^(e+1), for `n` ≥ 1. -/
def floorLog2 (n : Nat) : Nat := halvings n n

/-- The binary exponent of `x` ≠ 0: the `e` with 2^e ≤ |x| < 2^(e+1). -/
def binade (x : ℚ) : ℤ :=
  let e : ℤ := (floorLog2 x.num.natAbs : ℤ) - (floorLog2 x.den : ℤ)
  if (2 : ℚ) ^ e ≤ |x| then e else e - 1

/-- The nearest integer, a tie going to the even one. -/
def roundEven (y : ℚ) : ℤ :=
  if y - ⌊y⌋ < 1 / 2 then ⌊y⌋
  else if 1 / 2 < y - ⌊y⌋ then ⌊y⌋ + 1
  else if ⌊y⌋ % 2 = 0 then ⌊y⌋ else ⌊y⌋ + 1

/-- The spacing of the binary32 values around `x`: 24 significant bits, and 2^-149 in the
subnormal range. -/
def ulp (x : ℚ) : ℚ := (2 : ℚ) ^ max (binade x - 23) (-149)

/-- The binary32 value of a real result: round to nearest, ties to even. -/
def roundFloat (x : ℚ) : ℚ :=
  if x = 0 then 0 else roundEven (x / ulp x) * ulp x

/-- A `glm::vec3` by the values of its components. -/
structure RVec3 where
  x : ℚ
  y : ℚ
  z : ℚ
  deriving DecidableEq

/-- A `glm::vec4` by the values of its components. -/
structure RVec4 where
  x : ℚ
  y : ℚ
  z : ℚ
  w : ℚ
  deriving DecidableEq

/-- A `glm::quat` by the values of its components. -/
structure RQuat where
  x : ℚ
  y : ℚ
  z : ℚ
  w : ℚ
  deriving DecidableEq

/-- A `glm::mat4`: its four columns, `m[i]` being `ci`. -/
structure RMat4 where
  c0 : RVec4
  c1 : RVec4
  c2 : RVec4
  c3 : RVec4
  deriving DecidableEq

namespace RVec4

/-- Sum of two vectors. -/
def add (a b : RVec4) : RVec4 := ⟨a.x + b.x, a.y + b.y, a.z + b.z, a.w + b.w⟩

/-- Product of a vector with a scalar. -/
def smul (a : RVec4) (k : ℚ) : RVec4 := ⟨a.x * k, a.y * k, a.z * k, a.w * k⟩

end RVec4

namespace RMat4

/-- The matrix `glm::mat4()`: the identity. -/
def identity : RMat4 := ⟨⟨1, 0, 0, 0⟩, ⟨0, 1, 0, 0⟩, ⟨0, 0, 1, 0⟩, ⟨0, 0, 0, 1⟩⟩

/-- The product of a matrix with a column vector, `m * v`. -/
def mulVec (m : RMat4) (v : RVec4) : RVec4 :=
  ((m.c0.smul v.x).add (m.c1.smul v.y)).add ((m.c2.smul v.z).add (m.c3.smul v.w))

/-- The matrix product `a * b`: column `i` is `a * b[i]`. -/
def mul (a b : RMat4) : RMat4 := ⟨a.mulVec b.c0, a.mulVec b.c1, a.mulVec b.c2, a.mulVec b.c3⟩

/-- The library function `glm::translate(m, v)`: `m` with its last column replaced by
`m[0] * v.x + m[1] * v.y + m[2] * v.z + m[3]`. -/
def translate (m : RMat4) (v : RVec3) : RMat4 :=
  ⟨m.c0, m.c1, m.c2, ((m.c0.smul v.x).add (m.c1.smul v.y)).add ((m.c2.smul v.z).add m.c3)⟩

/-- The library function `glm::scale(m, v)`: the first three columns of `m` scaled. -/
def scale (m : RMat4) (v : RVec3) : RMat4 :=
  ⟨m.c0.smul v.x, m.c1.smul v.y, m.c2.smul v.z, m.c3⟩

end RMat4

/-- The vector `glm::vec4(v, 1)`. -/
def RVec3.toVec4 (v : RVec3) : RVec4 := ⟨v.x, v.y, v.z, 1⟩

/-- The functions of the glm library that are kept abstract, and the value of a stored
float. -/
structure Glm where
  /-- The value of a `float` given by its 32 bits. -/
  val : Word32 → ℚ
  /-- The library function `glm::radians`. -/
  radians : ℚ → ℚ
  /-- The library function `glm::rotate(m, angle, axis)`. -/
  rotate : RMat4 → ℚ → RVec3 → RMat4
  /-- The library function `glm::mix` on two quaternions. -/
  mix : RQuat → RQuat → ℚ → RQuat
  /-- The library function `glm::normalize` on a quaternion. -/
  normalize : RQuat → RQuat
  /-- The library function `glm::toMat4`. -/
  toMat4 : RQuat → RMat4

/-- The value of a stored `glm::vec3`. -/
def Glm.vec3 (glm : Glm) (v : Vec3) : RVec3 := ⟨glm.val v.x, glm.val v.y, glm.val v.z⟩

/-- The value of a stored `glm::quat`. -/
def Glm.quat (glm : Glm) (q : Quat) : RQuat := ⟨glm.val q.x, glm.val q.y, glm.val q.z, glm.val q.w⟩

/-- The matrix `offset` of a mesh: the nine stored entries in the upper left block of the
identity. -/
def Glm.offset (glm : Glm) (o : Offset) : RMat4 :=
  ⟨⟨glm.val o.c0.x, glm.val o.c0.y, glm.val o.c0.z, 0⟩,
   ⟨glm.val o.c1.x, glm.val o.c1.y, glm.val o.c1.z, 0⟩,
   ⟨glm.val o.c2.x, glm.val o.c2.y, glm.val o.c2.z, 0⟩,
   ⟨0, 0, 0, 1⟩⟩

/-- The derived fields of an `Rsm::Mesh` object. -/
structure Derived where
  matrix1 : RMat4
  matrix2 : RMat4
  bbmin : RVec3
  bbmax : RVec3
  bbrange : RVec3

/-- An `Rsm::Mesh` object with its links and its derived fields. -/
inductive Pose where
  | mk (mesh : Mesh) (parent : Option Nat) (derived : Derived) (children : List Pose)

def Pose.mesh : Pose → Mesh
  | .mk m _ _ _ => m

def Pose.parent : Pose → Option Nat
  | .mk _ p _ _ => p

def Pose.derived : Pose → Derived
  | .mk _ _ d _ => d

def Pose.children : Pose → List Pose
  | .mk _ _ _ c => c

mutual
/-- The node of the hierarchy that a posed node stands on: the derived fields forgotten. -/
def Pose.node : Pose → Node
  | .mk mesh parent _ children => Node.mk mesh parent (nodeChildren children)
/-- The nodes of a child list. -/
def nodeChildren : List Pose → List Node
  | [] => []
  | child :: rest => child.node :: nodeChildren rest
end

/-- The derived fields of an `Rsm` object together with its tree. -/
structure Model where
  bbmin : RVec3
  bbmax : RVec3
  bbrange : RVec3
  realbbmin : RVec3
  realbbmax : RVec3
  realbbrange : RVec3
  maxRange : ℚ
  rootMesh : Pose

/-! ### The animation sampler -/

/-- The value of an `int` expression: wrapped to 32 bits, two's complement. -/
def wrap32 (x : Int) : Int :=
  if x % 4294967296 < 2147483648 then x % 4294967296 else x % 4294967296 - 4294967296

/-- The scan `for (i = 0; i < frames.size(); i++) if (frames[i]->time > tick)`: the index
of the first frame, from index `i` on, whose time exceeds `tick`. -/
def firstAbove (tick : Int) : List Int → Nat → Option Nat
  | [], _ => none
  | t :: ts, i => if t > tick then some i else firstAbove tick ts (i + 1)

/-- The index `current` after the scan and the clamp `if (current < 0) current = 0`. -/
def currentFrame (times : List Int) (tick : Int) : Nat :=
  let current : Int :=
    match firstAbove tick times 0 with
    | some i => (i : Int) - 1
    | none => 0
  let current : Int := if current < 0 then 0 else current
  current.toNat

/-- The index `next`: `current + 1`, or 0 when that is not an index. -/
def nextFrame (times : List Int) (current : Nat) : Nat :=
  if current + 1 ≥ times.length then 0 else current + 1

/-- The playback position `tick`: 0 without a renderer, else the clock modulo the time of
the last frame. -/
def playbackTick (times : List Int) (millis : Option Int) : Int :=
  match millis with
  | some t => Int.tmod t (times.getLastD 0)
  | none => 0

/-- The quotient `((float) (tick - frames[current]->time)) /
((float) (frames[next]->time - frames[current]->time))`; `none` when the divisor is 0. -/
def interval (times : List Int) (tick : Int) (current next : Nat) : Option ℚ :=
  let num : ℚ := roundFloat (wrap32 (tick - times.getD current 0) : Int)
  let den : ℚ := roundFloat (wrap32 (times.getD next 0 - times.getD current 0) : Int)
  if den = 0 then none else some (roundFloat (num / den))

/-- The frame times of a mesh as `int` values. -/
def Mesh.times (mesh : Mesh) : List Int := mesh.frames.map (fun f => f.time.toInt)

/-- The quaternion of frame `i`. -/
def Mesh.quaternion (glm : Glm) (mesh : Mesh) (i : Nat) : RQuat :=
  match mesh.frames[i]? with
  | some f => glm.quat f.quaternion
  | none => ⟨0, 0, 0, 0⟩

/-- The quaternion `quat` of the branch `frames[frames.size() - 1]->time != 0`: the two
frames around the playback position, mixed and normalized. -/
def Mesh.sample (glm : Glm) (millis : Option Int) (mesh : Mesh) : Option RQuat :=
  let tick := playbackTick mesh.times millis
  let current := currentFrame mesh.times tick
  let next := nextFrame mesh.times current
  match interval mesh.times tick current next with
  | some t =>
    let quat := glm.mix (mesh.quaternion glm current) (mesh.quaternion glm next) t
    some (glm.normalize quat)
  | none => none

/-! ### The pose matrix and the offset matrix -/

/-- The translation of the pose matrix: the anchoring of the root, or `pos`. -/
def poseTranslation (glm : Glm) (bbrange bbmax : RVec3) (mesh : Mesh) (parent : Option Nat)
    (nChildren : Nat) : RVec3 :=
  if parent = none then
    if nChildren > 0 then ⟨-bbrange.x, -bbmax.y, -bbrange.z⟩
    else ⟨0, roundFloat (-bbmax.y + bbrange.y), 0⟩
  else glm.vec3 mesh.pos

/-- The rotation step of `calcMatrix1` applied to `m`: the static rotation, the sampled
frames, or the first frame. -/
def poseRotation (glm : Glm) (millis : Option Int) (mesh : Mesh) (m : RMat4) : Option RMat4 :=
  if mesh.frames.length = 0 then
    if |glm.val mesh.rotangle| > 1 / 100 then
      some (glm.rotate m
        (glm.radians
          (roundFloat (roundFloat (glm.val mesh.rotangle * 180) / roundFloat (314159 / 100000))))
        (glm.vec3 mesh.rotaxis))
    else some m
  else if mesh.times.getLastD 0 ≠ 0 then
    match mesh.sample glm millis with
    | some quat => some (m.mul (glm.toMat4 quat))
    | none => none
  else some (m.mul (glm.toMat4 (glm.normalize (mesh.quaternion glm 0))))

/-- The matrix `matrix1` that `calcMatrix1` gives a mesh; `bbrange` and `bbmax` are those of
the model. -/
def Mesh.matrix1 (glm : Glm) (millis : Option Int) (bbrange bbmax : RVec3) (mesh : Mesh)
    (parent : Option Nat) (nChildren : Nat) : Option RMat4 :=
  let m := RMat4.identity
  let m := m.translate (poseTranslation glm bbrange bbmax mesh parent nChildren)
  match poseRotation glm millis mesh m with
  | some m => some (m.scale (glm.vec3 mesh.scale))
  | none => none

/-- The matrix `matrix2` that `calcMatrix2` gives a mesh; `bbrange` is that of the model. -/
def Mesh.matrix2 (glm : Glm) (bbrange : RVec3) (mesh : Mesh) (parent : Option Nat)
    (nChildren : Nat) : RMat4 :=
  let m := RMat4.identity
  let m := if parent = none ∧ nChildren = 0 then
      m.translate ⟨-1 * bbrange.x, -1 * bbrange.y, -1 * bbrange.z⟩ else m
  let m := if parent ≠ none ∨ nChildren ≠ 0 then m.translate (glm.vec3 mesh.pos_) else m
  m.mul (glm.offset mesh.offset)

mutual
/-- The method `Rsm::Mesh::calcMatrix1`. -/
def Pose.calcMatrix1 (glm : Glm) (millis : Option Int) (bbrange bbmax : RVec3) :
    Pose → Option Pose
  | .mk mesh parent derived children =>
    match Mesh.matrix1 glm millis bbrange bbmax mesh parent children.length with
    | some m =>
      match calcMatrix1Children glm millis bbrange bbmax children with
      | some children' => some (.mk mesh parent { derived with matrix1 := m } children')
      | none => none
    | none => none
/-- The loop `children[i]->calcMatrix1()`. -/
def calcMatrix1Children (glm : Glm) (millis : Option Int) (bbrange bbmax : RVec3) :
    List Pose → Option (List Pose)
  | [] => some []
  | child :: rest =>
    match child.calcMatrix1 glm millis bbrange bbmax with
    | some child' =>
      match calcMatrix1Children glm millis bbrange bbmax rest with
      | some rest' => some (child' :: rest')
      | none => none
    | none => none
end

mutual
/-- The method `Rsm::Mesh::calcMatrix2`. -/
def Pose.calcMatrix2 (glm : Glm) (bbrange : RVec3) : Pose → Pose
  | .mk mesh parent derived children =>
    .mk mesh parent { derived with matrix2 := Mesh.matrix2 glm bbrange mesh parent children.length }
      (calcMatrix2Children glm bbrange children)
/-- The loop `children[i]->calcMatrix2()`. -/
def calcMatrix2Children (glm : Glm) (bbrange : RVec3) : List Pose → List Pose
  | [] => []
  | child :: rest => child.calcMatrix2 glm bbrange :: calcMatrix2Children glm bbrange rest
end

/-! ### The bounding-box passes -/

/-- The vertex indices that the loops over the faces and their three corners visit. -/
def Mesh.corners (mesh : Mesh) : List Nat :=
  mesh.faces.flatMap (fun f => [f.vertices0.val, f.vertices1.val, f.vertices2.val])

/-- The component-wise `glm::min` of a box corner with a point. -/
def RVec3.minWith (a : RVec3) (v : RVec4) : RVec3 := ⟨min a.x v.x, min a.y v.y, min a.z v.z⟩

/-- The component-wise `glm::max` of a box corner with a point. -/
def RVec3.maxWith (a : RVec3) (v : RVec4) : RVec3 := ⟨max a.x v.x, max a.y v.y, max a.z v.z⟩

/-- The vector `(a + b) / 2.0f`. -/
def RVec3.mid (a b : RVec3) : RVec3 :=
  ⟨roundFloat (roundFloat (a.x + b.x) / 2), roundFloat (roundFloat (a.y + b.y) / 2),
   roundFloat (roundFloat (a.z + b.z) / 2)⟩

/-- The position of vertex `i` of a mesh under the matrix `m` and the shift `shift`:
`m * glm::vec4(vertices[i], 1)`, plus the shift. -/
def Mesh.position (glm : Glm) (mesh : Mesh) (m : RMat4) (shift : RVec4) (i : Nat) :
    Option RVec4 :=
  match mesh.vertices[i]? with
  | some v => some ((m.mulVec (glm.vec3 v).toVec4).add shift)
  | none => none

/-- The loops over the faces and their corners: every position is merged into the box. -/
def mergeCorners (glm : Glm) (mesh : Mesh) (m : RMat4) (shift : RVec4) :
    List Nat → RVec3 → RVec3 → Option (RVec3 × RVec3)
  | [], bbmin, bbmax => some (bbmin, bbmax)
  | i :: rest, bbmin, bbmax =>
    match mesh.position glm m shift i with
    | some v => mergeCorners glm mesh m shift rest (bbmin.minWith v) (bbmax.maxWith v)
    | none => none

/-- The shift `glm::vec4(pos + pos_, 1)` that `setBoundingBox` adds for a mesh with a parent
or with children. -/
def Mesh.boxShift (glm : Glm) (mesh : Mesh) (parent : Option Nat) (nChildren : Nat) : RVec4 :=
  if parent ≠ none ∨ nChildren ≠ 0 then
    ⟨roundFloat (glm.val mesh.pos.x + glm.val mesh.pos_.x),
     roundFloat (glm.val mesh.pos.y + glm.val mesh.pos_.y),
     roundFloat (glm.val mesh.pos.z + glm.val mesh.pos_.z), 1⟩
  else ⟨0, 0, 0, 0⟩

/-- The box `bbmin`, `bbmax` that `setBoundingBox` gives a mesh. -/
def Mesh.box (glm : Glm) (mesh : Mesh) (parent : Option Nat) (nChildren : Nat) :
    Option (RVec3 × RVec3) :=
  let bbmin : RVec3 := if parent ≠ none then ⟨0, 0, 0⟩ else ⟨9999999, 9999999, 9999999⟩
  let bbmax : RVec3 := if parent ≠ none then ⟨0, 0, 0⟩ else ⟨-9999999, -9999999, -9999999⟩
  mergeCorners glm mesh (glm.offset mesh.offset) (mesh.boxShift glm parent nChildren)
    mesh.corners bbmin bbmax

/-- The component-wise minimum of two box corners. -/
def RVec3.inf (a b : RVec3) : RVec3 := ⟨min a.x b.x, min a.y b.y, min a.z b.z⟩

/-- The component-wise maximum of two box corners. -/
def RVec3.sup (a b : RVec3) : RVec3 := ⟨max a.x b.x, max a.y b.y, max a.z b.z⟩

mutual
/-- The method `Rsm::Mesh::setBoundingBox`; `bbmin_` and `bbmax_` are the box of the model
that the call updates. -/
def Pose.setBoundingBox (glm : Glm) : Pose → RVec3 → RVec3 → Option (Pose × RVec3 × RVec3)
  | .mk mesh parent derived children, bbmin_, bbmax_ =>
    match mesh.box glm parent children.length with
    | some (bbmin, bbmax) =>
      match setBoundingBoxChildren glm children (bbmin_.inf bbmin) (bbmax_.sup bbmax) with
      | some (children', lo, hi) =>
        some (.mk mesh parent
          { derived with bbmin := bbmin, bbmax := bbmax, bbrange := bbmin.mid bbmax } children',
          lo, hi)
      | none => none
    | none => none
/-- The loop `children[i]->setBoundingBox(_bbmin, _bbmax)`. -/
def setBoundingBoxChildren (glm : Glm) :
    List Pose → RVec3 → RVec3 → Option (List Pose × RVec3 × RVec3)
  | [], bbmin_, bbmax_ => some ([], bbmin_, bbmax_)
  | child :: rest, bbmin_, bbmax_ =>
    match child.setBoundingBox glm bbmin_ bbmax_ with
    | some (child', lo, hi) =>
      match setBoundingBoxChildren glm rest lo hi with
      | some (rest', lo', hi') => some (child' :: rest', lo', hi')
      | none => none
    | none => none
end

mutual
/-- The method `Rsm::Mesh::setBoundingBox2`; `bbmin_` and `bbmax_` are the world-space box
of the model that the call updates. -/
def Pose.setBoundingBox2 (glm : Glm) : Pose → RMat4 → RVec3 → RVec3 → Option (RVec3 × RVec3)
  | .mk mesh _ derived children, mat, bbmin_, bbmax_ =>
    let mat1 := mat.mul derived.matrix1
    let mat2 := (mat.mul derived.matrix1).mul derived.matrix2
    match mergeCorners glm mesh mat2 ⟨0, 0, 0, 0⟩ mesh.corners bbmin_ bbmax_ with
    | some (lo, hi) => setBoundingBox2Children glm children mat1 lo hi
    | none => none
/-- The loop `children[i]->setBoundingBox2(mat1, bbmin_, bbmax_)`. -/
def setBoundingBox2Children (glm : Glm) :
    List Pose → RMat4 → RVec3 → RVec3 → Option (RVec3 × RVec3)
  | [], _, bbmin_, bbmax_ => some (bbmin_, bbmax_)
  | child :: rest, mat, bbmin_, bbmax_ =>
    match child.setBoundingBox2 glm mat bbmin_ bbmax_ with
    | some (lo, hi) => setBoundingBox2Children glm rest mat lo hi
    | none => none
end

/-- The matrix `glm::scale(glm::mat4(), glm::vec3(1, -1, 1))`. -/
def flipY : RMat4 := RMat4.identity.scale ⟨1, -1, 1⟩

/-- The method `Rsm::updateMatrices`. -/
def updateMatrices (glm : Glm) (millis : Option Int) (model : Model) : Option Model :=
  let bbmin : RVec3 := ⟨999999, 999999, 999999⟩
  let bbmax : RVec3 := ⟨-999999, -999999, -9999999⟩
  match model.rootMesh.setBoundingBox glm bbmin bbmax with
  | some (root, bbmin, bbmax) =>
    let bbrange := bbmin.mid bbmax
    match root.calcMatrix1 glm millis bbrange bbmax with
    | some root =>
      let root := root.calcMatrix2 glm bbrange
      let realbbmax : RVec3 := ⟨-999999, -999999, -999999⟩
      let realbbmin : RVec3 := ⟨999999, 999999, 999999⟩
      match root.setBoundingBox2 glm flipY realbbmin realbbmax with
      | some (realbbmin, realbbmax) =>
        some { bbmin, bbmax, bbrange, realbbmin, realbbmax,
               realbbrange := realbbmax.mid realbbmin,
               maxRange := max (max realbbmax.x (-realbbmin.x))
                 (max (max realbbmax.y (-realbbmin.y)) (max realbbmax.z (-realbbmin.z))),
               rootMesh := root }
      | none => none
    | none => none
  | none => none

/-! ### The visits of the world-space pass -/

mutual
/-- The calls `setBoundingBox2(mat, ...)` that one call on a node makes, itself first: each
visited node with the base matrix `mat` of its call. -/
def Pose.placed : Pose → RMat4 → List (RMat4 × Pose)
  | .mk mesh parent derived children, mat =>
    (mat, .mk mesh parent derived children) :: placedChildren children (mat.mul derived.matrix1)
/-- The calls that the loop over a child list makes. -/
def placedChildren : List Pose → RMat4 → List (RMat4 × Pose)
  | [], _ => []
  | child :: rest, mat => child.placed mat ++ placedChildren rest mat
end

/-- The matrix `mat2` of a visit: `mat * matrix1 * matrix2`. -/
def composed (visit : RMat4 × Pose) : RMat4 :=
  (visit.1.mul visit.2.derived.matrix1).mul visit.2.derived.matrix2

/-- The face loops of a list of visits, one after the other, on the same accumulator. -/
def mergeVisits (glm : Glm) : List (RMat4 × Pose) → RVec3 → RVec3 → Option (RVec3 × RVec3)
  | [], bbmin_, bbmax_ => some (bbmin_, bbmax_)
  | visit :: rest, bbmin_, bbmax_ =>
    match mergeCorners glm visit.2.mesh (composed visit) ⟨0, 0, 0, 0⟩ visit.2.mesh.corners
        bbmin_ bbmax_ with
    | some (lo, hi) => mergeVisits glm rest lo hi
    | none => none

/-- A point lies in a box on all three axes. -/
def RVec4.within (v : RVec4) (lo hi : RVec3) : Prop :=
  (lo.x ≤ v.x ∧ v.x ≤ hi.x) ∧ (lo.y ≤ v.y ∧ v.y ≤ hi.y) ∧ (lo.z ≤ v.z ∧ v.z ≤ hi.z)

/-- A box corner is below another on all three axes. -/
def RVec3.le (a b : RVec3) : Prop := a.x ≤ b.x ∧ a.y ≤ b.y ∧ a.z ≤ b.z

/-- The inputs on which `updateMatrices` has a defined result: every vertex index of a face
is an index of the vertex list, and no sampled mesh divides by zero. -/
def Pose.Defined (glm : Glm) (millis : Option Int) (pose : Pose) : Prop :=
  ∀ mesh ∈ pose.node.preorder, (∀ i ∈ mesh.corners, i < mesh.vertices.length) ∧
    (mesh.frames.length ≠ 0 → mesh.times.getLastD 0 ≠ 0 → mesh.sample glm millis ≠ none)

mutual
/-- A posed tree with the derived fields of every node replaced; the new fields are given
by the mesh, the parent link, the number of children and the old fields. -/
def Pose.mapDerived (f : Mesh → Option Nat → Nat → Derived → Derived) : Pose → Pose
  | .mk mesh parent derived children =>
    .mk mesh parent (f mesh parent children.length derived) (mapDerivedChildren f children)
/-- The replacement on a child list. -/
def mapDerivedChildren (f : Mesh → Option Nat → Nat → Derived → Derived) :
    List Pose → List Pose
  | [] => []
  | child :: rest => child.mapDerived f :: mapDerivedChildren f rest
end

/-- The fields that `setBoundingBox` writes in a node. -/
def boxFields (glm : Glm) (mesh : Mesh) (parent : Option Nat) (nChildren : Nat)
    (derived : Derived) : Derived :=
  match mesh.box glm parent nChildren with
  | some (bbmin, bbmax) => { derived with bbmin := bbmin, bbmax := bbmax, bbrange := bbmin.mid bbmax }
  | none => derived

/-- The field that `calcMatrix1` writes in a node. -/
def matrix1Field (glm : Glm) (millis : Option Int) (bbrange bbmax : RVec3) (mesh : Mesh)
    (parent : Option Nat) (nChildren : Nat) (derived : Derived) : Derived :=
  match Mesh.matrix1 glm millis bbrange bbmax mesh parent nChildren with
  | some m => { derived with matrix1 := m }
  | none => derived

/-- The field that `calcMatrix2` writes in a node. -/
def matrix2Field (glm : Glm) (bbrange : RVec3) (mesh : Mesh) (parent : Option Nat)
    (nChildren : Nat) (derived : Derived) : Derived :=
  { derived with matrix2 := Mesh.matrix2 glm bbrange mesh parent nChildren }

/-- The fields that one run of `updateMatrices` writes in a node; `bbrange` and `bbmax` are
those of the model. -/
def updatedFields (glm : Glm) (millis : Option Int) (bbrange bbmax : RVec3) (mesh : Mesh)
    (parent : Option Nat) (nChildren : Nat) (derived : Derived) : Derived :=
  matrix2Field glm bbrange mesh parent nChildren
    (matrix1Field glm millis bbrange bbmax mesh parent nChildren
      (boxFields glm mesh parent nChildren derived))

/-! ### The world-space pass as the specification words it -/

mutual
/-- The world-space pass in the words of the specification: the vertices of a node are
transformed by base × pose, and the children are visited with base × pose × offset. -/
def Pose.setBoundingBox2Spec (glm : Glm) :
    Pose → RMat4 → RVec3 → RVec3 → Option (RVec3 × RVec3)
  | .mk mesh _ derived children, mat, bbmin_, bbmax_ =>
    match mergeCorners glm mesh (mat.mul derived.matrix1) ⟨0, 0, 0, 0⟩ mesh.corners
        bbmin_ bbmax_ with
    | some (lo, hi) =>
      setBoundingBox2SpecChildren glm children ((mat.mul derived.matrix1).mul derived.matrix2)
        lo hi
    | none => none
/-- The loop over the children in the words of the specification. -/
def setBoundingBox2SpecChildren (glm : Glm) :
    List Pose → RMat4 → RVec3 → RVec3 → Option (RVec3 × RVec3)
  | [], _, bbmin_, bbmax_ => some (bbmin_, bbmax_)
  | child :: rest, mat, bbmin_, bbmax_ =>
    match child.setBoundingBox2Spec glm mat bbmin_ bbmax_ with
    | some (lo, hi) => setBoundingBox2SpecChildren glm rest mat lo hi
    | none => none
end

/-! ### Example inputs of the transform engine -/

/-- The value of a finite IEEE 754 binary32 number given by its bits. -/
def floatValue (w : Word32) : ℚ :=
  let sign : ℚ := if w.val / 2147483648 = 1 then -1 else 1
  let exponent := w.val / 8388608 % 256
  let fraction := w.val % 8388608
  if exponent = 0 then sign * fraction / 2 ^ 149
  else sign * (8388608 + fraction) * 2 ^ exponent / 2 ^ 150

/-- The matrix of a quaternion as `glm::toMat4` computes it. -/
def quatMatrix (q : RQuat) : RMat4 :=
  ⟨⟨1 - 2 * (q.y * q.y + q.z * q.z), 2 * (q.x * q.y + q.w * q.z), 2 * (q.x * q.z - q.w * q.y), 0⟩,
   ⟨2 * (q.x * q.y - q.w * q.z), 1 - 2 * (q.x * q.x + q.z * q.z), 2 * (q.y * q.z + q.w * q.x), 0⟩,
   ⟨2 * (q.x * q.z + q.w * q.y), 2 * (q.y * q.z - q.w * q.x), 1 - 2 * (q.x * q.x + q.y * q.y), 0⟩,
   ⟨0, 0, 0, 1⟩⟩

/-- An instance of the library for the examples, exact on what they use: floats by their
IEEE value, a rotation by the angle 0, the linear mix, the normalization of a quaternion of
length 1. -/
def restGlm : Glm where
  val := floatValue
  radians := fun degrees => degrees * (314159265358979 / 100000000000000) / 180
  rotate := fun m _ _ => m
  mix := fun a b t =>
    ⟨a.x * (1 - t) + b.x * t, a.y * (1 - t) + b.y * t, a.z * (1 - t) + b.z * t,
     a.w * (1 - t) + b.w * t⟩
  normalize := fun q => q
  toMat4 := quatMatrix

/-- The bits of the float 1.0. -/
def one32 : Word32 := 1065353216

/-- The bits of the float 2.0. -/
def two32 : Word32 := 1073741824

/-- The bits of the float 4.0. -/
def four32 : Word32 := 1082130432

/-- A mesh named "A" with the identity as offset matrix, scale (1, 1, 1), the two vertices
(0, 0, 0) and (2, 4, 2) and one face on them. -/
def boxMesh : Mesh :=
  { meshOf 0 nameA [] with
    offset := ⟨⟨one32, 0, 0⟩, ⟨0, one32, 0⟩, ⟨0, 0, one32⟩⟩
    scale := ⟨one32, one32, one32⟩
    vertices := [⟨0, 0, 0⟩, ⟨two32, four32, two32⟩]
    faces := [⟨0, 1, 1, 0, 0, 0, 0, 0, 0⟩] }

/-- Derived fields before the first run of `updateMatrices`. -/
def freshDerived : Derived :=
  ⟨RMat4.identity, RMat4.identity, ⟨0, 0, 0⟩, ⟨0, 0, 0⟩, ⟨0, 0, 0⟩⟩

/-- A model before the first run of `updateMatrices`. -/
def freshModel (rootMesh : Pose) : Model :=
  ⟨⟨0, 0, 0⟩, ⟨0, 0, 0⟩, ⟨0, 0, 0⟩, ⟨0, 0, 0⟩, ⟨0, 0, 0⟩, ⟨0, 0, 0⟩, 0, rootMesh⟩

/-- The model whose only mesh is `boxMesh`. -/
def boxModel : Model := freshModel (.mk boxMesh none freshDerived [])

/-- A mesh named "A" without faces, with the identity as offset matrix, scale (1, 1, 1) and
the pivot `pos_` = (1, 0, 0). -/
def pivotMesh : Mesh :=
  { meshOf 0 nameA [] with
    offset := ⟨⟨one32, 0, 0⟩, ⟨0, one32, 0⟩, ⟨0, 0, one32⟩⟩
    scale := ⟨one32, one32, one32⟩
    pos_ := ⟨one32, 0, 0⟩ }

/-- A mesh named "B" with parent name "A", the identity as offset matrix, scale (1, 1, 1),
the vertex (2, 4, 2) and one face on it. -/
def pointMesh : Mesh :=
  { meshOf 1 nameB nameA with
    offset := ⟨⟨one32, 0, 0⟩, ⟨0, one32, 0⟩, ⟨0, 0, one32⟩⟩
    scale := ⟨one32, one32, one32⟩
    vertices := [⟨two32, four32, two32⟩]
    faces := [⟨0, 0, 0, 0, 0, 0, 0, 0, 0⟩] }

/-- The model whose root is `pivotMesh` with the one child `pointMesh`. -/
def pivotModel : Model :=
  freshModel (.mk pivotMesh none freshDerived [.mk pointMesh (some 0) freshDerived []])

/-- The accumulators that `updateMatrices` hands to the world-space pass. -/
def realStart : RVec3 × RVec3 := (⟨999999, 999999, 999999⟩, ⟨-999999, -999999, -999999⟩)

/-! ### Example inputs of the hierarchy builder -/

/-- A file with the two meshes "A" and "B", each naming the other as its parent, and the main
node "A". -/
def cycleFile : List Byte :=
  fileOf nameA [recordOf nameA nameB, recordOf nameB nameA] 0 0

/-- The mesh map of `cycleFile`. -/
def cycleMeshes : MeshMap :=
  [(nameA, meshOf 0 nameA nameB), (nameB, meshOf 1 nameB nameA)]

/-- The bits of the float 1 + 2^-23, the binary32 value next above 1.0. -/
def onePlus32 : Word32 := 1065353217

/-- A mesh named "A" with the identity as offset matrix, scale (1, 1, 1), the two vertices
(0, 1, 0) and (0, 1 + 2^-23, 0) and one face on them. -/
def thinMesh : Mesh :=
  { meshOf 0 nameA [] with
    offset := ⟨⟨one32, 0, 0⟩, ⟨0, one32, 0⟩, ⟨0, 0, one32⟩⟩
    scale := ⟨one32, one32, one32⟩
    vertices := [⟨0, one32, 0⟩, ⟨0, onePlus32, 0⟩]
    faces := [⟨0, 1, 1, 0, 0, 0, 0, 0, 0⟩] }

/-- The model whose only mesh is `thinMesh`. -/
def thinModel : Model := freshModel (.mk thinMesh none freshDerived [])

/-! ### The vertex lookups of the face normals -/

/-- The lookups `vertices[f->vertices[0]]`, `vertices[f->vertices[1]]` and
`vertices[f->vertices[2]]` that the constructor `Rsm::Mesh::Mesh` makes for the normal of a
face, the vertex list being read already; `none` when an index is outside the vertex list. -/
def Mesh.normalCorners (mesh : Mesh) (f : Face) : Option (Vec3 × Vec3 × Vec3) :=
  match mesh.vertices[f.vertices0.val]?, mesh.vertices[f.vertices1.val]?,
    mesh.vertices[f.vertices2.val]? with
  | some a, some b, some c => some (a, b, c)
  | _, _, _ => none

/-- A face with the vertex indices 0, 0 and 7; every other field is 0. -/
def strayFace : Face := ⟨0, 0, 7, 0, 0, 0, 0, 0, 0⟩

/-- A mesh record with the given names, one vertex (0, 0, 0), no texture coordinates, the one
face `strayFace` and no frames; every float is 0. -/
def strayRecord (name parentName : Str) : List Byte :=
  StreamOut.writeString name 40 ++ StreamOut.writeString parentName 40 ++ List.replicate 92 0 ++
  StreamOut.writeInt 1 ++ List.replicate 12 0 ++ StreamOut.writeInt 0 ++
  StreamOut.writeInt 1 ++ StreamOut.writeWord 0 ++ StreamOut.writeWord 0 ++ StreamOut.writeWord 7 ++ List.replicate 18 0 ++
  StreamOut.writeInt 0

/-- The mesh that the record `strayRecord nameA []` holds. -/
def strayMesh : Mesh :=
  { meshOf 0 nameA [] with vertices := [⟨0, 0, 0⟩], faces := [strayFace] }

/-- A file whose only mesh record is `strayRecord nameA []`. -/
def strayFile : List Byte := fileOf nameA [strayRecord nameA []] 0 0

/-! ### Example inputs of the sampler -/

/-- A frame at the given time with the quaternion (0, 0, 0, 1). -/
def frameAt (time : Word32) : Frame := ⟨time, ⟨0, 0, 0, 1065353216⟩⟩

/-- A mesh named "A" without vertices and faces, with frames at the given times. -/
def animatedMesh (times : List Word32) : Mesh :=
  { meshOf 0 nameA [] with frames := times.map frameAt }

theorem bind_apply {α β : Type} (r : Reader α) (f : α → Reader β) (s : List Byte) :
    (r >>= f) s = match r s with
      | .ok (a, s') => f a s'
      | .error e => .error e := by
  show (StateT.bind r f) s = _
  unfold StateT.bind
  show (r s >>= _) = _
  cases h : r s with
  | error e => rfl
  | ok p => cases p; rfl

theorem bind_ok {α β : Type} {r : Reader α} {f : α → Reader β} {s s' : List Byte} {a : α}
    (h : r s = .ok (a, s')) : (r >>= f) s = f a s' := by
  rw [bind_apply, h]

theorem bind_error {α β : Type} {r : Reader α} {f : α → Reader β} {s : List Byte} {e : Failure}
    (h : r s = .error e) : (r >>= f) s = .error e := by
  rw [bind_apply, h]

theorem bind_eq_ok {α β : Type} {r : Reader α} {f : α → Reader β} {s : List Byte}
    {x : β × List Byte} :
    (r >>= f) s = .ok x ↔ ∃ a s', r s = .ok (a, s') ∧ f a s' = .ok x := by
  rw [bind_apply]
  cases h : r s with
  | error e => simp
  | ok p =>
    obtain ⟨a, s'⟩ := p
    constructor
    · intro hf; exact ⟨a, s', rfl, hf⟩
    · rintro ⟨a', s'', heq, hf⟩
      cases heq; exact hf

theorem bind_eq_error {α β : Type} {r : Reader α} {f : α → Reader β} {s : List Byte}
    {e : Failure} :
    (r >>= f) s = .error e ↔
      r s = .error e ∨ ∃ a s', r s = .ok (a, s') ∧ f a s' = .error e := by
  rw [bind_apply]
  cases h : r s with
  | error e => simp
  | ok p =>
    obtain ⟨a, s'⟩ := p
    constructor
    · intro hf; exact Or.inr ⟨a, s', rfl, hf⟩
    · rintro (h' | ⟨a', s'', heq, hf⟩)
      · cases h'
      · cases heq; exact hf

theorem pure_apply {α : Type} (a : α) (s : List Byte) :
    (pure a : Reader α) s = .ok (a, s) := rfl

theorem throw_apply {α : Type} (e : Failure) (s : List Byte) :
    (throw e : Reader α) s = .error e := rfl

theorem assert_true {e : Failure} (s : List Byte) : assert true e s = .ok ((), s) := rfl

theorem assert_false {e : Failure} (s : List Byte) : assert false e s = .error e := rfl

theorem returnIf_true {f : List Byte → Failure} (s : List Byte) :
    returnIf true f s = .error (f s) := rfl

theorem returnIf_false {f : List Byte → Failure} (s : List Byte) :
    returnIf false f s = .ok ((), s) := rfl

/-! ### Failures of the readers -/

theorem failsWith_pure {P : Failure → Prop} {α : Type} (a : α) :
    FailsWith P (pure a : Reader α) := by
  intro s e h; cases h

theorem failsWith_throw {P : Failure → Prop} {α : Type} {e : Failure} (h : P e) :
    FailsWith P (throw e : Reader α) := by
  intro s e' h'; cases h'; exact h

theorem failsWith_bind {P : Failure → Prop} {α β : Type} {r : Reader α} {f : α → Reader β}
    (hr : FailsWith P r) (hf : ∀ a, FailsWith P (f a)) : FailsWith P (r >>= f) := by
  intro s e h
  rcases bind_eq_error.1 h with h | ⟨a, s', _, h⟩
  · exact hr s e h
  · exact hf a s' e h

theorem failsWith_ite {P : Failure → Prop} {α : Type} {c : Prop} [Decidable c]
    {r₁ r₂ : Reader α} (h₁ : FailsWith P r₁) (h₂ : FailsWith P r₂) :
    FailsWith P (if c then r₁ else r₂) := by
  split <;> assumption

theorem failsWith_read (n : Nat) : FailsWith Failure.inRecord (StreamInFile.read n) := by
  intro s e h
  unfold StreamInFile.read at h
  split at h
  · cases h
  · cases h; trivial

theorem failsWith_get : FailsWith Failure.inRecord StreamInFile.get := by
  intro s e h
  unfold StreamInFile.get at h
  split at h
  · cases h
  · cases h; trivial

theorem failsWith_readShort : FailsWith Failure.inRecord readShort := by
  intro s e h
  unfold readShort at h
  split at h
  · cases h
  · cases h; trivial

theorem failsWith_readInt : FailsWith Failure.inRecord readInt := by
  intro s e h
  unfold readInt at h
  split at h
  · cases h
  · cases h; trivial

theorem failsWith_readString (n : Nat) : FailsWith Failure.inRecord (readString n) :=
  failsWith_bind (failsWith_read n) (fun _ => failsWith_pure _)

theorem failsWith_readMany {α : Type} {r : Reader α} (hr : FailsWith Failure.inRecord r) (n : Nat) :
    FailsWith Failure.inRecord (readMany r n) := by
  induction n with
  | zero => exact failsWith_pure _
  | succ n ih =>
    exact failsWith_bind hr (fun _ => failsWith_bind ih (fun _ => failsWith_pure _))

theorem failsWith_readVec2 : FailsWith Failure.inRecord readVec2 :=
  failsWith_bind failsWith_readInt (fun _ => failsWith_bind failsWith_readInt
    (fun _ => failsWith_pure _))

theorem failsWith_readVec3 : FailsWith Failure.inRecord readVec3 :=
  failsWith_bind failsWith_readInt (fun _ => failsWith_bind failsWith_readInt
    (fun _ => failsWith_bind failsWith_readInt (fun _ => failsWith_pure _)))

theorem failsWith_resize (count : Word32) : FailsWith Failure.inRecord (resize count) := by
  unfold resize
  exact failsWith_ite (failsWith_throw trivial) (failsWith_pure _)

theorem failsWith_assert {P : Failure → Prop} {e : Failure} (h : P e) (c : Bool) :
    FailsWith P (assert c e) := by
  intro s e' h'
  cases c
  · cases h'; exact h
  · cases h'

theorem failsWith_returnIf {P : Failure → Prop} {f : List Byte → Failure} (h : ∀ rest, P (f rest))
    (c : Bool) : FailsWith P (returnIf c f) := by
  intro s e' h'
  cases c
  · cases h'
  · cases h'; exact h s

theorem failsWith_readTodo (version : Word16) :
    FailsWith Failure.inRecord (readTodo version) := by
  unfold readTodo
  refine failsWith_ite ?_ (failsWith_pure _)
  exact failsWith_bind failsWith_readInt (fun _ => failsWith_assert trivial _)

theorem failsWith_readTexCoord (version : Word16) :
    FailsWith Failure.inRecord (readTexCoord version) :=
  failsWith_bind (failsWith_readTodo version) (fun _ => failsWith_readVec2)

theorem failsWith_readFace : FailsWith Failure.inRecord readFace := by
  unfold readFace
  repeat (first
    | exact failsWith_pure _
    | refine failsWith_bind failsWith_readShort (fun _ => ?_)
    | refine failsWith_bind failsWith_readInt (fun _ => ?_))

theorem failsWith_readFrame : FailsWith Failure.inRecord readFrame := by
  unfold readFrame
  repeat (first
    | exact failsWith_pure _
    | refine failsWith_bind failsWith_readInt (fun _ => ?_))

theorem failsWith_meshRead (version : Word16) (addr : Nat) :
    FailsWith Failure.inRecord (Mesh.read version addr) := by
  unfold Mesh.read
  repeat (first
    | exact failsWith_pure _
    | refine failsWith_bind (failsWith_readString _) (fun _ => ?_)
    | refine failsWith_bind failsWith_readInt (fun _ => ?_)
    | refine failsWith_bind failsWith_readVec3 (fun _ => ?_)
    | refine failsWith_bind (failsWith_resize _) (fun _ => ?_)
    | refine failsWith_bind (failsWith_readMany failsWith_readInt _) (fun _ => ?_)
    | refine failsWith_bind (failsWith_readMany failsWith_readVec3 _) (fun _ => ?_)
    | refine failsWith_bind (failsWith_readMany (failsWith_readTexCoord _) _) (fun _ => ?_)
    | refine failsWith_bind (failsWith_readMany failsWith_readFace _) (fun _ => ?_)
    | refine failsWith_bind (failsWith_readMany failsWith_readFrame _) (fun _ => ?_))

theorem failsWith_readMeshes (version : Word16) (n i : Nat) (meshes : MeshMap) :
    FailsWith Failure.inRecord (readMeshes version n i meshes) := by
  induction n generalizing i meshes with
  | zero => exact failsWith_pure _
  | succ n ih => exact failsWith_bind (failsWith_meshRead _ _) (fun _ => ih _ _)

theorem failsWith_mono {P Q : Failure → Prop} {α : Type} {r : Reader α}
    (h : FailsWith P r) (hPQ : ∀ e, P e → Q e) : FailsWith Q r :=
  fun s e he => hPQ e (h s e he)

theorem inRecord_not_unknownHeader (e : Failure) (h : e.inRecord) :
    ∀ rest, e ≠ .unknownHeader rest := by
  intro rest heq; subst heq; exact h

theorem liftM_apply {α : Type} (x : Except Failure α) (s : List Byte) :
    (liftM x : Reader α) s = match x with
      | .ok a => .ok (a, s)
      | .error e => .error e := by
  cases x <;> rfl

theorem failsWith_selectRoot {P : Failure → Prop} (hP : P .emptyMeshes) (meshes : MeshMap)
    (mainNodeName : Str) : FailsWith P (liftM (selectRoot meshes mainNodeName) : Reader Mesh) := by
  intro s e h
  rw [liftM_apply] at h
  cases hsel : selectRoot meshes mainNodeName with
  | ok m => rw [hsel] at h; cases h
  | error e' =>
    rw [hsel] at h
    cases h
    unfold selectRoot at hsel
    split at hsel
    · cases hsel
    · split at hsel
      · cases hsel
      · cases hsel; exact hP

theorem failsWith_orOutOfFuel {P : Failure → Prop} (hP : P .outOfFuel) (root : Option Node) :
    FailsWith P (orOutOfFuel root) := by
  intro s e h
  cases root
  · cases h; exact hP
  · cases h

theorem failsWith_loadMeshes (fuel : Nat) (version : Word16) (animLen shadeType : Word32)
    (alpha : Byte) (unknown : List Byte) (textures : List Str) :
    FailsWith (fun e => ∀ rest, e ≠ .unknownHeader rest)
      (loadMeshes fuel version animLen shadeType alpha unknown textures) := by
  unfold loadMeshes
  refine failsWith_bind (failsWith_mono (failsWith_readString _) inRecord_not_unknownHeader)
    (fun _ => ?_)
  refine failsWith_bind (failsWith_mono failsWith_readInt inRecord_not_unknownHeader)
    (fun _ => ?_)
  refine failsWith_bind (failsWith_mono (failsWith_readMeshes _ _ _ _) inRecord_not_unknownHeader)
    (fun _ => ?_)
  refine failsWith_bind (failsWith_selectRoot (by intro rest h; cases h) _ _) (fun _ => ?_)
  exact failsWith_bind (failsWith_orOutOfFuel (by intro rest h; cases h) _)
    (fun _ => failsWith_pure _)

theorem failsWith_loadTextures (fuel : Nat) (version : Word16) (animLen shadeType : Word32)
    (alpha : Byte) (unknown : List Byte) :
    FailsWith (fun e => ∀ rest, e ≠ .unknownHeader rest)
      (loadTextures fuel version animLen shadeType alpha unknown) := by
  unfold loadTextures
  dsimp only
  refine failsWith_bind (failsWith_mono failsWith_readInt inRecord_not_unknownHeader)
    (fun _ => ?_)
  refine failsWith_bind (failsWith_returnIf (by intro r rest h; cases h) _) (fun _ => ?_)
  refine failsWith_bind (failsWith_mono (failsWith_readMany (failsWith_readString _) _)
    inRecord_not_unknownHeader) (fun _ => ?_)
  exact failsWith_loadMeshes _ _ _ _ _ _ _

theorem failsWith_loadFields (fuel : Nat) :
    FailsWith (fun e => ∀ rest, e ≠ .unknownHeader rest) (loadFields fuel) := by
  unfold loadFields
  refine failsWith_bind (failsWith_mono failsWith_readShort inRecord_not_unknownHeader)
    (fun _ => ?_)
  refine failsWith_bind (failsWith_mono failsWith_readInt inRecord_not_unknownHeader)
    (fun _ => ?_)
  refine failsWith_bind (failsWith_mono failsWith_readInt inRecord_not_unknownHeader)
    (fun _ => ?_)
  refine failsWith_bind ?_ (fun _ => ?_)
  · unfold readAlpha
    split
    · exact failsWith_mono failsWith_get inRecord_not_unknownHeader
    · exact failsWith_pure _
  refine failsWith_bind (failsWith_mono (failsWith_read _) inRecord_not_unknownHeader)
    (fun _ => ?_)
  exact failsWith_bind (failsWith_assert (by intro rest h; cases h) _)
    (fun _ => failsWith_loadTextures _ _ _ _ _ _)

theorem failsWith_loadTrailer :
    FailsWith (fun e => ∀ rest, e ≠ .unknownHeader rest) loadTrailer := by
  unfold loadTrailer
  refine failsWith_bind (failsWith_mono failsWith_readInt inRecord_not_unknownHeader)
    (fun _ => ?_)
  refine failsWith_bind (failsWith_assert (by intro rest h; cases h) _) (fun _ => ?_)
  exact failsWith_bind (failsWith_mono failsWith_readInt inRecord_not_unknownHeader)
    (fun _ => failsWith_pure _)

theorem read_of_le {n : Nat} {s : List Byte} (h : n ≤ s.length) :
    StreamInFile.read n s = .ok (s.take n, s.drop n) := by
  unfold StreamInFile.read; rw [if_pos h]

theorem loadBody_apply (fuel : Nat) (s : List Byte) (h : 4 ≤ s.length) :
    loadBody fuel s =
      if s.take 4 = rejectedHeader then .error (.unknownHeader (s.drop 4))
      else loadFields fuel (s.drop 4) := by
  unfold loadBody
  rw [bind_ok (read_of_le h)]
  by_cases hm : s.take 4 = rejectedHeader
  · rw [if_pos hm, bind_error]
    rw [show (List.take 4 s == rejectedHeader) = true from by simpa using hm, returnIf_true]
  · rw [if_neg hm, bind_ok]
    rw [show (List.take 4 s == rejectedHeader) = false from by simpa using hm, returnIf_false]

theorem load_apply (fuel : Nat) (s : List Byte) :
    load fuel s = match loadBody fuel s with
      | .ok (doc, s') =>
        (match loadTrailer s' with
          | .ok (_, s'') => .ok (doc, s'')
          | .error e => .error e)
      | .error e => .error e := by
  unfold load
  rw [bind_apply]
  cases loadBody fuel s with
  | error e => rfl
  | ok p =>
    obtain ⟨doc, s'⟩ := p
    simp only
    rw [bind_apply]
    cases loadTrailer s' with
    | error e => rfl
    | ok q => rfl

theorem parse_eq_error {fuel : Nat} {file : List Byte} {e : Failure} :
    parse fuel file = .error e ↔ load fuel file = .error e := by
  unfold parse
  cases load fuel file with
  | error e' => simp
  | ok p => simp

theorem parse_eq_ok {fuel : Nat} {file : List Byte} {doc : Document} :
    parse fuel file = .ok doc ↔ ∃ rest, load fuel file = .ok (doc, rest) := by
  unfold parse
  cases load fuel file with
  | error e' => simp
  | ok p =>
    obtain ⟨d, r⟩ := p
    simp

theorem load_eq_error_of_body {fuel : Nat} {file : List Byte} {e : Failure}
    (h : loadBody fuel file = .error e) : load fuel file = .error e := by
  rw [load_apply, h]

/-! ### The serializer -/

mutual
theorem foreach_eq_foldl {σ : Type} (callback : σ → Mesh → σ) :
    ∀ (n : Node) (s : σ), n.foreach callback s = n.preorder.foldl callback s
  | .mk mesh _ children, s => by
    rw [Node.foreach, Node.preorder, List.foldl_cons]
    exact foreachChildren_eq_foldl callback children _
theorem foreachChildren_eq_foldl {σ : Type} (callback : σ → Mesh → σ) :
    ∀ (cs : List Node) (s : σ),
      foreachChildren callback cs s = (preorderChildren cs).foldl callback s
  | [], s => by rw [foreachChildren, preorderChildren, List.foldl_nil]
  | c :: cs, s => by
    rw [foreachChildren, preorderChildren, List.foldl_append, foreach_eq_foldl callback c s]
    exact foreachChildren_eq_foldl callback cs _
end

theorem foldl_count (l : List Mesh) (k : Nat) :
    l.foldl (fun count _ => count + 1) k = k + l.length := by
  induction l generalizing k with
  | nil => rfl
  | cons a l ih => rw [List.foldl_cons, ih, List.length_cons]; omega

theorem foldl_write (f : Mesh → List Byte) (l : List Mesh) (out : List Byte) :
    l.foldl (fun out mesh => out ++ f mesh) out = out ++ l.flatMap f := by
  induction l generalizing out with
  | nil => simp
  | cons a l ih => rw [List.foldl_cons, ih, List.flatMap_cons, List.append_assoc]

theorem save_eq (doc : Document) :
    save doc = saveHeader doc ++ writeString doc.rootMesh.mesh.name 40 ++
      writeInt (Word32.ofSize doc.rootMesh.preorder.length) ++
      doc.rootMesh.preorder.flatMap (Mesh.save doc.version) ++ writeInt 0 ++ writeInt 0 := by
  unfold save
  simp only [foreach_eq_foldl, foldl_count, foldl_write, Nat.zero_add]

theorem save_take_four (doc : Document) : (save doc).take 4 = [71, 82, 83, 77] := by
  rw [save_eq]
  unfold saveHeader
  simp only [List.append_assoc, List.cons_append, List.nil_append, List.take_succ_cons,
    List.take_zero]

/-- C3: on a file of at least four bytes the constructor ends with the "Unknown RSM header"
early return exactly when the four magic bytes are 'G','R','G','M'; it then has read
nothing after the magic.  With any other magic the constructor goes on with the version
field, and the magic "GRSM" that `save` writes is such a magic. -/
theorem C3_magic_check (fuel : Nat) (file : List Byte) (h : 4 ≤ file.length) :
    ((∃ rest, parse fuel file = .error (.unknownHeader rest)) ↔ file.take 4 = rejectedHeader) ∧
    (file.take 4 = rejectedHeader →
      parse fuel file = .error (.unknownHeader (file.drop 4))) ∧
    (file.take 4 ≠ rejectedHeader → loadBody fuel file = loadFields fuel (file.drop 4)) ∧
    (∀ doc : Document, (save doc).take 4 = [71, 82, 83, 77] ∧
      (save doc).take 4 ≠ rejectedHeader) := by
  have hrej : file.take 4 = rejectedHeader →
      parse fuel file = .error (.unknownHeader (file.drop 4)) := by
    intro hm
    rw [parse_eq_error]
    apply load_eq_error_of_body
    rw [loadBody_apply fuel file h, if_pos hm]
  refine ⟨⟨?_, fun hm => ⟨_, hrej hm⟩⟩, hrej, ?_, ?_⟩
  · rintro ⟨rest, hp⟩
    by_contra hm
    rw [parse_eq_error, load_apply] at hp
    have hb := loadBody_apply fuel file h
    rw [if_neg hm] at hb
    cases hbody : loadBody fuel file with
    | error e =>
      rw [hbody] at hp
      simp only at hp
      cases hp
      rw [hb] at hbody
      exact failsWith_loadFields fuel _ _ hbody rest rfl
    | ok p =>
      obtain ⟨doc, s'⟩ := p
      rw [hbody] at hp
      simp only at hp
      cases ht : loadTrailer s' with
      | error e =>
        rw [ht] at hp
        simp only at hp
        cases hp
        exact failsWith_loadTrailer _ _ ht rest rfl
      | ok q =>
        rw [ht] at hp
        simp only at hp
        cases hp
  · intro hm
    rw [loadBody_apply fuel file h, if_neg hm]
  · intro doc
    rw [save_take_four]
    exact ⟨rfl, by decide⟩

/-! ### The header fields by offset -/

theorem readShort_eq_ok {s r : List Byte} {v : Word16} (h : readShort s = .ok (v, r)) :
    r = s.drop 2 ∧ 2 ≤ s.length := by
  unfold readShort at h
  split at h
  · cases h; simp
  · cases h

theorem readInt_eq_ok {s r : List Byte} {v : Word32} (h : readInt s = .ok (v, r)) :
    r = s.drop 4 ∧ 4 ≤ s.length := by
  unfold readInt at h
  split at h
  · cases h; simp
  · cases h

theorem readInt_of_le {s : List Byte} (h : 4 ≤ s.length) :
    ∃ v, readInt s = .ok (v, s.drop 4) := by
  match s, h with
  | a :: b :: c :: d :: rest, _ => exact ⟨_, rfl⟩

theorem readInt_drop (file : List Byte) (n : Nat) (h : n + 4 ≤ file.length) :
    ∃ v, readInt (file.drop n) = .ok (v, file.drop (n + 4)) := by
  obtain ⟨v, hv⟩ := readInt_of_le (s := file.drop n) (by rw [List.length_drop]; omega)
  exact ⟨v, by rw [hv, List.drop_drop]⟩

theorem get_of_le {s : List Byte} (h : 1 ≤ s.length) :
    ∃ v, StreamInFile.get s = .ok (v, s.drop 1) := by
  match s, h with
  | a :: rest, _ => exact ⟨_, rfl⟩

theorem readAlpha_of_le {s : List Byte} (version : Word16) (h : unknownOffset version ≤ s.length) :
    ∃ v, readAlpha version (s.drop 14) = .ok (v, s.drop (unknownOffset version)) := by
  unfold readAlpha unknownOffset at *
  split
  · rw [if_pos (by assumption)] at h
    obtain ⟨v, hv⟩ := get_of_le (s := s.drop 14) (by rw [List.length_drop]; omega)
    exact ⟨v, by rw [hv, List.drop_drop]⟩
  · exact ⟨0, rfl⟩

theorem unknownOffset_ge (version : Word16) : 14 ≤ unknownOffset version := by
  unfold unknownOffset; split <;> omega

/-- The run of `loadFields` on a file that is long enough to hold the reserved bytes. -/
theorem loadFields_apply (fuel : Nat) {file rest0 : List Byte} {version : Word16}
    (hv : readShort (file.drop 4) = .ok (version, rest0))
    (hlen : unknownOffset version + 16 ≤ file.length) :
    ∃ animLen shadeType alpha,
      loadFields fuel (file.drop 4) =
        (assert (((file.drop (unknownOffset version)).take 16).all (fun b => b == 0))
            .assertUnknown >>= fun _ =>
          loadTextures fuel version animLen shadeType alpha
            ((file.drop (unknownOffset version)).take 16))
          (file.drop (unknownOffset version + 16)) := by
  have hoff := unknownOffset_ge version
  have hr0 : rest0 = file.drop 6 := by
    rw [(readShort_eq_ok hv).1, List.drop_drop]
  subst hr0
  have h1 : ∃ v, readInt (file.drop 6) = .ok (v, file.drop 10) :=
    readInt_drop file 6 (by omega)
  obtain ⟨animLen, h1⟩ := h1
  have h2 : ∃ v, readInt (file.drop 10) = .ok (v, file.drop 14) :=
    readInt_drop file 10 (by omega)
  obtain ⟨shadeType, h2⟩ := h2
  obtain ⟨alpha, h3⟩ := readAlpha_of_le (s := file) version (by omega)
  have h4 : StreamInFile.read 16 (file.drop (unknownOffset version)) =
      .ok ((file.drop (unknownOffset version)).take 16,
        file.drop (unknownOffset version + 16)) := by
    rw [read_of_le (by rw [List.length_drop]; omega), List.drop_drop]
  refine ⟨animLen, shadeType, alpha, ?_⟩
  unfold loadFields
  rw [bind_ok hv, bind_ok h1, bind_ok h2, bind_ok h3, bind_ok h4]

theorem loadTextures_reject (fuel : Nat) (version : Word16) (animLen shadeType : Word32)
    (alpha : Byte) (unknown : List Byte) {s rest : List Byte} {textureCount : Word32}
    (hc : readInt s = .ok (textureCount, rest)) (hgt : textureCount.toInt > 100) :
    loadTextures fuel version animLen shadeType alpha unknown s =
      .error (.invalidTextureCount [] rest) := by
  unfold loadTextures
  rw [bind_ok hc, bind_error]
  rw [show decide (textureCount.toInt > 100) = true from by simpa using hgt, returnIf_true]

theorem bind_assert_of_all {α : Type} {c : Bool} {e : Failure} {f : Unit → Reader α}
    {s : List Byte} (h : c = true) : (assert c e >>= f) s = f () s := by
  subst h; rw [bind_ok (assert_true s)]

theorem bind_assert_of_not {α : Type} {c : Bool} {e : Failure} {f : Unit → Reader α}
    {s : List Byte} (h : c = false) : (assert c e >>= f) s = .error e := by
  subst h; rw [bind_error (assert_false s)]

theorem readMany_length {α : Type} {r : Reader α} {n : Nat} {s s' : List Byte} {xs : List α}
    (h : readMany r n s = .ok (xs, s')) : xs.length = n := by
  induction n generalizing s xs with
  | zero => cases h; rfl
  | succ n ih =>
    unfold readMany at h
    obtain ⟨a, s1, _, h⟩ := bind_eq_ok.1 h
    obtain ⟨as, s2, h2, h⟩ := bind_eq_ok.1 h
    cases h
    rw [List.length_cons, ih h2]

/-- What a completed run of `loadBody` has read. -/
theorem loadBody_eq_ok {fuel : Nat} {file rest : List Byte} {doc : Document}
    (h : loadBody fuel file = .ok (doc, rest)) :
    doc.unknown.all (fun b => b == 0) = true ∧ doc.unknown.length = 16 ∧
    ∃ (textureCount meshCount : Word32) (mainNodeName : Str) (meshes : MeshMap) (rootMesh : Mesh)
      (s1 s2 s3 s4 : List Byte),
      ¬ textureCount.toInt > 100 ∧
      readMany (readString 40) textureCount.toInt.toNat s1 = .ok (doc.textures, s2) ∧
      readString 40 s2 = .ok (mainNodeName, s3) ∧
      readInt s3 = .ok (meshCount, s4) ∧
      readMeshes doc.version meshCount.toInt.toNat 0 [] s4 = .ok (meshes, rest) ∧
      selectRoot meshes mainNodeName = .ok rootMesh ∧
      fetchChildren meshes fuel rootMesh none = some doc.rootMesh := by
  unfold loadBody at h
  obtain ⟨header, s0, _, h⟩ := bind_eq_ok.1 h
  obtain ⟨_, s0', _, h⟩ := bind_eq_ok.1 h
  unfold loadFields at h
  obtain ⟨version, _, _, h⟩ := bind_eq_ok.1 h
  obtain ⟨animLen, _, _, h⟩ := bind_eq_ok.1 h
  obtain ⟨shadeType, _, _, h⟩ := bind_eq_ok.1 h
  obtain ⟨alpha, _, _, h⟩ := bind_eq_ok.1 h
  obtain ⟨unknown, su, hu, h⟩ := bind_eq_ok.1 h
  obtain ⟨_, su', ha, h⟩ := bind_eq_ok.1 h
  have hall : unknown.all (fun b => b == 0) = true := by
    cases hc : unknown.all (fun b => b == 0)
    · rw [hc, assert_false] at ha; cases ha
    · rfl
  have hulen : unknown.length = 16 := by
    unfold StreamInFile.read at hu
    split at hu
    · cases hu; rw [List.length_take]; omega
    · cases hu
  unfold loadTextures at h
  obtain ⟨textureCount, s1, _, h⟩ := bind_eq_ok.1 h
  obtain ⟨_, s1', hret, h⟩ := bind_eq_ok.1 h
  have hle : ¬ textureCount.toInt > 100 := by
    intro hgt
    rw [show decide (textureCount.toInt > 100) = true from by simpa using hgt,
      returnIf_true] at hret
    cases hret
  rw [show decide (textureCount.toInt > 100) = false from by simpa using hle,
    returnIf_false] at hret
  cases hret
  obtain ⟨textures, s2, htex, h⟩ := bind_eq_ok.1 h
  unfold loadMeshes at h
  obtain ⟨mainNodeName, s3, hname, h⟩ := bind_eq_ok.1 h
  obtain ⟨meshCount, s4, hcount, h⟩ := bind_eq_ok.1 h
  obtain ⟨meshes, s5, hmeshes, h⟩ := bind_eq_ok.1 h
  obtain ⟨rootMesh, s6, hroot, h⟩ := bind_eq_ok.1 h
  obtain ⟨root, s7, hfetch, h⟩ := bind_eq_ok.1 h
  rw [liftM_apply] at hroot
  cases hsel : selectRoot meshes mainNodeName with
  | error e => rw [hsel] at hroot; cases hroot
  | ok m =>
    rw [hsel] at hroot
    cases hroot
    cases hf : fetchChildren meshes fuel rootMesh none with
    | none => rw [hf] at hfetch; cases hfetch
    | some r =>
      rw [hf] at hfetch
      cases hfetch
      cases h
      exact ⟨hall, hulen, textureCount, meshCount, mainNodeName, meshes, rootMesh, s1, s2, s3,
        s4, hle, htex, hname, hcount, hmeshes, hsel, hf⟩

theorem load_eq_ok {fuel : Nat} {file rest : List Byte} {doc : Document}
    (h : load fuel file = .ok (doc, rest)) : ∃ rest', loadBody fuel file = .ok (doc, rest') := by
  rw [load_apply] at h
  cases hb : loadBody fuel file with
  | error e => rw [hb] at h; cases h
  | ok p =>
    obtain ⟨d, s'⟩ := p
    rw [hb] at h
    simp only at h
    cases ht : loadTrailer s' with
    | error e => rw [ht] at h; cases h
    | ok q =>
      rw [ht] at h
      cases h
      exact ⟨s', rfl⟩

theorem parse_ok_body {fuel : Nat} {file : List Byte} {doc : Document}
    (h : parse fuel file = .ok doc) : ∃ rest, loadBody fuel file = .ok (doc, rest) := by
  obtain ⟨rest, h⟩ := parse_eq_ok.1 h
  exact load_eq_ok h

theorem all_zero_eq_replicate (l : List Byte) (h : l.all (fun b => b == 0) = true) :
    l = List.replicate l.length 0 := by
  induction l with
  | nil => rfl
  | cons a l ih =>
    simp only [List.all_cons, Bool.and_eq_true, beq_iff_eq] at h
    rw [List.length_cons, List.replicate_succ, ← ih h.2, h.1]

/-- C2: when the signed 32-bit texture count of a file (the field after the 16 reserved
bytes) is greater than 100, the file never loads; with an accepted magic and zero reserved
bytes the constructor returns early with an empty texture list and with every byte after the
count field unread.  Every loaded document has at most 100 texture names. -/
theorem C2_texture_count_bound (fuel : Nat) (file : List Byte) (version : Word16)
    (rest0 : List Byte) (textureCount : Word32) (rest : List Byte)
    (hv : readShort (file.drop 4) = .ok (version, rest0))
    (hc : readInt (file.drop (unknownOffset version + 16)) = .ok (textureCount, rest))
    (hgt : textureCount.toInt > 100) :
    (∀ doc, parse fuel file ≠ .ok doc) ∧
    (file.take 4 ≠ rejectedHeader →
      (file.drop (unknownOffset version)).take 16 = List.replicate 16 0 →
      parse fuel file = .error (.invalidTextureCount [] rest)) ∧
    rest = file.drop (unknownOffset version + 20) ∧
    (∀ fuel' file' doc, parse fuel' file' = .ok doc → doc.textures.length ≤ 100) := by
  obtain ⟨hrest, hlen⟩ := readInt_eq_ok hc
  rw [List.length_drop] at hlen
  rw [List.drop_drop] at hrest
  have h4 : 4 ≤ file.length := by omega
  obtain ⟨animLen, shadeType, alpha, hfields⟩ := loadFields_apply fuel hv (by omega)
  have hkey : file.take 4 ≠ rejectedHeader →
      (file.drop (unknownOffset version)).take 16 = List.replicate 16 0 →
      load fuel file = .error (.invalidTextureCount [] rest) := by
    intro hm hz
    apply load_eq_error_of_body
    rw [loadBody_apply fuel file h4, if_neg hm, hfields, bind_assert_of_all (by rw [hz]; rfl)]
    exact loadTextures_reject fuel version animLen shadeType alpha _ hc hgt
  refine ⟨?_, fun hm hz => parse_eq_error.2 (hkey hm hz), ?_, ?_⟩
  · intro doc hdoc
    obtain ⟨rest', hbody⟩ := parse_ok_body hdoc
    rw [loadBody_apply fuel file h4] at hbody
    split at hbody
    · cases hbody
    · rw [hfields] at hbody
      cases hall : ((file.drop (unknownOffset version)).take 16).all (fun b => b == 0)
      · rw [bind_assert_of_not hall] at hbody; cases hbody
      · rw [bind_assert_of_all hall, loadTextures_reject fuel version animLen shadeType alpha _
          hc hgt] at hbody
        cases hbody
  · rw [hrest]
  · intro fuel' file' doc hdoc
    obtain ⟨rest', hbody⟩ := parse_ok_body hdoc
    obtain ⟨_, _, tc, _, _, _, _, _, _, _, _, hle, htex, _⟩ := loadBody_eq_ok hbody
    rw [readMany_length htex]
    omega

/-- C4: when one of the 16 reserved bytes of a file (at offset 14, or 15 from version
0x0104 on) is nonzero, the file never loads, and with an accepted magic the run ends in the
failed assertion on the reserved bytes.  Every loaded document has 16 reserved bytes, all 0. -/
theorem C4_reserved_bytes (fuel : Nat) (file : List Byte) (version : Word16)
    (rest0 unknown rest : List Byte)
    (hv : readShort (file.drop 4) = .ok (version, rest0))
    (hu : StreamInFile.read 16 (file.drop (unknownOffset version)) = .ok (unknown, rest))
    (hnz : ∃ b ∈ unknown, b ≠ 0) :
    (∀ doc, parse fuel file ≠ .ok doc) ∧
    (file.take 4 ≠ rejectedHeader → parse fuel file = .error .assertUnknown) ∧
    (∀ fuel' file' doc, parse fuel' file' = .ok doc → doc.unknown = List.replicate 16 0) := by
  have hlen : unknownOffset version + 16 ≤ file.length := by
    unfold StreamInFile.read at hu
    split at hu
    · rename_i hle; rw [List.length_drop] at hle
      have := unknownOffset_ge version
      have h2 := (readShort_eq_ok hv).2
      rw [List.length_drop] at h2
      omega
    · cases hu
  have hunk : unknown = (file.drop (unknownOffset version)).take 16 := by
    rw [read_of_le (by rw [List.length_drop]; omega)] at hu
    cases hu; rfl
  have h4 : 4 ≤ file.length := by have := unknownOffset_ge version; omega
  obtain ⟨animLen, shadeType, alpha, hfields⟩ := loadFields_apply fuel hv hlen
  have hall : ((file.drop (unknownOffset version)).take 16).all (fun b => b == 0) = false := by
    rw [← hunk]
    obtain ⟨b, hb, hb0⟩ := hnz
    rw [Bool.eq_false_iff]
    intro hall
    rw [List.all_eq_true] at hall
    exact hb0 (by simpa using hall b hb)
  refine ⟨?_, ?_, ?_⟩
  · intro doc hdoc
    obtain ⟨rest', hbody⟩ := parse_ok_body hdoc
    rw [loadBody_apply fuel file h4] at hbody
    split at hbody
    · cases hbody
    · rw [hfields, bind_assert_of_not hall] at hbody; cases hbody
  · intro hm
    rw [parse_eq_error]
    apply load_eq_error_of_body
    rw [loadBody_apply fuel file h4, if_neg hm, hfields, bind_assert_of_not hall]
  · intro fuel' file' doc hdoc
    obtain ⟨rest', hbody⟩ := parse_ok_body hdoc
    obtain ⟨hall', hlen', _⟩ := loadBody_eq_ok hbody
    rw [all_zero_eq_replicate _ hall', hlen']

/-- C10 (amended): when header, textures, mesh records and hierarchy of a file are
accepted and both trailing counts can be read, a nonzero keyframe-translation count ends the
run in the failed assertion, and a zero keyframe-translation count loads the document
whatever the volume-box count is. -/
theorem C10_trailing_counts (fuel : Nat) (file : List Byte) (doc : Document)
    (rest rest1 rest2 : List Byte) (numKeyFrames numVolumeBox : Word32)
    (hbody : loadBody fuel file = .ok (doc, rest))
    (hk : readInt rest = .ok (numKeyFrames, rest1))
    (hvb : readInt rest1 = .ok (numVolumeBox, rest2)) :
    (numKeyFrames.val ≠ 0 → parse fuel file = .error .assertNumKeyFrames) ∧
    (numKeyFrames.val = 0 → parse fuel file = .ok doc) := by
  constructor
  · intro hne
    rw [parse_eq_error, load_apply, hbody]
    simp only
    unfold loadTrailer
    rw [bind_ok hk, bind_assert_of_not (by simpa using hne)]
  · intro h0
    rw [parse_eq_ok]
    refine ⟨rest2, ?_⟩
    rw [load_apply, hbody]
    simp only
    unfold loadTrailer
    rw [bind_ok hk, bind_assert_of_all (by simpa using h0), bind_ok hvb]
    rfl

/-- Witness of C3: the file that is just the rejected magic. -/
theorem C3_magic_check_witness :
    parse 0 rejectedHeader = .error (.unknownHeader []) :=
  (C3_magic_check 0 rejectedHeader (by decide)).2.1 (by decide)

/-- Witness of C2: a header with texture count 101 and three bytes after it. -/
theorem C2_texture_count_bound_witness :
    parse 0 fileOfCount101 = .error (.invalidTextureCount [] [1, 2, 3]) :=
  (C2_texture_count_bound 0 fileOfCount101 259 (fileOfCount101.drop 6) 101 [1, 2, 3]
    (by rfl) (by rfl) (by decide)).2.1 (by decide) (by decide)

/-- Witness of C4: a header whose reserved byte 5 is 7. -/
theorem C4_reserved_bytes_witness :
    parse 0 fileOfReserved7 = .error .assertUnknown :=
  (C4_reserved_bytes 0 fileOfReserved7 259 (fileOfReserved7.drop 6)
    ([0, 0, 0, 0, 0, 7] ++ List.replicate 10 0) [] (by rfl) (by rfl)
    ⟨7, by decide, by decide⟩).2.1 (by decide)

set_option maxRecDepth 100000 in
theorem loadBody_example (k v : Word32) :
    loadBody 1 (fileOf [65] [recordOf [65] []] k v) =
      .ok (documentOf (.mk (meshOf 0 [65] []) none []), writeInt k ++ writeInt v) := by
  rfl

/-- Counterexample to C10 as stated: a one-mesh file whose trailing counts are 0 keyframe
translations and 1 volume box is loaded. -/
theorem C10_counterexample :
    loadBody 1 (fileOf [65] [recordOf [65] []] 0 1) =
      .ok (documentOf (.mk (meshOf 0 [65] []) none []), writeInt 0 ++ writeInt 1) ∧
    parse 1 (fileOf [65] [recordOf [65] []] 0 1) =
      .ok (documentOf (.mk (meshOf 0 [65] []) none [])) :=
  ⟨loadBody_example 0 1, by
    rw [parse_eq_ok]; refine ⟨[], ?_⟩
    rw [load_apply, loadBody_example]; rfl⟩

/-- Witness of C10 (amended): a one-mesh file with keyframe-translation count 1. -/
theorem C10_trailing_counts_witness :
    parse 1 (fileOf [65] [recordOf [65] []] 1 0) = .error .assertNumKeyFrames :=
  (C10_trailing_counts 1 (fileOf [65] [recordOf [65] []] 1 0)
    (documentOf (.mk (meshOf 0 [65] []) none [])) (writeInt 1 ++ writeInt 0) (writeInt 0) []
    1 0 (loadBody_example 1 0) (by rfl) (by rfl)).1 (by decide)

/-! ### The order of `std::string` and the mesh map -/

theorem strLt_irrefl (a : Str) : strLt a a = false := by
  induction a with
  | nil => rfl
  | cons x xs ih => simp [strLt, ih]

theorem strLt_trans {a b c : Str} (hab : strLt a b = true) (hbc : strLt b c = true) :
    strLt a c = true := by
  induction a generalizing b c with
  | nil =>
    cases b with
    | nil => simp [strLt] at hab
    | cons y ys =>
      cases c with
      | nil => simp [strLt] at hbc
      | cons z zs => simp [strLt]
  | cons x xs ih =>
    cases b with
    | nil => simp [strLt] at hab
    | cons y ys =>
      cases c with
      | nil => simp [strLt] at hbc
      | cons z zs =>
        simp only [strLt] at hab hbc ⊢
        by_cases h1 : x.val < y.val
        · by_cases h2 : y.val < z.val
          · rw [if_pos (by omega)]
          · rw [if_neg h2] at hbc
            by_cases h3 : z.val < y.val
            · rw [if_pos h3] at hbc; cases hbc
            · rw [if_pos (by omega)]
        · rw [if_neg h1] at hab
          by_cases h1' : y.val < x.val
          · rw [if_pos h1'] at hab; cases hab
          · rw [if_neg h1'] at hab
            by_cases h2 : y.val < z.val
            · rw [if_pos (by omega)]
            · rw [if_neg h2] at hbc
              by_cases h3 : z.val < y.val
              · rw [if_pos h3] at hbc; cases hbc
              · rw [if_neg h3] at hbc
                rw [if_neg (by omega), if_neg (by omega)]
                exact ih hab hbc

theorem strLt_total (a b : Str) : a = b ∨ strLt a b = true ∨ strLt b a = true := by
  induction a generalizing b with
  | nil =>
    cases b with
    | nil => exact Or.inl rfl
    | cons y ys => exact Or.inr (Or.inl rfl)
  | cons x xs ih =>
    cases b with
    | nil => exact Or.inr (Or.inr rfl)
    | cons y ys =>
      simp only [strLt]
      by_cases h1 : x.val < y.val
      · exact Or.inr (Or.inl (by rw [if_pos h1]))
      · by_cases h2 : y.val < x.val
        · exact Or.inr (Or.inr (by rw [if_pos h2]))
        · have hxy : x = y := Fin.ext (by omega)
          subst hxy
          rw [if_neg h1, if_neg h1, if_neg h1, if_neg h1]
          rcases ih ys with h | h | h
          · exact Or.inl (by rw [h])
          · exact Or.inr (Or.inl h)
          · exact Or.inr (Or.inr h)

theorem strLt_ne {a b : Str} (h : strLt a b = true) : a ≠ b := by
  intro hab; subst hab; rw [strLt_irrefl] at h; cases h

/-! ### The mesh map -/

theorem MeshMap.insert_ne_nil (meshes : MeshMap) (key : Str) (mesh : Mesh) :
    MeshMap.insert meshes key mesh ≠ [] := by
  cases meshes with
  | nil => simp [MeshMap.insert]
  | cons e rest =>
    obtain ⟨k, v⟩ := e
    simp only [MeshMap.insert]
    split
    · simp
    · split <;> simp

theorem MeshMap.mem_insert {meshes : MeshMap} {key : Str} {mesh : Mesh} {e : Str × Mesh}
    (h : e ∈ MeshMap.insert meshes key mesh) : e = (key, mesh) ∨ e ∈ meshes := by
  induction meshes with
  | nil => simp [MeshMap.insert] at h; exact Or.inl h
  | cons e' rest ih =>
    obtain ⟨k, v⟩ := e'
    simp only [MeshMap.insert] at h
    split at h
    · rcases List.mem_cons.1 h with h | h
      · exact Or.inl h
      · exact Or.inr h
    · split at h
      · rcases List.mem_cons.1 h with h | h
        · exact Or.inl h
        · exact Or.inr (List.mem_cons_of_mem _ h)
      · rcases List.mem_cons.1 h with h | h
        · exact Or.inr (by rw [h]; exact List.mem_cons_self _ _)
        · rcases ih h with h | h
          · exact Or.inl h
          · exact Or.inr (List.mem_cons_of_mem _ h)

theorem MeshMap.insert_sorted {meshes : MeshMap} (key : Str) (mesh : Mesh)
    (h : MeshMap.Sorted meshes) : MeshMap.Sorted (MeshMap.insert meshes key mesh) := by
  unfold MeshMap.Sorted at *
  induction meshes with
  | nil => simp [MeshMap.insert]
  | cons e rest ih =>
    obtain ⟨k, v⟩ := e
    rw [List.pairwise_cons] at h
    simp only [MeshMap.insert]
    split
    · rename_i hlt
      rw [List.pairwise_cons]
      refine ⟨?_, List.pairwise_cons.2 h⟩
      intro e he
      rcases List.mem_cons.1 he with he | he
      · rw [he]; exact hlt
      · exact strLt_trans hlt (h.1 e he)
    · split
      · rename_i hk
        subst hk
        exact List.pairwise_cons.2 h
      · rename_i hnlt hne
        rw [List.pairwise_cons]
        refine ⟨?_, ih h.2⟩
        intro e he
        rcases MeshMap.mem_insert he with he | he
        · rw [he]
          rcases strLt_total k key with h1 | h1 | h1
          · exact absurd h1 hne
          · exact h1
          · exact absurd h1 hnlt
        · exact h.1 e he

theorem addMesh_ne_nil (meshes : MeshMap) (mesh : Mesh) : addMesh meshes mesh ≠ [] :=
  MeshMap.insert_ne_nil _ _ _

theorem addMesh_sorted {meshes : MeshMap} (mesh : Mesh) (h : MeshMap.Sorted meshes) :
    MeshMap.Sorted (addMesh meshes mesh) :=
  MeshMap.insert_sorted _ _ h

theorem mem_addMesh {meshes : MeshMap} {mesh : Mesh} {e : Str × Mesh}
    (h : e ∈ addMesh meshes mesh) :
    e ∈ meshes ∨ e = (mesh.name, mesh) ∨
      e = (mesh.name ++ duplicate, { mesh with name := mesh.name ++ duplicate }) := by
  unfold addMesh at h
  dsimp only at h
  split at h
  · rcases MeshMap.mem_insert h with h | h
    · exact Or.inr (Or.inr h)
    · exact Or.inl h
  · rcases MeshMap.mem_insert h with h | h
    · exact Or.inr (Or.inl h)
    · exact Or.inl h

theorem foldl_addMesh_ne_nil (records : List Mesh) (meshes : MeshMap)
    (h : records ≠ [] ∨ meshes ≠ []) : records.foldl addMesh meshes ≠ [] := by
  induction records generalizing meshes with
  | nil => simpa using h
  | cons r rs ih => exact ih _ (Or.inr (addMesh_ne_nil _ _))

theorem foldl_addMesh_sorted (records : List Mesh) {meshes : MeshMap}
    (h : MeshMap.Sorted meshes) : MeshMap.Sorted (records.foldl addMesh meshes) := by
  induction records generalizing meshes with
  | nil => exact h
  | cons r rs ih => exact ih (addMesh_sorted r h)

theorem mem_foldl_addMesh {records : List Mesh} {meshes : MeshMap} {e : Str × Mesh}
    (h : e ∈ records.foldl addMesh meshes) :
    e ∈ meshes ∨ ∃ r ∈ records, e = (r.name, r) ∨
      e = (r.name ++ duplicate, { r with name := r.name ++ duplicate }) := by
  induction records generalizing meshes with
  | nil => exact Or.inl h
  | cons r rs ih =>
    rcases ih h with h | ⟨r', hr', h⟩
    · rcases mem_addMesh h with h | h
      · exact Or.inl h
      · exact Or.inr ⟨r, List.mem_cons_self _ _, h⟩
    · exact Or.inr ⟨r', List.mem_cons_of_mem _ hr', h⟩

/-- The meshes of the map are those that the loop of `Rsm::Rsm` reads. -/
theorem readMeshes_eq_ok {version : Word16} {n i : Nat} {meshes result : MeshMap}
    {s rest : List Byte} (h : readMeshes version n i meshes s = .ok (result, rest)) :
    ∃ records : List Mesh, records.length = n ∧ result = records.foldl addMesh meshes := by
  induction n generalizing i meshes s with
  | zero => cases h; exact ⟨[], rfl, rfl⟩
  | succ n ih =>
    unfold readMeshes at h
    obtain ⟨mesh, s1, _, h⟩ := bind_eq_ok.1 h
    obtain ⟨records, hlen, hres⟩ := ih h
    exact ⟨mesh :: records, by rw [List.length_cons, hlen], hres⟩

theorem MeshMap.find_eq_some {meshes : MeshMap} {key : Str} {mesh : Mesh}
    (h : MeshMap.find meshes key = some mesh) : (key, mesh) ∈ meshes := by
  induction meshes with
  | nil => cases h
  | cons e rest ih =>
    obtain ⟨k, v⟩ := e
    simp only [MeshMap.find] at h
    split at h
    · rename_i hk; cases h; rw [hk]; exact List.mem_cons_self _ _
    · exact List.mem_cons_of_mem _ (ih h)

/-- C6 (amended): for every non-empty sequence of parsed mesh records and every declared
main-node name, the selected root is the mesh stored in the map under the declared name when
the map has it.  Otherwise it is the first entry of the map in key order: a mesh of the
sequence, possibly renamed, whose key is smaller than every other key of the map. -/
theorem C6_root_selection (records : List Mesh) (mainNodeName : Str) (h : records ≠ []) :
    (∀ m, MeshMap.find (records.foldl addMesh []) mainNodeName = some m →
      selectRoot (records.foldl addMesh []) mainNodeName = .ok m ∧
      (mainNodeName, m) ∈ records.foldl addMesh []) ∧
    (MeshMap.find (records.foldl addMesh []) mainNodeName = none →
      ∃ k m, selectRoot (records.foldl addMesh []) mainNodeName = .ok m ∧
        (k, m) ∈ records.foldl addMesh [] ∧
        (∃ r ∈ records, m = r ∨ m = { r with name := r.name ++ duplicate }) ∧
        ∀ e ∈ records.foldl addMesh [], e = (k, m) ∨ strLt k e.1 = true) := by
  constructor
  · intro m hm
    refine ⟨?_, MeshMap.find_eq_some hm⟩
    unfold selectRoot; rw [hm]
  · intro hnone
    have hne := foldl_addMesh_ne_nil records [] (Or.inl h)
    have hsorted : MeshMap.Sorted (records.foldl addMesh []) :=
      foldl_addMesh_sorted records List.Pairwise.nil
    cases hmap : records.foldl addMesh [] with
    | nil => exact absurd hmap hne
    | cons e rest =>
      obtain ⟨k, m⟩ := e
      rw [hmap] at hnone hsorted
      refine ⟨k, m, ?_, List.mem_cons_self _ _, ?_, ?_⟩
      · unfold selectRoot; rw [hnone]
      · have hmem : (k, m) ∈ records.foldl addMesh [] := by
          rw [hmap]; exact List.mem_cons_self _ _
        rcases mem_foldl_addMesh hmem with h | ⟨r, hr, h | h⟩
        · cases h
        · exact ⟨r, hr, Or.inl (by cases h; rfl)⟩
        · exact ⟨r, hr, Or.inr (by cases h; rfl)⟩
      · intro e he
        rcases List.mem_cons.1 he with he | he
        · exact Or.inl he
        · exact Or.inr ((List.pairwise_cons.1 hsorted).1 e he)

/-- Counterexample to C6 as stated: with the records "B" and "A" in this order and the
declared name "Z", the name is not in the map and the selected root is "A", the second
record, not the first. -/
theorem C6_counterexample :
    MeshMap.find ([meshOf 0 nameB [], meshOf 1 nameA nameB].foldl addMesh []) nameZ = none ∧
    selectRoot ([meshOf 0 nameB [], meshOf 1 nameA nameB].foldl addMesh []) nameZ =
      .ok (meshOf 1 nameA nameB) ∧
    meshOf 1 nameA nameB ≠ meshOf 0 nameB [] :=
  ⟨by decide, by rfl, by decide⟩

/-- Witness of C6 (amended): the records "B" and "A" with the declared name "B". -/
theorem C6_root_selection_witness :
    selectRoot ([meshOf 0 nameB [], meshOf 1 nameA nameB].foldl addMesh []) nameB =
      .ok (meshOf 0 nameB []) :=
  ((C6_root_selection [meshOf 0 nameB [], meshOf 1 nameA nameB] nameB (by decide)).1
    (meshOf 0 nameB []) (by decide)).1

set_option maxRecDepth 100000 in
/-- C5, failing input: three mesh records named "Body".  The third is renamed to
"Body(duplicate)" as the second was and replaces it: the map is left with two entries, the
meshes at addresses 0 and 2, for three records. -/
theorem C5_third_duplicate_overwrites :
    (readMeshes 259 3 0 []
        (recordOf nameBody [] ++ recordOf nameBody [] ++ recordOf nameBody [])).toOption.map
      (fun r => r.1.map (fun e => (e.1, e.2.addr))) =
    some [(nameBody, 0), (nameBody ++ duplicate, 2)] := by
  decide

/-! ### The hierarchy -/

theorem Node.reachable_eq (n : Node) : n.reachable = n :: reachableChildren n.children := by
  cases n with
  | mk m p cs => rw [Node.reachable, Node.children]

theorem Node.preorder_eq (n : Node) : n.preorder = n.mesh :: preorderChildren n.children := by
  cases n with
  | mk m p cs => rw [Node.preorder, Node.children, Node.mesh]

theorem mem_reachableChildren {x : Node} {cs : List Node} :
    x ∈ reachableChildren cs ↔ ∃ c ∈ cs, x ∈ c.reachable := by
  induction cs with
  | nil => simp [reachableChildren]
  | cons c cs ih =>
    rw [reachableChildren, List.mem_append, ih]
    simp

theorem Node.mem_reachable_self (n : Node) : n ∈ n.reachable := by
  rw [Node.reachable_eq]; exact List.mem_cons_self _ _

theorem collect_eq_some {α : Type} {l : List (Option α)} {xs : List α}
    (h : collect l = some xs) : List.Forall₂ (fun o x => o = some x) l xs := by
  induction l generalizing xs with
  | nil => cases h; exact List.Forall₂.nil
  | cons o l ih =>
    cases o with
    | none => cases h
    | some a =>
      simp only [collect] at h
      cases hc : collect l with
      | none => rw [hc] at h; cases h
      | some as =>
        rw [hc] at h
        cases h
        exact List.Forall₂.cons rfl (ih hc)

theorem collect_map_eq_some {α β : Type} {f : α → Option β} {l : List α} {xs : List β}
    (h : collect (l.map f) = some xs) : List.Forall₂ (fun a x => f a = some x) l xs := by
  have := collect_eq_some h
  rw [List.forall₂_map_left_iff] at this
  exact this

theorem fetchChildren_eq_some {meshes : MeshMap} {fuel : Nat} {self : Mesh} {parent : Option Nat}
    {t : Node} (h : fetchChildren meshes fuel self parent = some t) :
    ∃ fuel' children, fuel = fuel' + 1 ∧ t = Node.mk self parent children ∧
      List.Forall₂ (fun c x => fetchChildren meshes fuel' c (some self.addr) = some x)
        (newChildren meshes self) children := by
  cases fuel with
  | zero => cases h
  | succ fuel' =>
    simp only [fetchChildren] at h
    cases hc : collect ((newChildren meshes self).map
        (fun c => fetchChildren meshes fuel' c (some self.addr))) with
    | none => rw [hc] at h; cases h
    | some children =>
      rw [hc] at h
      cases h
      exact ⟨fuel', children, rfl, rfl, collect_map_eq_some hc⟩

theorem mem_newChildren {meshes : MeshMap} {self m : Mesh} (h : m ∈ newChildren meshes self) :
    m.parentName = self.name ∧ m.addr ≠ self.addr ∧ ∃ k, (k, m) ∈ meshes := by
  unfold newChildren at h
  rw [List.mem_map] at h
  obtain ⟨e, he, rfl⟩ := h
  rw [List.mem_filter] at he
  have h2 := of_decide_eq_true he.2
  exact ⟨h2.1, h2.2, e.1, he.1⟩

theorem forall₂_mem_right {α β : Type} {R : α → β → Prop} {l : List α} {xs : List β}
    (h : List.Forall₂ R l xs) {x : β} (hx : x ∈ xs) : ∃ a ∈ l, R a x := by
  induction h with
  | nil => cases hx
  | cons hr _ ih =>
    rcases List.mem_cons.1 hx with hx | hx
    · subst hx; exact ⟨_, List.mem_cons_self _ _, hr⟩
    · obtain ⟨a, ha, hR⟩ := ih hx
      exact ⟨a, List.mem_cons_of_mem _ ha, hR⟩

/-- Every node below the root of a fetched tree is a child of a node of the tree, points
back to it and names it as its parent. -/
theorem fetchChildren_linked {meshes : MeshMap} {fuel : Nat} {self : Mesh}
    {parent : Option Nat} {t : Node} (h : fetchChildren meshes fuel self parent = some t) :
    t.mesh = self ∧ t.parent = parent ∧
    ∀ x ∈ reachableChildren t.children, ∃ p ∈ t.reachable,
      x ∈ p.children ∧ x.parent = some p.mesh.addr ∧ x.mesh.parentName = p.mesh.name := by
  induction fuel generalizing self parent t with
  | zero => cases h
  | succ fuel ih =>
    obtain ⟨fuel', children, hf, ht, hall⟩ := fetchChildren_eq_some h
    cases hf
    subst ht
    refine ⟨rfl, rfl, ?_⟩
    intro x hx
    rw [Node.children] at hx
    obtain ⟨c, hc, hxc⟩ := mem_reachableChildren.1 hx
    obtain ⟨m, hm, hcm⟩ := forall₂_mem_right hall hc
    obtain ⟨hmesh, hparent, hbelow⟩ := ih hcm
    rw [Node.reachable_eq] at hxc
    rcases List.mem_cons.1 hxc with hxc | hxc
    · subst hxc
      refine ⟨_, Node.mem_reachable_self _, hc, hparent, ?_⟩
      rw [hmesh]
      exact (mem_newChildren hm).1
    · obtain ⟨p, hp, hres⟩ := hbelow x hxc
      refine ⟨p, ?_, hres⟩
      rw [Node.reachable_eq, Node.children]
      exact List.mem_cons_of_mem _ (mem_reachableChildren.2 ⟨c, hc, hp⟩)

set_option maxRecDepth 100000 in
theorem parse_example_two :
    parse 2 (fileOf nameA [recordOf nameA [], recordOf nameB nameA] 0 0) =
      .ok twoMeshDocument := by
  rfl

/-- C7: in every loaded document, every node below the root (reachable through child lists)
has a parent reference that is not null and is the address of a node of the tree; it is in
that node's child list, and its declared parent name is that node's name, as disambiguated. -/
theorem C7_parent_consistency (fuel : Nat) (file : List Byte) (doc : Document)
    (h : parse fuel file = .ok doc) :
    ∀ x ∈ reachableChildren doc.rootMesh.children, ∃ p ∈ doc.rootMesh.reachable,
      x ∈ p.children ∧ x.parent = some p.mesh.addr ∧ x.mesh.parentName = p.mesh.name := by
  obtain ⟨rest, hbody⟩ := parse_ok_body h
  obtain ⟨_, _, _, _, _, meshes, rootMesh, _, _, _, _, _, _, _, _, _, _, hfetch⟩ :=
    loadBody_eq_ok hbody
  exact (fetchChildren_linked hfetch).2.2

/-- Witness of C7: the file with the mesh "A" and its child "B". -/
theorem C7_parent_consistency_witness :
    ∃ p ∈ twoMeshDocument.rootMesh.reachable,
      Node.mk (meshOf 1 nameB nameA) (some 0) [] ∈ p.children ∧
      (Node.mk (meshOf 1 nameB nameA) (some 0) []).parent = some p.mesh.addr ∧
      (Node.mk (meshOf 1 nameB nameA) (some 0) []).mesh.parentName = p.mesh.name :=
  C7_parent_consistency 2 (fileOf nameA [recordOf nameA [], recordOf nameB nameA] 0 0)
    twoMeshDocument parse_example_two (Node.mk (meshOf 1 nameB nameA) (some 0) [])
    (mem_reachableChildren.2 ⟨_, List.mem_cons_self _ _, Node.mem_reachable_self _⟩)

/-- The root of a loaded document has a null parent reference. -/
theorem parse_root_parent {fuel : Nat} {file : List Byte} {doc : Document}
    (h : parse fuel file = .ok doc) : doc.rootMesh.parent = none := by
  obtain ⟨rest, hbody⟩ := parse_ok_body h
  obtain ⟨_, _, _, _, _, meshes, rootMesh, _, _, _, _, _, _, _, _, _, _, hfetch⟩ :=
    loadBody_eq_ok hbody
  exact (fetchChildren_linked hfetch).2.1

/-- C8, failing input: a file whose mesh count is 0 passes every check of the parser, and
root selection then evaluates `meshes.begin()->second` on the empty map, whatever the fuel and
the trailing counts are. -/
theorem C8_empty_mesh_map (fuel : Nat) (numKeyFrames numVolumeBox : Word32) :
    parse fuel (fileOf nameA [] numKeyFrames numVolumeBox) = .error .emptyMeshes := by
  rfl

mutual
theorem preorder_eq_map_reachable : ∀ n : Node, n.preorder = n.reachable.map Node.mesh
  | .mk mesh parent children => by
    rw [Node.preorder, Node.reachable, List.map_cons, Node.mesh]
    rw [preorderChildren_eq_map_reachable children]
theorem preorderChildren_eq_map_reachable :
    ∀ cs : List Node, preorderChildren cs = (reachableChildren cs).map Node.mesh
  | [] => by rw [preorderChildren, reachableChildren, List.map_nil]
  | c :: cs => by
    rw [preorderChildren, reachableChildren, List.map_append, preorder_eq_map_reachable c,
      preorderChildren_eq_map_reachable cs]
end

/-! ### Reading back what the serializer writes -/

theorem readShort_writeShort (w : Word16) (rest : List Byte) :
    readShort (writeShort w ++ rest) = .ok (w, rest) := by
  unfold readShort writeShort
  simp only [List.cons_append, List.nil_append]
  congr 2
  apply Fin.ext
  simp only
  omega

theorem readWord_writeWord (w : Word16) (rest : List Byte) :
    readWord (writeWord w ++ rest) = .ok (w, rest) :=
  readShort_writeShort w rest

theorem readInt_writeInt (w : Word32) (rest : List Byte) :
    readInt (writeInt w ++ rest) = .ok (w, rest) := by
  unfold readInt writeInt
  simp only [List.cons_append, List.nil_append]
  congr 2
  apply Fin.ext
  simp only
  omega

theorem readFloat_writeFloat (w : Word32) (rest : List Byte) :
    readFloat (writeFloat w ++ rest) = .ok (w, rest) :=
  readInt_writeInt w rest

theorem takeWhile_append_zero (s : Str) (h : ∀ c ∈ s, c ≠ 0) (k : Nat) :
    (s ++ List.replicate k (0 : Byte)).takeWhile (fun c => c ≠ 0) = s := by
  induction s with
  | nil =>
    cases k with
    | zero => rfl
    | succ k => simp [List.replicate_succ, List.takeWhile_cons]
  | cons a s ih =>
    have ha : a ≠ 0 := h a (List.mem_cons_self _ _)
    rw [List.cons_append, List.takeWhile_cons, ih (fun c hc => h c (List.mem_cons_of_mem _ hc))]
    simp [ha]

theorem writeString_length (s : Str) (n : Nat) : (writeString s n).length = n := by
  unfold writeString
  rw [List.length_append, List.length_take, List.length_replicate]
  omega

theorem readString_writeString (s : Str) (h : fitsField s) (rest : List Byte) :
    readString 40 (writeString s 40 ++ rest) = .ok (s, rest) := by
  unfold readString
  have hlen := writeString_length s 40
  have hread : StreamInFile.read 40 (writeString s 40 ++ rest) = .ok (writeString s 40, rest) := by
    rw [read_of_le (by rw [List.length_append]; omega)]
    rw [List.take_left' hlen, List.drop_left' hlen]
  rw [bind_ok hread, pure_apply]
  congr 2
  unfold writeString
  rw [List.take_of_length_le h.1]
  exact takeWhile_append_zero s h.2 _

theorem readMany_flatMap {α : Type} (r : Reader α) (w : α → List Byte) (xs : List α)
    (h : ∀ x ∈ xs, ∀ rest, r (w x ++ rest) = .ok (x, rest)) (rest : List Byte) :
    readMany r xs.length (xs.flatMap w ++ rest) = .ok (xs, rest) := by
  induction xs with
  | nil => rfl
  | cons x xs ih =>
    rw [List.length_cons, readMany, List.flatMap_cons, List.append_assoc,
      bind_ok (h x (List.mem_cons_self _ _) _),
      bind_ok (ih (fun y hy => h y (List.mem_cons_of_mem _ hy))), pure_apply]

theorem readVec2_writeVec2 (v : Vec2) (rest : List Byte) :
    readVec2 (writeVec2 v ++ rest) = .ok (v, rest) := by
  unfold readVec2 writeVec2
  rw [List.append_assoc, bind_ok (readFloat_writeFloat _ _), bind_ok (readFloat_writeFloat _ _),
    pure_apply]

theorem readVec3_writeVec3 (v : Vec3) (rest : List Byte) :
    readVec3 (writeVec3 v ++ rest) = .ok (v, rest) := by
  unfold readVec3 writeVec3
  rw [List.append_assoc, List.append_assoc, bind_ok (readFloat_writeFloat _ _),
    bind_ok (readFloat_writeFloat _ _), bind_ok (readFloat_writeFloat _ _), pure_apply]

theorem readTexCoord_writeTexCoord (version : Word16) (t : Vec2) (rest : List Byte) :
    readTexCoord version (writeTexCoord version t ++ rest) = .ok (t, rest) := by
  unfold readTexCoord writeTexCoord readTodo
  split
  · rw [List.append_assoc, bind_apply, bind_ok (readFloat_writeFloat _ _)]
    rw [show ((0 : Word32).val == 0 || (0 : Word32).val == 2147483648) = true from rfl,
      assert_true]
    exact readVec2_writeVec2 t rest
  · rw [List.nil_append, bind_ok (pure_apply _ _)]
    exact readVec2_writeVec2 t rest

theorem readFace_writeFace (f : Face) (rest : List Byte) :
    readFace (writeFace f ++ rest) = .ok (f, rest) := by
  unfold readFace writeFace
  simp only [List.append_assoc]
  rw [bind_ok (readWord_writeWord _ _), bind_ok (readWord_writeWord _ _),
    bind_ok (readWord_writeWord _ _), bind_ok (readWord_writeWord _ _),
    bind_ok (readWord_writeWord _ _), bind_ok (readWord_writeWord _ _),
    bind_ok (readWord_writeWord _ _), bind_ok (readWord_writeWord _ _),
    bind_ok (readInt_writeInt _ _), bind_ok (readInt_writeInt _ _), pure_apply]

theorem readFrame_writeFrame (f : Frame) (rest : List Byte) :
    readFrame (writeFrame f ++ rest) = .ok (f, rest) := by
  unfold readFrame writeFrame
  simp only [List.append_assoc]
  rw [bind_ok (readInt_writeInt _ _), bind_ok (readFloat_writeFloat _ _),
    bind_ok (readFloat_writeFloat _ _), bind_ok (readFloat_writeFloat _ _),
    bind_ok (readFloat_writeFloat _ _), pure_apply]

theorem ofSize_toNat {n : Nat} (h : n < 2147483648) : (Word32.ofSize n).toInt.toNat = n := by
  unfold Word32.ofSize Word32.toInt
  simp only
  rw [Nat.mod_eq_of_lt (by omega), if_pos h]
  simp

theorem resize_ofSize {n : Nat} (h : n < 2147483648) (s : List Byte) :
    resize (Word32.ofSize n) s = .ok (n, s) := by
  unfold resize
  have h1 : (Word32.ofSize n).val = n := by
    unfold Word32.ofSize; simp only; exact Nat.mod_eq_of_lt (by omega)
  have h2 : ¬ (Word32.ofSize n).toInt < 0 := by
    unfold Word32.toInt; rw [h1, if_pos h]; omega
  rw [if_neg h2, pure_apply, h1]

/-- A well-formed mesh whose name fits its field is read back from what `save` writes. -/
theorem meshRead_save (version : Word16) (addr : Nat) (m : Mesh) (hwf : m.wf)
    (hname : m.name.length ≤ 40) (rest : List Byte) :
    Mesh.read version addr (m.save version ++ rest) = .ok ({ m with addr := addr }, rest) := by
  obtain ⟨hn, hp, h1, h2, h3, h4, h5⟩ := hwf
  unfold Mesh.read Mesh.save
  simp only [List.append_assoc]
  rw [bind_ok (readString_writeString _ ⟨hname, hn⟩ _), bind_ok (readString_writeString _ hp _),
    bind_ok (readInt_writeInt _ _), ofSize_toNat h1,
    bind_ok (readMany_flatMap _ _ _ (fun x _ r => readInt_writeInt x r) _),
    bind_ok (readVec3_writeVec3 _ _), bind_ok (readVec3_writeVec3 _ _),
    bind_ok (readVec3_writeVec3 _ _), bind_ok (readVec3_writeVec3 _ _),
    bind_ok (readVec3_writeVec3 _ _), bind_ok (readFloat_writeFloat _ _),
    bind_ok (readVec3_writeVec3 _ _), bind_ok (readVec3_writeVec3 _ _),
    bind_ok (readInt_writeInt _ _), bind_ok (resize_ofSize h2 _),
    bind_ok (readMany_flatMap _ _ _ (fun x _ r => readVec3_writeVec3 x r) _),
    bind_ok (readInt_writeInt _ _), bind_ok (resize_ofSize h3 _),
    bind_ok (readMany_flatMap _ _ _ (fun x _ r => readTexCoord_writeTexCoord version x r) _),
    bind_ok (readInt_writeInt _ _), bind_ok (resize_ofSize h4 _),
    bind_ok (readMany_flatMap _ _ _ (fun x _ r => readFace_writeFace x r) _),
    bind_ok (readInt_writeInt _ _), bind_ok (resize_ofSize h5 _),
    bind_ok (readMany_flatMap _ _ _ (fun x _ r => readFrame_writeFrame x r) _), pure_apply]

/-! ### What the parser guarantees about the meshes -/

theorem readString_fits {s s' : List Byte} {str : Str}
    (h : readString 40 s = .ok (str, s')) : fitsField str := by
  unfold readString at h
  obtain ⟨raw, s1, hraw, h⟩ := bind_eq_ok.1 h
  cases h
  unfold StreamInFile.read at hraw
  split at hraw
  · cases hraw
    constructor
    · have h1 := (List.takeWhile_sublist (l := List.take 40 s) (fun c => decide (c ≠ 0))).length_le
      rw [List.length_take] at h1
      omega
    · intro c hc
      have := List.mem_takeWhile_imp hc
      simpa using this
  · cases hraw

theorem resize_eq_ok {count : Word32} {n : Nat} {s s' : List Byte}
    (h : resize count s = .ok (n, s')) : n < 2147483648 := by
  unfold resize at h
  split at h
  · cases h
  · rename_i hneg
    cases h
    unfold Word32.toInt at hneg
    split at hneg
    · assumption
    · omega

theorem toInt_toNat_lt (count : Word32) : count.toInt.toNat < 2147483648 := by
  unfold Word32.toInt
  split
  · simpa using ‹_›
  · have := count.isLt
    omega

theorem meshRead_wf {version : Word16} {addr : Nat} {s s' : List Byte} {m : Mesh}
    (h : Mesh.read version addr s = .ok (m, s')) :
    m.wf ∧ m.name.length ≤ 40 ∧ m.addr = addr := by
  unfold Mesh.read at h
  obtain ⟨name, _, hname, h⟩ := bind_eq_ok.1 h
  obtain ⟨parentName, _, hparent, h⟩ := bind_eq_ok.1 h
  obtain ⟨textureCount, _, _, h⟩ := bind_eq_ok.1 h
  obtain ⟨textures, _, htex, h⟩ := bind_eq_ok.1 h
  obtain ⟨c0, _, _, h⟩ := bind_eq_ok.1 h
  obtain ⟨c1, _, _, h⟩ := bind_eq_ok.1 h
  obtain ⟨c2, _, _, h⟩ := bind_eq_ok.1 h
  obtain ⟨pos_, _, _, h⟩ := bind_eq_ok.1 h
  obtain ⟨pos, _, _, h⟩ := bind_eq_ok.1 h
  obtain ⟨rotangle, _, _, h⟩ := bind_eq_ok.1 h
  obtain ⟨rotaxis, _, _, h⟩ := bind_eq_ok.1 h
  obtain ⟨scale, _, _, h⟩ := bind_eq_ok.1 h
  obtain ⟨vertexCount, _, _, h⟩ := bind_eq_ok.1 h
  obtain ⟨n1, _, hn1, h⟩ := bind_eq_ok.1 h
  obtain ⟨vertices, _, hvert, h⟩ := bind_eq_ok.1 h
  obtain ⟨texCoordCount, _, _, h⟩ := bind_eq_ok.1 h
  obtain ⟨n2, _, hn2, h⟩ := bind_eq_ok.1 h
  obtain ⟨texCoords, _, htc, h⟩ := bind_eq_ok.1 h
  obtain ⟨faceCount, _, _, h⟩ := bind_eq_ok.1 h
  obtain ⟨n3, _, hn3, h⟩ := bind_eq_ok.1 h
  obtain ⟨faces, _, hfaces, h⟩ := bind_eq_ok.1 h
  obtain ⟨frameCount, _, _, h⟩ := bind_eq_ok.1 h
  obtain ⟨n4, _, hn4, h⟩ := bind_eq_ok.1 h
  obtain ⟨frames, _, hframes, h⟩ := bind_eq_ok.1 h
  cases h
  have hnf := readString_fits hname
  refine ⟨⟨hnf.2, readString_fits hparent, ?_, ?_, ?_, ?_, ?_⟩, hnf.1, rfl⟩
  · show textures.length < _
    rw [readMany_length htex]; exact toInt_toNat_lt _
  · show vertices.length < _
    rw [readMany_length hvert]; exact resize_eq_ok hn1
  · show texCoords.length < _
    rw [readMany_length htc]; exact resize_eq_ok hn2
  · show faces.length < _
    rw [readMany_length hfaces]; exact resize_eq_ok hn3
  · show frames.length < _
    rw [readMany_length hframes]; exact resize_eq_ok hn4

theorem readMany_forall {α : Type} {r : Reader α} {P : α → Prop}
    (hr : ∀ s a s', r s = .ok (a, s') → P a) {n : Nat} {s s' : List Byte} {xs : List α}
    (h : readMany r n s = .ok (xs, s')) : ∀ x ∈ xs, P x := by
  induction n generalizing s xs with
  | zero => cases h; intro x hx; cases hx
  | succ n ih =>
    unfold readMany at h
    obtain ⟨a, s1, h1, h⟩ := bind_eq_ok.1 h
    obtain ⟨as, s2, h2, h⟩ := bind_eq_ok.1 h
    cases h
    intro x hx
    rcases List.mem_cons.1 hx with hx | hx
    · rw [hx]; exact hr _ _ _ h1
    · exact ih h2 x hx

theorem duplicate_no_nul : ∀ c ∈ duplicate, c ≠ 0 := by
  intro c hc
  simp only [duplicate, List.mem_cons, List.mem_singleton] at hc
  rcases hc with h | h | h | h | h | h | h | h | h | h | h | h <;> first | (rw [h]; decide) | cases h

theorem mem_addMesh_new (meshes : MeshMap) (mesh : Mesh) :
    ∃ m : Mesh, (m = mesh ∨ m = { mesh with name := mesh.name ++ duplicate }) ∧
      addMesh meshes mesh = MeshMap.insert meshes m.name m := by
  unfold addMesh
  dsimp only
  split
  · exact ⟨_, Or.inr rfl, rfl⟩
  · exact ⟨_, Or.inl rfl, rfl⟩

theorem MeshMap.insert_length (meshes : MeshMap) (key : Str) (mesh : Mesh) :
    (MeshMap.insert meshes key mesh).length ≤ meshes.length + 1 := by
  induction meshes with
  | nil => simp [MeshMap.insert]
  | cons e rest ih =>
    obtain ⟨k, v⟩ := e
    simp only [MeshMap.insert]
    split
    · simp
    · split
      · simp
      · simp only [List.length_cons]; omega

theorem addMesh_inv {meshes : MeshMap} {i : Nat} {mesh : Mesh} (hinv : MeshMap.Inv meshes i)
    (hwf : mesh.wf) (haddr : mesh.addr = i) : MeshMap.Inv (addMesh meshes mesh) (i + 1) := by
  obtain ⟨hs, hk, ha, hu, hw⟩ := hinv
  obtain ⟨m, hm, hadd⟩ := mem_addMesh_new meshes mesh
  have hmaddr : m.addr = i := by
    rcases hm with h | h <;> rw [h] <;> exact haddr
  have hmwf : m.wf := by
    rcases hm with h | h
    · rw [h]; exact hwf
    · rw [h]
      refine ⟨?_, hwf.2⟩
      intro c hc
      rcases List.mem_append.1 hc with hc | hc
      · exact hwf.1 c hc
      · exact duplicate_no_nul c hc
  have hmem : ∀ e ∈ addMesh meshes mesh, e = (m.name, m) ∨ e ∈ meshes := by
    intro e he
    rw [hadd] at he
    exact MeshMap.mem_insert he
  refine ⟨addMesh_sorted mesh hs, ?_, ?_, ?_, ?_⟩
  · intro e he
    rcases hmem e he with h | h
    · rw [h]
    · exact hk e h
  · intro e he
    rcases hmem e he with h | h
    · rw [h]; simp only; omega
    · exact Nat.lt_succ_of_lt (ha e h)
  · intro e he e' he' heq
    rcases hmem e he with h | h <;> rcases hmem e' he' with h' | h'
    · rw [h, h']
    · have := ha e' h'; rw [← heq, h] at this; simp only at this; omega
    · have := ha e h; rw [heq, h'] at this; simp only at this; omega
    · exact hu e h e' h' heq
  · intro e he
    rcases hmem e he with h | h
    · rw [h]; exact hmwf
    · exact hw e h

theorem addMesh_length (meshes : MeshMap) (mesh : Mesh) :
    (addMesh meshes mesh).length ≤ meshes.length + 1 :=
  MeshMap.insert_length _ _ _

theorem readMeshes_inv {version : Word16} {n i : Nat} {meshes result : MeshMap}
    {s rest : List Byte} (h : readMeshes version n i meshes s = .ok (result, rest))
    (hinv : MeshMap.Inv meshes i) :
    MeshMap.Inv result (i + n) ∧ result.length ≤ meshes.length + n := by
  induction n generalizing i meshes s with
  | zero => cases h; exact ⟨hinv, Nat.le_refl _⟩
  | succ n ih =>
    unfold readMeshes at h
    obtain ⟨mesh, s1, hmesh, h⟩ := bind_eq_ok.1 h
    obtain ⟨hwf, _, haddr⟩ := meshRead_wf hmesh
    obtain ⟨h1, h2⟩ := ih h (addMesh_inv hinv hwf haddr)
    have := addMesh_length meshes mesh
    exact ⟨by rw [show i + (n + 1) = i + 1 + n from by omega]; exact h1, by omega⟩

theorem inv_nil : MeshMap.Inv [] 0 :=
  ⟨List.Pairwise.nil, by simp, by simp, by simp, by simp⟩

/-! ### Lookups in a sorted map -/

theorem MeshMap.find_of_mem {meshes : MeshMap} (hs : MeshMap.Sorted meshes) {k : Str} {v : Mesh}
    (h : (k, v) ∈ meshes) : MeshMap.find meshes k = some v := by
  unfold MeshMap.Sorted at hs
  induction meshes with
  | nil => cases h
  | cons e rest ih =>
    obtain ⟨k', v'⟩ := e
    rw [List.pairwise_cons] at hs
    simp only [MeshMap.find]
    rcases List.mem_cons.1 h with h | h
    · cases h; rw [if_pos rfl]
    · have hne : k' ≠ k := strLt_ne (hs.1 _ h)
      rw [if_neg hne]
      exact ih hs.2 h

theorem MeshMap.find_eq_none {meshes : MeshMap} {k : Str} :
    MeshMap.find meshes k = none ↔ ∀ e ∈ meshes, e.1 ≠ k := by
  induction meshes with
  | nil => simp [MeshMap.find]
  | cons e rest ih =>
    obtain ⟨k', v'⟩ := e
    simp only [MeshMap.find]
    by_cases hk : k' = k
    · rw [if_pos hk]
      constructor
      · intro h; cases h
      · intro h; exact absurd hk (h (k', v') (List.mem_cons_self _ _))
    · rw [if_neg hk, ih]
      constructor
      · intro h e he
        rcases List.mem_cons.1 he with he | he
        · rw [he]; exact hk
        · exact h e he
      · intro h e he
        exact h e (List.mem_cons_of_mem _ he)

theorem MeshMap.eq_of_key {meshes : MeshMap} (hs : MeshMap.Sorted meshes) {e e' : Str × Mesh}
    (h : e ∈ meshes) (h' : e' ∈ meshes) (hk : e.1 = e'.1) : e = e' := by
  obtain ⟨k, v⟩ := e
  obtain ⟨k', v'⟩ := e'
  simp only at hk
  subst hk
  have h1 := MeshMap.find_of_mem hs h
  have h2 := MeshMap.find_of_mem hs h'
  rw [h1] at h2
  cases h2
  rfl

theorem MeshMap.mem_insert_self (meshes : MeshMap) (key : Str) (mesh : Mesh) :
    (key, mesh) ∈ MeshMap.insert meshes key mesh := by
  induction meshes with
  | nil => simp [MeshMap.insert]
  | cons e rest ih =>
    obtain ⟨k, v⟩ := e
    simp only [MeshMap.insert]
    split
    · exact List.mem_cons_self _ _
    · split
      · exact List.mem_cons_self _ _
      · exact List.mem_cons_of_mem _ ih

theorem MeshMap.mem_insert_of_mem {meshes : MeshMap} {key : Str} {mesh : Mesh} {e : Str × Mesh}
    (h : e ∈ meshes) (hne : e.1 ≠ key) : e ∈ MeshMap.insert meshes key mesh := by
  induction meshes with
  | nil => cases h
  | cons e' rest ih =>
    obtain ⟨k, v⟩ := e'
    simp only [MeshMap.insert]
    split
    · exact List.mem_cons_of_mem _ h
    · split
      · rename_i hk
        rcases List.mem_cons.1 h with h | h
        · rw [h] at hne; exact absurd hk hne
        · exact List.mem_cons_of_mem _ h
      · rcases List.mem_cons.1 h with h | h
        · rw [h]; exact List.mem_cons_self _ _
        · exact List.mem_cons_of_mem _ (ih h)

/-! ### Children and parents by name -/

theorem mem_newChildren_iff {meshes : MeshMap} {self m : Mesh} :
    m ∈ newChildren meshes self ↔
      (∃ k, (k, m) ∈ meshes) ∧ m.parentName = self.name ∧ m.addr ≠ self.addr := by
  unfold newChildren
  rw [List.mem_map]
  constructor
  · rintro ⟨e, he, rfl⟩
    rw [List.mem_filter] at he
    have h2 := of_decide_eq_true he.2
    exact ⟨⟨e.1, he.1⟩, h2.1, h2.2⟩
  · rintro ⟨⟨k, hk⟩, h1, h2⟩
    refine ⟨(k, m), ?_, rfl⟩
    rw [List.mem_filter]
    exact ⟨hk, decide_eq_true ⟨h1, h2⟩⟩

theorem newChildren_sorted {meshes : MeshMap} {i : Nat} (hinv : MeshMap.Inv meshes i)
    (self : Mesh) :
    List.Pairwise (fun a b : Mesh => strLt a.name b.name = true) (newChildren meshes self) := by
  obtain ⟨hs, hk, _⟩ := hinv
  unfold newChildren
  rw [List.pairwise_map]
  have h1 : List.Pairwise (fun a b : Str × Mesh => strLt a.2.name b.2.name = true) meshes := by
    unfold MeshMap.Sorted at hs
    refine List.Pairwise.imp_of_mem ?_ hs
    intro a b ha hb hab
    rw [← hk a ha, ← hk b hb]; exact hab
  exact h1.sublist (List.filter_sublist _)

theorem pairwise_strLt_nodup {l : List Mesh}
    (h : List.Pairwise (fun a b : Mesh => strLt a.name b.name = true) l) : l.Nodup :=
  h.imp (fun {a b} hab hne => by rw [hne, strLt_irrefl] at hab; cases hab)

theorem parentOf_eq_some {meshes : MeshMap} {i : Nat} (hinv : MeshMap.Inv meshes i)
    {x y : Mesh} (h : parentOf meshes x = some y) :
    (y.name, y) ∈ meshes ∧ x.parentName = y.name ∧ x.addr ≠ y.addr := by
  unfold parentOf at h
  cases hf : MeshMap.find meshes x.parentName with
  | none => rw [hf] at h; cases h
  | some z =>
    rw [hf] at h
    simp only at h
    split at h
    · rename_i hne
      cases h
      have hmem := MeshMap.find_eq_some hf
      have hkey := hinv.2.1 _ hmem
      simp only at hkey
      rw [hkey] at hmem
      exact ⟨hmem, hkey, fun h => hne h.symm⟩
    · cases h

theorem parentOf_of_newChildren {meshes : MeshMap} {i : Nat} (hinv : MeshMap.Inv meshes i)
    {m c : Mesh} (hm : (m.name, m) ∈ meshes) (hc : c ∈ newChildren meshes m) :
    parentOf meshes c = some m := by
  obtain ⟨_, h1, h2⟩ := mem_newChildren_iff.1 hc
  unfold parentOf
  rw [h1, MeshMap.find_of_mem hinv.1 hm]
  simp only
  rw [if_pos (fun h => h2 h.symm)]

theorem mem_of_newChildren {meshes : MeshMap} {i : Nat} (hinv : MeshMap.Inv meshes i)
    {m c : Mesh} (hc : c ∈ newChildren meshes m) : (c.name, c) ∈ meshes := by
  obtain ⟨⟨k, hk⟩, _, _⟩ := mem_newChildren_iff.1 hc
  have := hinv.2.1 _ hk
  simp only at this
  rw [this] at hk
  exact hk

theorem newChildren_of_parentOf {meshes : MeshMap} {i : Nat} (hinv : MeshMap.Inv meshes i)
    {x y : Mesh} (hx : (x.name, x) ∈ meshes) (h : parentOf meshes x = some y) :
    x ∈ newChildren meshes y := by
  obtain ⟨_, h1, h2⟩ := parentOf_eq_some hinv h
  exact mem_newChildren_iff.2 ⟨⟨_, hx⟩, h1, h2⟩

theorem ancestor_succ (meshes : MeshMap) (k : Nat) (x : Mesh) :
    ancestor meshes (k + 1) x = (parentOf meshes x).bind (ancestor meshes k) := by
  rw [ancestor]
  cases parentOf meshes x <;> rfl

theorem ancestor_add (meshes : MeshMap) (a b : Nat) (x : Mesh) :
    ancestor meshes (a + b) x = (ancestor meshes a x).bind (ancestor meshes b) := by
  induction a generalizing x with
  | zero => rw [Nat.zero_add, ancestor, Option.some_bind]
  | succ a ih =>
    rw [show a + 1 + b = (a + b) + 1 from by omega, ancestor_succ, ancestor_succ]
    cases parentOf meshes x with
    | none => rfl
    | some y => rw [Option.some_bind, Option.some_bind, ih]

theorem ancestor_mem {meshes : MeshMap} {i : Nat} (hinv : MeshMap.Inv meshes i) {k : Nat}
    {x y : Mesh} (hx : (x.name, x) ∈ meshes) (h : ancestor meshes k x = some y) :
    (y.name, y) ∈ meshes := by
  induction k generalizing x with
  | zero => rw [ancestor] at h; cases h; exact hx
  | succ k ih =>
    rw [ancestor_succ] at h
    cases hp : parentOf meshes x with
    | none => rw [hp] at h; cases h
    | some z =>
      rw [hp, Option.some_bind] at h
      exact ih (parentOf_eq_some hinv hp).1 h

theorem forall₂_mem_left {α β : Type} {R : α → β → Prop} {l : List α} {xs : List β}
    (h : List.Forall₂ R l xs) {a : α} (ha : a ∈ l) : ∃ x ∈ xs, R a x := by
  induction h with
  | nil => cases ha
  | cons hr _ ih =>
    rcases List.mem_cons.1 ha with ha | ha
    · subst ha; exact ⟨_, List.mem_cons_self _ _, hr⟩
    · obtain ⟨x, hx, hR⟩ := ih ha
      exact ⟨x, List.mem_cons_of_mem _ hx, hR⟩

/-- A mesh whose subtree is fetched is not its own ancestor. -/
theorem fetchChildren_no_cycle {meshes : MeshMap} {i : Nat} (hinv : MeshMap.Inv meshes i)
    {fuel : Nat} {m : Mesh} {p : Option Nat} {t : Node}
    (h : fetchChildren meshes fuel m p = some t) (hm : (m.name, m) ∈ meshes) (k : Nat) :
    ancestor meshes (k + 1) m ≠ some m := by
  induction fuel generalizing m p t k with
  | zero => cases h
  | succ fuel ih =>
    intro hcyc
    obtain ⟨fuel', children, hf, _, hall⟩ := fetchChildren_eq_some h
    cases hf
    rw [ancestor_add] at hcyc
    cases hc : ancestor meshes k m with
    | none => rw [hc] at hcyc; cases hcyc
    | some c =>
      rw [hc, Option.some_bind] at hcyc
      have hpar : parentOf meshes c = some m := by
        rw [ancestor_succ] at hcyc
        cases hp : parentOf meshes c with
        | none => rw [hp] at hcyc; cases hcyc
        | some z =>
          rw [hp, Option.some_bind, ancestor] at hcyc
          rw [hcyc]
      have hcmem := ancestor_mem hinv hm hc
      have hchild := newChildren_of_parentOf hinv hcmem hpar
      obtain ⟨tc, _, htc⟩ := forall₂_mem_left hall hchild
      refine ih htc hcmem k ?_
      rw [ancestor_succ, hpar, Option.some_bind, hc]

/-! ### Every mesh occurs at most once in the tree -/

theorem preorderChildren_cons (c : Node) (cs : List Node) :
    preorderChildren (c :: cs) = c.preorder ++ preorderChildren cs := by
  rw [preorderChildren]

theorem preorderChildren_nil : preorderChildren [] = [] := by
  rw [preorderChildren]

/-- Two different children of `m` have no common descendant. -/
theorem children_disjoint {meshes : MeshMap} {m c c' x : Mesh}
    (hnc : ∀ k, ancestor meshes (k + 1) m ≠ some m)
    (hc : parentOf meshes c = some m) (hc' : parentOf meshes c' = some m) (hne : c ≠ c')
    {a b : Nat} (ha : ancestor meshes a x = some c) (hb : ancestor meshes b x = some c')
    (hab : a ≤ b) : False := by
  obtain ⟨j, rfl⟩ := Nat.exists_eq_add_of_le hab
  rw [ancestor_add, ha, Option.some_bind] at hb
  cases j with
  | zero => rw [ancestor] at hb; cases hb; exact hne rfl
  | succ j =>
    rw [ancestor_succ, hc, Option.some_bind] at hb
    refine hnc j ?_
    rw [ancestor_add, hb, Option.some_bind, ancestor_succ, hc', Option.some_bind, ancestor]

theorem fetchChildren_nodup {meshes : MeshMap} {i : Nat} (hinv : MeshMap.Inv meshes i)
    {fuel : Nat} {m : Mesh} {p : Option Nat} {t : Node}
    (h : fetchChildren meshes fuel m p = some t) (hm : (m.name, m) ∈ meshes) :
    t.preorder.Nodup ∧
    ∀ x ∈ t.preorder, (x.name, x) ∈ meshes ∧ ∃ k, ancestor meshes k x = some m := by
  induction fuel generalizing m p t with
  | zero => cases h
  | succ fuel ih =>
    have hnc := fetchChildren_no_cycle hinv h hm
    obtain ⟨fuel', children, hf, ht, hall⟩ := fetchChildren_eq_some h
    cases hf
    subst ht
    -- the children's subtrees
    have hkids : ∀ (cs : List Mesh) (ts : List Node),
        List.Forall₂ (fun c x => fetchChildren meshes fuel c (some m.addr) = some x) cs ts →
        (∀ c ∈ cs, c ∈ newChildren meshes m) → cs.Nodup →
        (preorderChildren ts).Nodup ∧
        ∀ x ∈ preorderChildren ts, (x.name, x) ∈ meshes ∧
          ∃ c ∈ cs, ∃ k, ancestor meshes k x = some c := by
      intro cs ts hfa
      induction hfa with
      | nil =>
        intro _ _
        rw [preorderChildren_nil]
        exact ⟨List.nodup_nil, fun x hx => by cases hx⟩
      | @cons c tc cs ts hhead _ ihl =>
        intro hmem hnd
        rw [List.nodup_cons] at hnd
        have hcin := hmem c (List.mem_cons_self _ _)
        obtain ⟨hnd1, hanc1⟩ := ih hhead (mem_of_newChildren hinv hcin)
        obtain ⟨hnd2, hanc2⟩ := ihl (fun c' hc' => hmem c' (List.mem_cons_of_mem _ hc')) hnd.2
        rw [preorderChildren_cons]
        constructor
        · rw [List.nodup_append]
          refine ⟨hnd1, hnd2, ?_⟩
          intro x hx1 hx2
          obtain ⟨_, a, ha⟩ := hanc1 x hx1
          obtain ⟨_, c', hc', b, hb⟩ := hanc2 x hx2
          have hne : c ≠ c' := fun heq => hnd.1 (heq ▸ hc')
          have hpc := parentOf_of_newChildren hinv hm hcin
          have hpc' := parentOf_of_newChildren hinv hm (hmem c' (List.mem_cons_of_mem _ hc'))
          rcases Nat.le_total a b with hab | hab
          · exact children_disjoint hnc hpc hpc' hne ha hb hab
          · exact children_disjoint hnc hpc' hpc (Ne.symm hne) hb ha hab
        · intro x hx
          rcases List.mem_append.1 hx with hx | hx
          · obtain ⟨hxm, k, hk⟩ := hanc1 x hx
            exact ⟨hxm, c, List.mem_cons_self _ _, k, hk⟩
          · obtain ⟨hxm, c', hc', k, hk⟩ := hanc2 x hx
            exact ⟨hxm, c', List.mem_cons_of_mem _ hc', k, hk⟩
    obtain ⟨hnd, hanc⟩ := hkids _ _ hall (fun c hc => hc)
      (pairwise_strLt_nodup (newChildren_sorted hinv m))
    rw [Node.preorder_eq, Node.mesh, Node.children]
    constructor
    · rw [List.nodup_cons]
      refine ⟨?_, hnd⟩
      intro hmin
      obtain ⟨_, c, hc, k, hk⟩ := hanc m hmin
      refine hnc k ?_
      rw [ancestor_add, hk, Option.some_bind, ancestor_succ,
        parentOf_of_newChildren hinv hm hc, Option.some_bind, ancestor]
    · intro x hx
      rcases List.mem_cons.1 hx with hx | hx
      · subst hx
        exact ⟨hm, 0, by rw [ancestor]⟩
      · obtain ⟨hxm, c, hc, k, hk⟩ := hanc x hx
        refine ⟨hxm, k + 1, ?_⟩
        rw [ancestor_add, hk, Option.some_bind, ancestor_succ,
          parentOf_of_newChildren hinv hm hc, Option.some_bind, ancestor]

/-- The names of the meshes of a fetched tree are pairwise different, and there are at most
as many of them as the map has entries. -/
theorem fetchChildren_names_nodup {meshes : MeshMap} {i : Nat} (hinv : MeshMap.Inv meshes i)
    {fuel : Nat} {m : Mesh} {p : Option Nat} {t : Node}
    (h : fetchChildren meshes fuel m p = some t) (hm : (m.name, m) ∈ meshes) :
    (t.preorder.map Mesh.name).Nodup ∧ t.preorder.length ≤ meshes.length := by
  obtain ⟨hnd, hmem⟩ := fetchChildren_nodup hinv h hm
  have hinj : ∀ x ∈ t.preorder, ∀ y ∈ t.preorder, x.name = y.name → x = y := by
    intro x hx y hy hxy
    have := MeshMap.eq_of_key hinv.1 (hmem x hx).1 (hmem y hy).1 hxy
    exact congrArg Prod.snd this
  constructor
  · exact List.Nodup.map_on hinj hnd
  · have hnd2 : (t.preorder.map (fun x => (x.name, x))).Nodup :=
      List.Nodup.map_on (fun x _ y _ hxy => congrArg Prod.snd hxy) hnd
    have hsub : t.preorder.map (fun x => (x.name, x)) ⊆ meshes := by
      intro e he
      rw [List.mem_map] at he
      obtain ⟨x, hx, rfl⟩ := he
      exact (hmem x hx).1
    have := (List.subperm_of_subset hnd2 hsub).length_le
    rw [List.length_map] at this
    exact this

/-! ### Building the hierarchy again from the saved meshes -/

theorem readdress_eq_map (i : Nat) (l : List Mesh) (h : (l.map Mesh.name).Nodup) :
    readdress i l = l.map (reindex i (l.map Mesh.name)) := by
  induction l generalizing i with
  | nil => rfl
  | cons m ms ih =>
    rw [List.map_cons, List.nodup_cons] at h
    rw [readdress, List.map_cons, List.map_cons]
    congr 1
    · unfold reindex
      rw [position, if_pos rfl, Nat.add_zero]
    · rw [ih (i + 1) h.2]
      apply List.map_congr_left
      intro y hy
      unfold reindex
      have hne : m.name ≠ y.name := by
        intro heq
        exact h.1 (heq ▸ List.mem_map_of_mem Mesh.name hy)
      rw [position, if_neg hne]
      congr 1
      omega

theorem sorted_ext {l₁ l₂ : List Mesh}
    (h₁ : List.Pairwise (fun a b : Mesh => strLt a.name b.name = true) l₁)
    (h₂ : List.Pairwise (fun a b : Mesh => strLt a.name b.name = true) l₂)
    (h : ∀ x, x ∈ l₁ ↔ x ∈ l₂) : l₁ = l₂ := by
  have : IsAntisymm Mesh (fun a b : Mesh => strLt a.name b.name = true) :=
    ⟨fun a b hab hba => by
      have := strLt_trans hab hba
      rw [strLt_irrefl] at this
      cases this⟩
  exact List.eq_of_perm_of_sorted
    ((List.perm_ext_iff_of_nodup (pairwise_strLt_nodup h₁) (pairwise_strLt_nodup h₂)).2 h) h₁ h₂

theorem newChildren_rebuilt {meshes₁ meshes₂ : MeshMap} {i j : Nat} {l : List Mesh}
    {g : Mesh → Mesh} (h₁ : MeshMap.Inv meshes₁ i) (h₂ : MeshMap.Inv meshes₂ j)
    (hr : Rebuilt meshes₁ meshes₂ l g) {m : Mesh} (hm : m ∈ l)
    (hsub : ∀ c ∈ newChildren meshes₁ m, c ∈ l) :
    newChildren meshes₂ (g m) = (newChildren meshes₁ m).map g := by
  apply sorted_ext (newChildren_sorted h₂ _)
  · rw [List.pairwise_map]
    refine (newChildren_sorted h₁ m).imp ?_
    intro a b hab
    rw [hr.name, hr.name]; exact hab
  · intro y
    rw [mem_newChildren_iff, List.mem_map]
    constructor
    · rintro ⟨⟨k, hk⟩, hp, ha⟩
      obtain ⟨x, hx, he⟩ := (hr.mem₂ _).1 hk
      have hy : y = g x := congrArg Prod.snd he
      subst hy
      refine ⟨x, ?_, rfl⟩
      rw [mem_newChildren_iff]
      refine ⟨⟨_, hr.mem₁ x hx⟩, ?_, ?_⟩
      · rw [hr.parentName, hr.name] at hp; exact hp
      · intro hxa
        have := h₁.2.2.2.1 _ (hr.mem₁ x hx) _ (hr.mem₁ m hm) hxa
        have hxm : x = m := congrArg Prod.snd this
        exact ha (by rw [hxm])
    · rintro ⟨x, hx, rfl⟩
      have hxl := hsub x hx
      obtain ⟨_, hp, ha⟩ := mem_newChildren_iff.1 hx
      refine ⟨⟨_, (hr.mem₂ _).2 ⟨x, hxl, rfl⟩⟩, ?_, ?_⟩
      · rw [hr.parentName, hr.name]; exact hp
      · intro hga
        have hname := hr.addr x hxl m hm hga
        have := MeshMap.eq_of_key h₁.1 (hr.mem₁ x hxl) (hr.mem₁ m hm) hname
        have hxm : x = m := congrArg Prod.snd this
        exact ha (by rw [hxm])

theorem mem_preorderChildren {x : Mesh} {ts : List Node} :
    x ∈ preorderChildren ts ↔ ∃ t ∈ ts, x ∈ t.preorder := by
  induction ts with
  | nil => simp [preorderChildren_nil]
  | cons t ts ih =>
    rw [preorderChildren_cons, List.mem_append, ih]
    simp

theorem position_inj {l : List Str} {x y : Str} (hx : x ∈ l) (hy : y ∈ l)
    (h : position x l = position y l) : x = y := by
  induction l with
  | nil => cases hx
  | cons a as ih =>
    rw [position, position] at h
    by_cases hax : a = x
    · by_cases hay : a = y
      · rw [← hax, ← hay]
      · rw [if_pos hax, if_neg hay] at h; omega
    · by_cases hay : a = y
      · rw [if_neg hax, if_pos hay] at h; omega
      · rw [if_neg hax, if_neg hay] at h
        rcases List.mem_cons.1 hx with hx | hx
        · exact absurd hx.symm hax
        · rcases List.mem_cons.1 hy with hy | hy
          · exact absurd hy.symm hay
          · exact ih hx hy (by omega)

theorem collect_map_of_forall₂ {α β : Type} {f : α → Option β} {l : List α} {xs : List β}
    (h : List.Forall₂ (fun a x => f a = some x) l xs) : collect (l.map f) = some xs := by
  induction h with
  | nil => rfl
  | cons hr _ ih => rw [List.map_cons, hr, collect, ih]

theorem Node.mesh_mem_preorder (n : Node) : n.mesh ∈ n.preorder := by
  rw [Node.preorder_eq]; exact List.mem_cons_self _ _

/-- The tree fetched from the second map is the tree fetched from the first one, copied. -/
theorem fetchChildren_rebuilt {meshes₁ meshes₂ : MeshMap} {i j : Nat} {l : List Mesh}
    {g : Mesh → Mesh} (h₁ : MeshMap.Inv meshes₁ i) (h₂ : MeshMap.Inv meshes₂ j)
    (hr : Rebuilt meshes₁ meshes₂ l g) {fuel : Nat} {m : Mesh} {p : Option Nat} {t : Node}
    (h : fetchChildren meshes₁ fuel m p = some t) (hsub : ∀ x ∈ t.preorder, x ∈ l)
    (p' : Option Nat) :
    ∃ t', fetchChildren meshes₂ fuel (g m) p' = some t' ∧ t'.preorder = t.preorder.map g := by
  induction fuel generalizing m p t p' with
  | zero => cases h
  | succ fuel ih =>
    obtain ⟨fuel', children, hf, ht, hall⟩ := fetchChildren_eq_some h
    cases hf
    subst ht
    rw [Node.preorder_eq, Node.mesh, Node.children] at hsub
    have hm : m ∈ l := hsub m (List.mem_cons_self _ _)
    have hkids : ∀ (cs : List Mesh) (ts : List Node),
        List.Forall₂ (fun c x => fetchChildren meshes₁ fuel c (some m.addr) = some x) cs ts →
        (∀ x ∈ preorderChildren ts, x ∈ l) →
        ∃ ts', List.Forall₂
            (fun c x => fetchChildren meshes₂ fuel (g c) (some (g m).addr) = some x) cs ts' ∧
          preorderChildren ts' = (preorderChildren ts).map g := by
      intro cs ts hfa
      induction hfa with
      | nil =>
        intro _
        exact ⟨[], List.Forall₂.nil, by rw [preorderChildren_nil, List.map_nil]⟩
      | @cons c tc cs ts hhead _ ihl =>
        intro hin
        rw [preorderChildren_cons] at hin
        obtain ⟨tc', htc', hpre⟩ := ih hhead
          (fun x hx => hin x (List.mem_append_left _ hx)) (some (g m).addr)
        obtain ⟨ts', hts', hpres⟩ := ihl (fun x hx => hin x (List.mem_append_right _ hx))
        refine ⟨tc' :: ts', List.Forall₂.cons htc' hts', ?_⟩
        rw [preorderChildren_cons, preorderChildren_cons, List.map_append, hpre, hpres]
    obtain ⟨ts', hts', hpres⟩ := hkids _ _ hall
      (fun x hx => hsub x (List.mem_cons_of_mem _ hx))
    have hchildren : ∀ c ∈ newChildren meshes₁ m, c ∈ l := by
      intro c hc
      obtain ⟨tc, htc, hfetch⟩ := forall₂_mem_left hall hc
      have hmesh := (fetchChildren_linked hfetch).1
      apply hsub
      refine List.mem_cons_of_mem _ ?_
      have : c ∈ tc.preorder := hmesh ▸ tc.mesh_mem_preorder
      exact mem_preorderChildren.2 ⟨tc, htc, this⟩
    refine ⟨Node.mk (g m) p' ts', ?_, ?_⟩
    · simp only [fetchChildren]
      rw [newChildren_rebuilt h₁ h₂ hr hm hchildren, List.map_map]
      have : collect (List.map ((fun c => fetchChildren meshes₂ fuel c (some (g m).addr)) ∘ g)
          (newChildren meshes₁ m)) = some ts' :=
        collect_map_of_forall₂ hts'
      rw [this]
    · rw [Node.preorder_eq, Node.mesh, Node.children, Node.preorder_eq, Node.mesh, Node.children,
        List.map_cons, hpres]

/-! ### Parsing a saved document -/

theorem read_append {a rest : List Byte} {n : Nat} (h : a.length = n) :
    StreamInFile.read n (a ++ rest) = .ok (a, rest) := by
  rw [read_of_le (by rw [List.length_append]; omega), List.take_left' h, List.drop_left' h]

theorem ofSize_toInt {n : Nat} (h : n < 2147483648) : (Word32.ofSize n).toInt = (n : Int) := by
  unfold Word32.ofSize Word32.toInt
  simp only
  rw [Nat.mod_eq_of_lt (by omega), if_pos h]

theorem readAlpha_save (version : Word16) (alpha : Byte) (rest : List Byte) :
    readAlpha version ((if version.toInt ≥ 0x0104 then [alpha] else []) ++ rest) =
      .ok (if version.toInt ≥ 0x0104 then alpha else 0, rest) := by
  unfold readAlpha
  split <;> rfl

/-- The run of `loadBody` over the header that `save` writes. -/
theorem loadBody_saveHeader (fuel : Nat) (doc : Document)
    (hunk : doc.unknown.length = 16) (hzero : doc.unknown.all (fun b => b == 0) = true)
    (htex : ∀ t ∈ doc.textures, fitsField t) (hlen : doc.textures.length ≤ 100)
    (rest : List Byte) :
    loadBody fuel (saveHeader doc ++ rest) =
      loadMeshes fuel doc.version doc.animLen doc.shadeType
        (if doc.version.toInt ≥ 0x0104 then doc.alpha else 0) doc.unknown doc.textures rest := by
  unfold saveHeader loadBody
  simp only [List.append_assoc]
  rw [bind_ok (read_append (a := [71, 82, 83, 77]) (n := 4) rfl),
    show (([71, 82, 83, 77] : List Byte) == rejectedHeader) = false from by decide,
    bind_ok (returnIf_false _)]
  unfold loadFields
  rw [bind_ok (readShort_writeShort _ _), bind_ok (readInt_writeInt _ _),
    bind_ok (readInt_writeInt _ _), bind_ok (readAlpha_save _ _ _),
    bind_ok (read_append hunk), hzero, bind_ok (assert_true _)]
  unfold loadTextures
  have hlt : doc.textures.length < 2147483648 := by omega
  have hnot : decide ((Word32.ofSize doc.textures.length).toInt > 100) = false := by
    rw [ofSize_toInt hlt]
    simp only [gt_iff_lt, decide_eq_false_iff_not, not_lt]
    omega
  rw [bind_ok (readInt_writeInt _ _), hnot, bind_ok (returnIf_false _), ofSize_toNat hlt,
    bind_ok (readMany_flatMap _ _ _ (fun t ht r => readString_writeString t (htex t ht) r) _)]

theorem save_reindex (version : Word16) (i : Nat) (names : List Str) (m : Mesh) :
    (reindex i names m).save version = m.save version := rfl

theorem readMeshes_save (version : Word16) (l : List Mesh)
    (hwf : ∀ m ∈ l, m.wf ∧ m.name.length ≤ 40) (i : Nat) (meshes : MeshMap)
    (rest : List Byte) :
    readMeshes version l.length i meshes (l.flatMap (Mesh.save version) ++ rest) =
      .ok ((readdress i l).foldl addMesh meshes, rest) := by
  induction l generalizing i meshes with
  | nil => rfl
  | cons m ms ih =>
    obtain ⟨h1, h2⟩ := hwf m (List.mem_cons_self _ _)
    rw [List.length_cons, readMeshes, List.flatMap_cons, List.append_assoc,
      bind_ok (meshRead_save version i m h1 h2 _),
      ih (fun x hx => hwf x (List.mem_cons_of_mem _ hx)), readdress, List.foldl_cons]

theorem foldl_addMesh_mem {l : List Mesh} {acc : MeshMap}
    (hnd : (l.map Mesh.name).Nodup) (hfresh : ∀ x ∈ l, ∀ e ∈ acc, e.1 ≠ x.name)
    (e : Str × Mesh) :
    e ∈ l.foldl addMesh acc ↔ e ∈ acc ∨ ∃ x ∈ l, e = (x.name, x) := by
  induction l generalizing acc with
  | nil => simp
  | cons m ms ih =>
    rw [List.map_cons, List.nodup_cons] at hnd
    have hfind : MeshMap.find acc m.name = none :=
      MeshMap.find_eq_none.2 (hfresh m (List.mem_cons_self _ _))
    have hadd : addMesh acc m = MeshMap.insert acc m.name m := by
      unfold addMesh
      rw [hfind]
      rfl
    have hins : ∀ e', e' ∈ MeshMap.insert acc m.name m ↔ e' = (m.name, m) ∨ e' ∈ acc := by
      intro e'
      constructor
      · exact MeshMap.mem_insert
      · rintro (h | h)
        · rw [h]; exact MeshMap.mem_insert_self _ _ _
        · exact MeshMap.mem_insert_of_mem h (hfresh m (List.mem_cons_self _ _) e' h)
    rw [List.foldl_cons, hadd, ih hnd.2]
    · rw [hins]
      constructor
      · rintro ((h | h) | ⟨x, hx, h⟩)
        · exact Or.inr ⟨m, List.mem_cons_self _ _, h⟩
        · exact Or.inl h
        · exact Or.inr ⟨x, List.mem_cons_of_mem _ hx, h⟩
      · rintro (h | ⟨x, hx, h⟩)
        · exact Or.inl (Or.inr h)
        · rcases List.mem_cons.1 hx with hx | hx
          · exact Or.inl (Or.inl (by rw [h, hx]))
          · exact Or.inr ⟨x, hx, h⟩
    · intro x hx e' he'
      rcases (hins e').1 he' with h | h
      · rw [h]
        intro heq
        simp only at heq
        exact hnd.1 (by rw [heq]; exact List.mem_map_of_mem Mesh.name hx)
      · exact hfresh x (List.mem_cons_of_mem _ hx) e' h

theorem selectRoot_mem {meshes : MeshMap} {i : Nat} (hinv : MeshMap.Inv meshes i)
    {mainNodeName : Str} {m : Mesh} (h : selectRoot meshes mainNodeName = .ok m) :
    (m.name, m) ∈ meshes := by
  have hkey : ∀ k, (k, m) ∈ meshes → (m.name, m) ∈ meshes := by
    intro k hk
    have := hinv.2.1 _ hk
    simp only at this
    rw [this] at hk
    exact hk
  unfold selectRoot at h
  cases hf : MeshMap.find meshes mainNodeName with
  | some v =>
    rw [hf] at h
    cases h
    exact hkey _ (MeshMap.find_eq_some hf)
  | none =>
    rw [hf] at h
    cases meshes with
    | nil => cases h
    | cons e rest =>
      obtain ⟨k, v⟩ := e
      cases h
      exact hkey k (List.mem_cons_self _ _)

theorem flatMap_save_map_reindex (version : Word16) (i : Nat) (names : List Str)
    (l : List Mesh) :
    (l.map (reindex i names)).flatMap (Mesh.save version) = l.flatMap (Mesh.save version) := by
  rw [List.flatMap_map]
  rfl

theorem saveHeader_congr {doc doc' : Document} (hv : doc'.version = doc.version)
    (ha : doc'.animLen = doc.animLen) (hs : doc'.shadeType = doc.shadeType)
    (hal : doc.version.toInt ≥ 0x0104 → doc'.alpha = doc.alpha)
    (hu : doc'.unknown = doc.unknown) (ht : doc'.textures = doc.textures) :
    saveHeader doc' = saveHeader doc := by
  unfold saveHeader
  rw [hv, ha, hs, hu, ht]
  by_cases h : doc.version.toInt ≥ 0x0104
  · rw [hal h]
  · rw [if_neg h, if_neg h]

theorem bind_liftM_ok {α β : Type} {x : Except Failure α} {a : α} {f : α → Reader β}
    {s : List Byte} (h : x = .ok a) : ((liftM x : Reader α) >>= f) s = f a s := by
  subst h
  rw [bind_ok (liftM_apply _ _)]

theorem loadTrailer_zero : loadTrailer (writeInt 0 ++ writeInt 0) = .ok ((), []) := rfl

/-- C1 (amended): round trip.  For every file that loads, if every mesh name in the loaded
tree is at most 40 bytes long (so that `save` writes each name whole), then the bytes that
`save` writes load again, and saving the reloaded document gives the same bytes. -/
theorem C1_round_trip (fuel : Nat) (file : List Byte) (doc : Document)
    (h : parse fuel file = .ok doc)
    (hnames : ∀ m ∈ doc.rootMesh.preorder, m.name.length ≤ 40) :
    ∃ doc', parse fuel (save doc) = .ok doc' ∧ save doc' = save doc := by
  obtain ⟨rest, hbody⟩ := parse_ok_body h
  obtain ⟨hzero, hunk, textureCount, meshCount, mainNodeName, meshes, rootMesh, s1, s2, s3, s4,
    hle, htex, hname, hcount, hmeshes, hsel, hfetch⟩ := loadBody_eq_ok hbody
  -- what the first parse guarantees
  obtain ⟨hinv, hmlen⟩ := readMeshes_inv hmeshes inv_nil
  have hroot := selectRoot_mem hinv hsel
  obtain ⟨_, hmem⟩ := fetchChildren_nodup hinv hfetch hroot
  obtain ⟨hnames_nd, hlen⟩ := fetchChildren_names_nodup hinv hfetch hroot
  have hLlen : doc.rootMesh.preorder.length < 2147483648 := by
    have := toInt_toNat_lt meshCount
    simp only [List.length_nil, Nat.zero_add] at hmlen
    omega
  have htexfits : ∀ t ∈ doc.textures, fitsField t :=
    readMany_forall (fun s a s' h => readString_fits h) htex
  have htexlen : doc.textures.length ≤ 100 := by
    rw [readMany_length htex]; omega
  have hwf : ∀ m ∈ doc.rootMesh.preorder, m.wf ∧ m.name.length ≤ 40 :=
    fun m hm => ⟨hinv.2.2.2.2 _ (hmem m hm).1, hnames m hm⟩
  have hrm : doc.rootMesh.mesh = rootMesh := (fetchChildren_linked hfetch).1
  have hrootL : rootMesh ∈ doc.rootMesh.preorder := hrm ▸ doc.rootMesh.mesh_mem_preorder
  -- the map of the second parse
  have hLg := readdress_eq_map 0 doc.rootMesh.preorder hnames_nd
  have hread2 := readMeshes_save doc.version doc.rootMesh.preorder hwf 0 []
  rw [hLg] at hread2
  have hinv2 := (readMeshes_inv (hread2 []) inv_nil).1
  have hmem2 : ∀ e, e ∈ (doc.rootMesh.preorder.map
        (reindex 0 (doc.rootMesh.preorder.map Mesh.name))).foldl addMesh [] ↔
      ∃ x ∈ doc.rootMesh.preorder,
        e = ((reindex 0 (doc.rootMesh.preorder.map Mesh.name) x).name,
          reindex 0 (doc.rootMesh.preorder.map Mesh.name) x) := by
    intro e
    rw [foldl_addMesh_mem]
    · simp only [List.not_mem_nil, false_or, List.mem_map]
      constructor
      · rintro ⟨y, ⟨x, hx, rfl⟩, he⟩; exact ⟨x, hx, he⟩
      · rintro ⟨x, hx, he⟩; exact ⟨_, ⟨x, hx, rfl⟩, he⟩
    · rw [List.map_map]
      exact hnames_nd
    · intro x _ e he; cases he
  have hr : Rebuilt meshes ((doc.rootMesh.preorder.map
        (reindex 0 (doc.rootMesh.preorder.map Mesh.name))).foldl addMesh [])
      doc.rootMesh.preorder (reindex 0 (doc.rootMesh.preorder.map Mesh.name)) :=
    { name := fun _ => rfl
      parentName := fun _ => rfl
      addr := fun x hx y hy hxy => by
        unfold reindex at hxy
        simp only [Nat.zero_add] at hxy
        exact position_inj (List.mem_map_of_mem Mesh.name hx) (List.mem_map_of_mem Mesh.name hy) hxy
      mem₂ := hmem2
      mem₁ := fun x hx => (hmem x hx).1 }
  obtain ⟨t', hfetch', hpre'⟩ := fetchChildren_rebuilt hinv hinv2 hr hfetch (fun x hx => hx) none
  have hsel2 : selectRoot ((doc.rootMesh.preorder.map
        (reindex 0 (doc.rootMesh.preorder.map Mesh.name))).foldl addMesh []) rootMesh.name =
      .ok (reindex 0 (doc.rootMesh.preorder.map Mesh.name) rootMesh) := by
    have hfind : MeshMap.find ((doc.rootMesh.preorder.map
          (reindex 0 (doc.rootMesh.preorder.map Mesh.name))).foldl addMesh []) rootMesh.name =
        some (reindex 0 (doc.rootMesh.preorder.map Mesh.name) rootMesh) :=
      MeshMap.find_of_mem hinv2.1 ((hmem2 _).2 ⟨rootMesh, hrootL, rfl⟩)
    unfold selectRoot
    rw [hfind]
  have hrm' : t'.mesh = reindex 0 (doc.rootMesh.preorder.map Mesh.name) rootMesh :=
    (fetchChildren_linked hfetch').1
  refine ⟨{ doc with alpha := if doc.version.toInt ≥ 0x0104 then doc.alpha else 0,
                     rootMesh := t' }, ?_, ?_⟩
  · rw [parse_eq_ok]
    refine ⟨[], ?_⟩
    have hb : loadBody fuel (save doc) =
        .ok ({ doc with alpha := if doc.version.toInt ≥ 0x0104 then doc.alpha else 0,
                        rootMesh := t' }, writeInt 0 ++ writeInt 0) := by
      rw [save_eq]
      simp only [List.append_assoc]
      rw [loadBody_saveHeader fuel doc hunk hzero htexfits htexlen]
      unfold loadMeshes
      rw [hrm, bind_ok (readString_writeString _ ⟨(hwf _ hrootL).2, (hwf _ hrootL).1.1⟩ _),
        bind_ok (readInt_writeInt _ _), ofSize_toNat hLlen, bind_ok (hread2 _),
        bind_liftM_ok hsel2, hfetch']
      rfl
    rw [load_apply, hb]
    simp only
    rw [loadTrailer_zero]
  · rw [save_eq, save_eq]
    simp only
    rw [hpre', List.length_map, flatMap_save_map_reindex, hrm', hrm]
    congr 5
    exact saveHeader_congr rfl rfl rfl (fun hv => if_pos hv) rfl rfl

set_option maxRecDepth 1000000 in
theorem loadBody_longNameFile :
    loadBody 4 longNameFile = .ok (longNameDocument, writeInt 0 ++ writeInt 0) := by
  rfl

set_option maxRecDepth 1000000 in
theorem parse_longNameFile : parse 4 longNameFile = .ok longNameDocument := by
  rfl

set_option maxRecDepth 1000000 in
theorem save_longNameDocument : save longNameDocument = longNameSaved := by
  decide

set_option maxRecDepth 1000000 in
theorem parse_longNameSaved : parse 4 longNameSaved = .ok longNameDocument2 := by
  rfl

set_option maxRecDepth 1000000 in
theorem save_longNameDocument2 : save longNameDocument2 = longNameSaved2 := by
  decide

set_option maxRecDepth 1000000 in
theorem longNameSaved_ne : longNameSaved2 ≠ longNameSaved := by
  decide

/-- Counterexample to C1 as stated: `longNameFile` has both trailing counts 0 and loads; its
second record is renamed to a name of 50 chars, which `save` cuts to the 40 chars that are
the name of the fourth record.  The saved bytes load again, but the mesh "c" now hangs under
the other of the two meshes, and the second save differs from the first. -/
theorem C1_counterexample :
    loadBody 4 longNameFile = .ok (longNameDocument, writeInt 0 ++ writeInt 0) ∧
    parse 4 longNameFile = .ok longNameDocument ∧
    parse 4 (save longNameDocument) = .ok longNameDocument2 ∧
    save longNameDocument2 ≠ save longNameDocument := by
  refine ⟨loadBody_longNameFile, parse_longNameFile, ?_, ?_⟩
  · rw [save_longNameDocument]; exact parse_longNameSaved
  · rw [save_longNameDocument, save_longNameDocument2]; exact longNameSaved_ne

/-- Witness of C1 (amended): the file with the mesh "A" and its child "B". -/
theorem C1_round_trip_witness :
    ∃ doc', parse 2 (save twoMeshDocument) = .ok doc' ∧ save doc' = save twoMeshDocument :=
  C1_round_trip 2 (fileOf nameA [recordOf nameA [], recordOf nameB nameA] 0 0) twoMeshDocument
    parse_example_two (by decide)

/-- C9: `save` writes the header, the root's current name as a 40-byte field, the number of
meshes in the pre-order of the tree as a 32-bit count, the records of these meshes in
pre-order, the root first, and two zero counts.  The pre-order lists exactly the nodes
reachable from the root through child lists, and for a loaded document the count field, read
as a signed `int`, is their number. -/
theorem C9_save_layout (doc : Document) :
    save doc = saveHeader doc ++ writeString doc.rootMesh.mesh.name 40 ++
      writeInt (Word32.ofSize doc.rootMesh.preorder.length) ++
      doc.rootMesh.preorder.flatMap (Mesh.save doc.version) ++
      [0, 0, 0, 0] ++ [0, 0, 0, 0] ∧
    doc.rootMesh.preorder = doc.rootMesh.mesh :: preorderChildren doc.rootMesh.children ∧
    doc.rootMesh.preorder = doc.rootMesh.reachable.map Node.mesh ∧
    (∀ fuel file, parse fuel file = .ok doc →
      (Word32.ofSize doc.rootMesh.preorder.length).toInt = doc.rootMesh.preorder.length) := by
  refine ⟨save_eq doc, Node.preorder_eq _, preorder_eq_map_reachable _, ?_⟩
  intro fuel file h
  obtain ⟨rest, hbody⟩ := parse_ok_body h
  obtain ⟨_, _, textureCount, meshCount, mainNodeName, meshes, rootMesh, s1, s2, s3, s4,
    _, _, _, _, hmeshes, hsel, hfetch⟩ := loadBody_eq_ok hbody
  obtain ⟨hinv, hmlen⟩ := readMeshes_inv hmeshes inv_nil
  have hlen := (fetchChildren_names_nodup hinv hfetch (selectRoot_mem hinv hsel)).2
  apply ofSize_toInt
  have := toInt_toNat_lt meshCount
  simp only [List.length_nil, Nat.zero_add] at hmlen
  omega

/-- Witness of C9: the document with the mesh "A" and its child "B". -/
theorem C9_save_layout_witness :
    (Word32.ofSize twoMeshDocument.rootMesh.preorder.length).toInt =
      twoMeshDocument.rootMesh.preorder.length :=
  (C9_save_layout twoMeshDocument).2.2.2 2
    (fileOf nameA [recordOf nameA [], recordOf nameB nameA] 0 0) parse_example_two

/-! ### Rounding to binary32 -/

theorem halvings_spec : ∀ (fuel n : Nat), 0 < n → n ≤ fuel →
    2 ^ halvings fuel n ≤ n ∧ n < 2 ^ (halvings fuel n + 1)
  | 0, n, h0, h => by omega
  | fuel + 1, n, h0, h => by
    rw [halvings]
    split
    · constructor
      · simpa using h0
      · simpa using (by assumption : n < 2)
    · rename_i h2
      obtain ⟨h3, h4⟩ := halvings_spec fuel (n / 2) (by omega) (by omega)
      constructor
      · rw [pow_succ]; omega
      · rw [pow_succ]; omega

theorem floorLog2_spec {n : Nat} (h : 0 < n) :
    2 ^ floorLog2 n ≤ n ∧ n < 2 ^ (floorLog2 n + 1) :=
  halvings_spec n n h (Nat.le_refl n)

theorem two_zpow_pos (k : ℤ) : (0 : ℚ) < 2 ^ k := zpow_pos (by norm_num) k

theorem abs_eq_natAbs_div (x : ℚ) : |x| = (x.num.natAbs : ℚ) / (x.den : ℚ) := by
  have h : x = (x.num : ℚ) / (x.den : ℚ) := (Rat.num_div_den x).symm
  have hden : (0 : ℚ) < (x.den : ℚ) := by exact_mod_cast x.den_pos
  conv_lhs => rw [h]
  rw [abs_div, abs_of_pos hden, Nat.cast_natAbs, Int.cast_abs]

/-- The binary exponent brackets the magnitude. -/
theorem binade_spec {x : ℚ} (hx : x ≠ 0) :
    (2 : ℚ) ^ binade x ≤ |x| ∧ |x| < (2 : ℚ) ^ (binade x + 1) := by
  have hp : 0 < x.num.natAbs := Int.natAbs_pos.2 (Rat.num_ne_zero.2 hx)
  have hq : 0 < x.den := x.den_pos
  obtain ⟨p1, p2⟩ := floorLog2_spec hp
  obtain ⟨q1, q2⟩ := floorLog2_spec hq
  have habs := abs_eq_natAbs_div x
  have hpQ : (0 : ℚ) < (x.num.natAbs : ℚ) := by exact_mod_cast hp
  have hqQ : (0 : ℚ) < (x.den : ℚ) := by exact_mod_cast hq
  have p1Q : (2 : ℚ) ^ floorLog2 x.num.natAbs ≤ (x.num.natAbs : ℚ) := by exact_mod_cast p1
  have p2Q : (x.num.natAbs : ℚ) < (2 : ℚ) ^ (floorLog2 x.num.natAbs + 1) := by exact_mod_cast p2
  have q1Q : (2 : ℚ) ^ floorLog2 x.den ≤ (x.den : ℚ) := by exact_mod_cast q1
  have q2Q : (x.den : ℚ) < (2 : ℚ) ^ (floorLog2 x.den + 1) := by exact_mod_cast q2
  have hlq : (0 : ℚ) < (2 : ℚ) ^ floorLog2 x.den := pow_pos (by norm_num) _
  have hlp : (0 : ℚ) < (2 : ℚ) ^ floorLog2 x.num.natAbs := pow_pos (by norm_num) _
  have he0 : (2 : ℚ) ^ ((floorLog2 x.num.natAbs : ℤ) - (floorLog2 x.den : ℤ)) =
      (2 : ℚ) ^ floorLog2 x.num.natAbs / (2 : ℚ) ^ floorLog2 x.den := by
    rw [zpow_sub₀ (by norm_num : (2 : ℚ) ≠ 0), zpow_natCast, zpow_natCast]
  have hup : |x| < (2 : ℚ) ^ ((floorLog2 x.num.natAbs : ℤ) - (floorLog2 x.den : ℤ) + 1) := by
    rw [zpow_add_one₀ (by norm_num : (2 : ℚ) ≠ 0), he0, habs, div_mul_eq_mul_div,
      div_lt_div_iff₀ hqQ hlq]
    rw [pow_succ] at p2Q
    nlinarith
  have hlo : (2 : ℚ) ^ ((floorLog2 x.num.natAbs : ℤ) - (floorLog2 x.den : ℤ) - 1) ≤ |x| := by
    rw [zpow_sub_one₀ (by norm_num : (2 : ℚ) ≠ 0), he0, habs, div_mul_eq_mul_div,
      div_le_div_iff₀ hlq hqQ]
    rw [pow_succ] at q2Q
    have : (2 : ℚ) ^ floorLog2 x.num.natAbs * (2 : ℚ)⁻¹ * (x.den : ℚ) ≤
        (2 : ℚ) ^ floorLog2 x.num.natAbs * (2 : ℚ) ^ floorLog2 x.den := by
      have h5 : (2 : ℚ)⁻¹ * (x.den : ℚ) ≤ (2 : ℚ) ^ floorLog2 x.den := by
        rw [inv_mul_le_iff₀ (by norm_num : (0 : ℚ) < 2)]
        linarith
      calc (2 : ℚ) ^ floorLog2 x.num.natAbs * (2 : ℚ)⁻¹ * (x.den : ℚ)
          = (2 : ℚ) ^ floorLog2 x.num.natAbs * ((2 : ℚ)⁻¹ * (x.den : ℚ)) := by ring
        _ ≤ (2 : ℚ) ^ floorLog2 x.num.natAbs * (2 : ℚ) ^ floorLog2 x.den :=
          mul_le_mul_of_nonneg_left h5 hlp.le
    calc (2 : ℚ) ^ floorLog2 x.num.natAbs * (2 : ℚ)⁻¹ * (x.den : ℚ)
        ≤ (2 : ℚ) ^ floorLog2 x.num.natAbs * (2 : ℚ) ^ floorLog2 x.den := this
      _ ≤ (x.num.natAbs : ℚ) * (2 : ℚ) ^ floorLog2 x.den :=
        mul_le_mul_of_nonneg_right p1Q hlq.le
  unfold binade
  simp only
  split
  · rename_i h
    exact ⟨h, hup⟩
  · rename_i h
    refine ⟨hlo, ?_⟩
    rw [sub_add_cancel]
    exact not_le.1 h

theorem binade_unique {x : ℚ} (hx : x ≠ 0) {e : ℤ} (h1 : (2 : ℚ) ^ e ≤ |x|)
    (h2 : |x| < (2 : ℚ) ^ (e + 1)) : binade x = e := by
  obtain ⟨b1, b2⟩ := binade_spec hx
  have h3 : (2 : ℚ) ^ binade x < (2 : ℚ) ^ (e + 1) := lt_of_le_of_lt b1 h2
  have h4 : (2 : ℚ) ^ e < (2 : ℚ) ^ (binade x + 1) := lt_of_le_of_lt h1 b2
  rw [zpow_lt_zpow_iff_right₀ (by norm_num : (1 : ℚ) < 2)] at h3 h4
  omega

theorem binade_mono {x y : ℚ} (hx : x ≠ 0) (hy : y ≠ 0) (h : |x| ≤ |y|) :
    binade x ≤ binade y := by
  obtain ⟨b1, _⟩ := binade_spec hx
  obtain ⟨_, c2⟩ := binade_spec hy
  have h3 : (2 : ℚ) ^ binade x < (2 : ℚ) ^ (binade y + 1) :=
    lt_of_le_of_lt (b1.trans h) c2
  rw [zpow_lt_zpow_iff_right₀ (by norm_num : (1 : ℚ) < 2)] at h3
  omega

theorem binade_neg (x : ℚ) : binade (-x) = binade x := by
  unfold binade
  simp only [Rat.neg_num, Rat.neg_den, Int.natAbs_neg, abs_neg]

theorem ulp_pos (x : ℚ) : 0 < ulp x := two_zpow_pos _

theorem ulp_neg (x : ℚ) : ulp (-x) = ulp x := by
  unfold ulp
  rw [binade_neg]

/-! #### The nearest integer -/

theorem roundEven_intCast (n : ℤ) : roundEven (n : ℚ) = n := by
  unfold roundEven
  rw [Int.floor_intCast, sub_self, if_pos (by norm_num)]

theorem floor_le_roundEven (y : ℚ) : ⌊y⌋ ≤ roundEven y := by
  unfold roundEven
  split_ifs <;> omega

theorem roundEven_le_floor_add_one (y : ℚ) : roundEven y ≤ ⌊y⌋ + 1 := by
  unfold roundEven
  split_ifs <;> omega

theorem roundEven_mono {a b : ℚ} (h : a ≤ b) : roundEven a ≤ roundEven b := by
  have hf : ⌊a⌋ ≤ ⌊b⌋ := Int.floor_mono h
  rcases lt_or_eq_of_le hf with hlt | heq
  · exact (roundEven_le_floor_add_one a).trans ((by omega : ⌊a⌋ + 1 ≤ ⌊b⌋).trans
      (floor_le_roundEven b))
  · have hd : a - ⌊a⌋ ≤ b - ⌊b⌋ := by rw [heq]; linarith
    unfold roundEven
    rw [heq] at hd ⊢
    split_ifs <;> first | omega | (exfalso; linarith)

theorem le_roundEven_of_le {m : ℤ} {y : ℚ} (h : (m : ℚ) ≤ y) : m ≤ roundEven y := by
  have := roundEven_mono h
  rwa [roundEven_intCast] at this

theorem roundEven_le_of_le {m : ℤ} {y : ℚ} (h : y ≤ (m : ℚ)) : roundEven y ≤ m := by
  have := roundEven_mono h
  rwa [roundEven_intCast] at this

theorem roundEven_neg (y : ℚ) : roundEven (-y) = -roundEven y := by
  by_cases hint : y = (⌊y⌋ : ℚ)
  · have h1 : -y = ((-⌊y⌋ : ℤ) : ℚ) := by rw [Int.cast_neg, ← hint]
    rw [h1, roundEven_intCast, hint, roundEven_intCast, Int.floor_intCast]
  · have hle : (⌊y⌋ : ℚ) ≤ y := Int.floor_le y
    have hlt : y < (⌊y⌋ : ℚ) + 1 := Int.lt_floor_add_one y
    have hne : (⌊y⌋ : ℚ) < y := lt_of_le_of_ne hle (fun h => hint h.symm)
    have hfl : ⌊-y⌋ = -⌊y⌋ - 1 := by
      rw [Int.floor_eq_iff]
      push_cast
      constructor <;> linarith
    unfold roundEven
    rw [hfl]
    push_cast
    split_ifs <;> first | omega | (exfalso; linarith)

/-! #### The binary32 value -/

theorem roundFloat_zero : roundFloat 0 = 0 := by
  unfold roundFloat
  rw [if_pos rfl]

theorem roundFloat_neg (x : ℚ) : roundFloat (-x) = -roundFloat x := by
  unfold roundFloat
  by_cases hx : x = 0
  · rw [if_pos hx, if_pos (by rw [hx, neg_zero]), neg_zero]
  · rw [if_neg hx, if_neg (neg_ne_zero.2 hx), ulp_neg, neg_div, roundEven_neg, Int.cast_neg,
      neg_mul]

theorem roundFloat_nonneg {x : ℚ} (h : 0 ≤ x) : 0 ≤ roundFloat x := by
  unfold roundFloat
  split
  · exact le_refl _
  · have h0 : ((0 : ℤ) : ℚ) ≤ x / ulp x := by
      rw [Int.cast_zero]
      exact div_nonneg h (ulp_pos x).le
    exact mul_nonneg (Int.cast_nonneg.2 (le_roundEven_of_le h0)) (ulp_pos x).le

/-- A value with few enough significant bits is its own binary32 value. -/
theorem roundFloat_exact (x : ℚ) (m k : ℤ) (hx : x = (m : ℚ) * (2 : ℚ) ^ k)
    (hk : max (binade x - 23) (-149) ≤ k) : roundFloat x = x := by
  unfold roundFloat
  split
  · rename_i h0; exact h0.symm
  · have hpow : (2 : ℚ) ^ k =
        (2 : ℚ) ^ (k - max (binade x - 23) (-149)).toNat * ulp x := by
      unfold ulp
      rw [← zpow_natCast, Int.toNat_of_nonneg (by omega),
        ← zpow_add₀ (by norm_num : (2 : ℚ) ≠ 0), sub_add_cancel]
    have hdiv : x / ulp x =
        ((m * 2 ^ (k - max (binade x - 23) (-149)).toNat : ℤ) : ℚ) := by
      rw [div_eq_iff (ulp_pos x).ne']
      push_cast
      conv_lhs => rw [hx, hpow]
      ring
    rw [hdiv, roundEven_intCast, ← hdiv, div_mul_cancel₀ _ (ulp_pos x).ne']

theorem roundFloat_natCast (n : ℕ) (h : n ≤ 16777216) : roundFloat (n : ℚ) = n := by
  by_cases hn : n = 0
  · rw [hn, Nat.cast_zero, roundFloat_zero]
  · have hx : (n : ℚ) ≠ 0 := by exact_mod_cast hn
    obtain ⟨b1, b2⟩ := binade_spec hx
    rw [abs_of_nonneg (by positivity : (0 : ℚ) ≤ (n : ℚ))] at b1 b2
    have hQ : (n : ℚ) ≤ (2 : ℚ) ^ (24 : ℤ) := by
      have : ((16777216 : ℕ) : ℚ) = (2 : ℚ) ^ (24 : ℤ) := by norm_num
      rw [← this]
      exact_mod_cast h
    have he : binade (n : ℚ) ≤ 24 := by
      have := b1.trans hQ
      rwa [zpow_le_zpow_iff_right₀ (by norm_num : (1 : ℚ) < 2)] at this
    by_cases h23 : binade (n : ℚ) ≤ 23
    · exact roundFloat_exact (n : ℚ) n 0 (by rw [zpow_zero, mul_one, Int.cast_natCast])
        (by omega)
    · have h24 : binade (n : ℚ) = 24 := by omega
      rw [h24] at b1
      have heq : (n : ℚ) = (2 : ℚ) ^ (24 : ℤ) := le_antisymm hQ b1
      exact roundFloat_exact (n : ℚ) 1 24 (by rw [Int.cast_one, one_mul, heq]) (by omega)

theorem roundFloat_intCast {n : ℤ} (h0 : 0 ≤ n) (h : n ≤ 16777216) :
    roundFloat (n : ℚ) = n := by
  obtain ⟨k, rfl⟩ := Int.eq_ofNat_of_zero_le h0
  rw [Int.cast_natCast]
  exact roundFloat_natCast k (by omega)

theorem roundFloat_one : roundFloat 1 = 1 := by
  have := roundFloat_natCast 1 (by norm_num)
  simpa using this

/-- Rounding keeps the order of values that are not negative. -/
theorem roundFloat_mono {x y : ℚ} (hx : 0 ≤ x) (hxy : x ≤ y) :
    roundFloat x ≤ roundFloat y := by
  rcases eq_or_lt_of_le hx with h0 | hpos
  · rw [← h0, roundFloat_zero]
    exact roundFloat_nonneg (hx.trans hxy)
  · have hypos : 0 < y := lt_of_lt_of_le hpos hxy
    have hxne : x ≠ 0 := hpos.ne'
    have hyne : y ≠ 0 := hypos.ne'
    have hbin : binade x ≤ binade y :=
      binade_mono hxne hyne (by rwa [abs_of_pos hpos, abs_of_pos hypos])
    have hrx : roundFloat x = (roundEven (x / ulp x) : ℚ) * ulp x := by
      unfold roundFloat; rw [if_neg hxne]
    have hry : roundFloat y = (roundEven (y / ulp y) : ℚ) * ulp y := by
      unfold roundFloat; rw [if_neg hyne]
    rcases eq_or_lt_of_le (max_le_max (sub_le_sub_right hbin 23) (le_refl (-149 : ℤ))) with
      heq | hlt
    · have hu : ulp x = ulp y := by unfold ulp; rw [heq]
      rw [hrx, hry, hu]
      apply mul_le_mul_of_nonneg_right _ (ulp_pos y).le
      exact_mod_cast roundEven_mono (div_le_div_of_nonneg_right hxy (ulp_pos y).le)
    · obtain ⟨_, x2⟩ := binade_spec hxne
      obtain ⟨y1, _⟩ := binade_spec hyne
      rw [abs_of_pos hpos] at x2
      rw [abs_of_pos hypos] at y1
      have hb : max (binade y - 23) (-149) = binade y - 23 := by omega
      have hey : binade x + 1 ≤ binade y := by omega
      have hxle : x ≤ (2 : ℚ) ^ binade y :=
        x2.le.trans (zpow_le_zpow_right₀ (by norm_num) hey)
      -- the value of `y` is at least 2 ^ binade y
      have hA : (2 : ℚ) ^ binade y ≤ roundFloat y := by
        have hu : ulp y = (2 : ℚ) ^ (binade y - 23) := by unfold ulp; rw [hb]
        have hsplit : (2 : ℚ) ^ binade y = ((8388608 : ℤ) : ℚ) * ulp y := by
          have h8 : ((8388608 : ℤ) : ℚ) = (2 : ℚ) ^ (23 : ℤ) := by norm_num
          rw [hu, h8, ← zpow_add₀ (by norm_num : (2 : ℚ) ≠ 0)]
          congr 1
          omega
        have h23 : ((8388608 : ℤ) : ℚ) ≤ y / ulp y := by
          rw [le_div_iff₀ (ulp_pos y), ← hsplit]
          exact y1
        have h25 : ((8388608 : ℤ) : ℚ) ≤ (roundEven (y / ulp y) : ℚ) := by
          exact_mod_cast le_roundEven_of_le h23
        rw [hry, hsplit]
        exact mul_le_mul_of_nonneg_right h25 (ulp_pos y).le
      -- the value of `x` is at most 2 ^ binade y
      have hB : roundFloat x ≤ (2 : ℚ) ^ binade y := by
        have hnn : 0 ≤ binade y - max (binade x - 23) (-149) := by omega
        have hpow : (2 : ℚ) ^ binade y =
            (((2 : ℤ) ^ (binade y - max (binade x - 23) (-149)).toNat : ℤ) : ℚ) * ulp x := by
          unfold ulp
          push_cast
          rw [← zpow_natCast, Int.toNat_of_nonneg hnn,
            ← zpow_add₀ (by norm_num : (2 : ℚ) ≠ 0), sub_add_cancel]
        have hdiv : x / ulp x ≤
            (((2 : ℤ) ^ (binade y - max (binade x - 23) (-149)).toNat : ℤ) : ℚ) := by
          rw [div_le_iff₀ (ulp_pos x), ← hpow]
          exact hxle
        have h1 := roundEven_le_of_le hdiv
        have h2 : (roundEven (x / ulp x) : ℚ) ≤
            (((2 : ℤ) ^ (binade y - max (binade x - 23) (-149)).toNat : ℤ) : ℚ) := by
          exact_mod_cast h1
        rw [hrx, hpow]
        exact mul_le_mul_of_nonneg_right h2 (ulp_pos x).le
      exact hB.trans hA

/-! ### The animation sampler -/

theorem tmod_add_self {T P : Int} (hT : 0 ≤ T) (hTP : 0 ≤ T + P) :
    Int.tmod (T + P) P = Int.tmod T P := by
  rcases Int.le_total 0 P with hP | hP
  · rw [Int.tmod_eq_emod hTP hP, Int.tmod_eq_emod hT hP, Int.add_emod_self]
  · have hP' : 0 ≤ -P := by omega
    rw [← Int.tmod_neg (T + P) P, ← Int.tmod_neg T P, Int.tmod_eq_emod hTP hP',
      Int.tmod_eq_emod hT hP']
    have : T + P = T + -1 * -P := by omega
    rw [this, Int.add_mul_emod_self]

/-- C12: loop periodicity of the animation sampling.  For a mesh with at least two frames
whose last frame time P is not 0, and two elapsed-time clock values T and T + P (both at
least 0; for a positive P every T at least 0), `calcMatrix1` computes the same playback
position `tick`, the same frames `current` and `next`, the same quotient `interval`, hence the
same mixed and normalized quaternion and the same pose matrix.  The clock and its remainder
are those of `int` arithmetic without overflow. -/
theorem C12_loop_periodicity (glm : Glm) (bbrange bbmax : RVec3) (mesh : Mesh)
    (parent : Option Nat) (nChildren : Nat) (T : Int)
    (_frames : 2 ≤ mesh.frames.length) (_period : mesh.times.getLastD 0 ≠ 0)
    (hT : 0 ≤ T) (hTP : 0 ≤ T + mesh.times.getLastD 0) :
    playbackTick mesh.times (some (T + mesh.times.getLastD 0)) =
      playbackTick mesh.times (some T) ∧
    currentFrame mesh.times (playbackTick mesh.times (some (T + mesh.times.getLastD 0))) =
      currentFrame mesh.times (playbackTick mesh.times (some T)) ∧
    nextFrame mesh.times
        (currentFrame mesh.times (playbackTick mesh.times (some (T + mesh.times.getLastD 0)))) =
      nextFrame mesh.times (currentFrame mesh.times (playbackTick mesh.times (some T))) ∧
    interval mesh.times (playbackTick mesh.times (some (T + mesh.times.getLastD 0)))
        (currentFrame mesh.times (playbackTick mesh.times (some (T + mesh.times.getLastD 0))))
        (nextFrame mesh.times (currentFrame mesh.times
          (playbackTick mesh.times (some (T + mesh.times.getLastD 0))))) =
      interval mesh.times (playbackTick mesh.times (some T))
        (currentFrame mesh.times (playbackTick mesh.times (some T)))
        (nextFrame mesh.times (currentFrame mesh.times (playbackTick mesh.times (some T)))) ∧
    mesh.sample glm (some (T + mesh.times.getLastD 0)) = mesh.sample glm (some T) ∧
    Mesh.matrix1 glm (some (T + mesh.times.getLastD 0)) bbrange bbmax mesh parent nChildren =
      Mesh.matrix1 glm (some T) bbrange bbmax mesh parent nChildren := by
  have htick : playbackTick mesh.times (some (T + mesh.times.getLastD 0)) =
      playbackTick mesh.times (some T) := by
    unfold playbackTick
    exact tmod_add_self hT hTP
  have hsample : mesh.sample glm (some (T + mesh.times.getLastD 0)) =
      mesh.sample glm (some T) := by
    unfold Mesh.sample
    simp only [htick]
  refine ⟨htick, by rw [htick], by rw [htick], by rw [htick], hsample, ?_⟩
  unfold Mesh.matrix1 poseRotation
  simp only [hsample]

/-- Witness of C12: frames at the times 0 and 200, clock values 50 and 250. -/
theorem C12_loop_periodicity_witness :
    2 ≤ (animatedMesh [0, 200]).frames.length ∧
    (animatedMesh [0, 200]).times.getLastD 0 ≠ 0 ∧
    (animatedMesh [0, 200]).sample restGlm (some (50 + (animatedMesh [0, 200]).times.getLastD 0)) =
      (animatedMesh [0, 200]).sample restGlm (some 50) :=
  ⟨by decide, by decide,
    (C12_loop_periodicity restGlm ⟨0, 0, 0⟩ ⟨0, 0, 0⟩ (animatedMesh [0, 200]) none 0 50
      (by decide) (by decide) (by decide) (by decide)).2.2.2.2.1⟩

theorem wrap32_zero : wrap32 0 = 0 := by decide

theorem wrap32_of_range {x : Int} (h0 : 0 ≤ x) (h1 : x < 2147483648) : wrap32 x = x := by
  unfold wrap32
  have : x % 4294967296 = x := Int.emod_eq_of_lt h0 (by omega)
  rw [this, if_pos h1]

/-- What the scan finds: an index from `i` on whose time exceeds `tick`, all earlier times
from `i` on being at most `tick`. -/
theorem firstAbove_eq_some {tick : Int} {ts : List Int} {i k : Nat}
    (h : firstAbove tick ts i = some k) :
    i ≤ k ∧ k - i < ts.length ∧ tick < ts.getD (k - i) 0 ∧ ∀ j, j < k - i → ts.getD j 0 ≤ tick := by
  induction ts generalizing i with
  | nil => cases h
  | cons t ts ih =>
    rw [firstAbove] at h
    split at h
    · rename_i hgt
      cases h
      refine ⟨Nat.le_refl _, by simp, by simpa using hgt, ?_⟩
      intro j hj
      omega
    · rename_i hle
      obtain ⟨h1, h2, h3, h4⟩ := ih h
      have hk : k - i = (k - (i + 1)) + 1 := by omega
      refine ⟨by omega, by rw [List.length_cons]; omega, ?_, ?_⟩
      · rw [hk, List.getD_cons_succ]; exact h3
      · intro j hj
        cases j with
        | zero => rw [List.getD_cons_zero]; omega
        | succ j => rw [List.getD_cons_succ]; exact h4 j (by omega)

theorem firstAbove_isSome {tick : Int} {ts : List Int} (i : Nat)
    (h : ∃ t ∈ ts, tick < t) : ∃ k, firstAbove tick ts i = some k := by
  induction ts generalizing i with
  | nil => obtain ⟨t, ht, _⟩ := h; cases ht
  | cons t ts ih =>
    rw [firstAbove]
    split
    · exact ⟨i, rfl⟩
    · rename_i hle
      obtain ⟨t', ht', hlt⟩ := h
      rcases List.mem_cons.1 ht' with h' | h'
      · subst h'; exact absurd hlt hle
      · exact ih (i + 1) ⟨t', h', hlt⟩

theorem getLastD_mem {ts : List Int} (h : ts ≠ []) : ts.getLastD 0 ∈ ts := by
  cases ts with
  | nil => exact absurd rfl h
  | cons t ts =>
    rw [List.getLastD_cons]
    clear h
    induction ts generalizing t with
    | nil => simp
    | cons t' ts ih =>
      rw [List.getLastD_cons]
      exact List.mem_cons_of_mem _ (ih t')

theorem toInt_lt (w : Word32) : w.toInt < 2147483648 := by
  unfold Word32.toInt
  split
  · omega
  · have := w.isLt; omega

theorem toInt_ge (w : Word32) : -2147483648 ≤ w.toInt := by
  unfold Word32.toInt
  split
  · omega
  · omega

theorem times_getD_lt (mesh : Mesh) (i : Nat) : mesh.times.getD i 0 < 2147483648 := by
  unfold Mesh.times
  rw [List.getD_eq_getElem?_getD, List.getElem?_map]
  cases mesh.frames[i]? with
  | none => simp
  | some f => simpa using toInt_lt f.time

theorem getLastD_mem_general : ∀ (ts : List Int) (d : Int), ts ≠ [] → ts.getLastD d ∈ ts
  | [], _, h => absurd rfl h
  | [t], d, _ => by simp
  | t :: t' :: ts, d, _ => by
    rw [List.getLastD_cons]
    exact List.mem_cons_of_mem _ (getLastD_mem_general (t' :: ts) t (List.cons_ne_nil _ _))

/-- In a strictly increasing list the last element is the largest. -/
theorem le_getLastD_of_sorted : ∀ (ts : List Int) (d : Int),
    ts.Pairwise (fun a b => a < b) → ∀ t ∈ ts, t ≤ ts.getLastD d
  | [], _, _, t, ht => absurd ht (List.not_mem_nil _)
  | a :: ts, d, hs, t, ht => by
    rw [List.getLastD_cons]
    rw [List.pairwise_cons] at hs
    rcases List.mem_cons.1 ht with rfl | ht
    · cases ts with
      | nil => exact le_refl _
      | cons b ts =>
        exact (hs.1 _ (getLastD_mem_general (b :: ts) t (List.cons_ne_nil _ _))).le
    · exact le_getLastD_of_sorted ts a hs.2 t ht

set_option maxRecDepth 1000000 in
theorem roundFloat_below_one :
    roundFloat (16777215 / 16777216) = 16777215 / 16777216 := by
  decide!

/-- C20, amended: for a mesh whose frames are ordered by strictly increasing time, with at
least two frames, a positive last frame time P and a span P − frames[0].time below 2^31, and
for every playback position `tick` with 0 ≤ tick < P that is not below the first frame time,
the frames chosen by `calcMatrix1` satisfy next = current + 1 < frame count, their times
differ, frames[current].time ≤ tick < frames[next].time, the divisor of the quotient is not
zero and the quotient, computed in binary32, lies in [0, 1]; it lies in [0, 1) when the span
P − frames[0].time is at most 2^24 = 16777216. -/
theorem C20_interpolation_fraction (mesh : Mesh) (tick : Int)
    (hsorted : mesh.times.Pairwise (fun a b => a < b)) (h2 : 2 ≤ mesh.frames.length)
    (_period : 0 < mesh.times.getLastD 0)
    (hspan : mesh.times.getLastD 0 - mesh.times.getD 0 0 < 2147483648)
    (_tick : 0 ≤ tick) (hlo : mesh.times.getD 0 0 ≤ tick)
    (hhi : tick < mesh.times.getLastD 0) :
    nextFrame mesh.times (currentFrame mesh.times tick) = currentFrame mesh.times tick + 1 ∧
    nextFrame mesh.times (currentFrame mesh.times tick) < mesh.frames.length ∧
    mesh.times.getD (nextFrame mesh.times (currentFrame mesh.times tick)) 0 ≠
      mesh.times.getD (currentFrame mesh.times tick) 0 ∧
    mesh.times.getD (currentFrame mesh.times tick) 0 ≤ tick ∧
    tick < mesh.times.getD (nextFrame mesh.times (currentFrame mesh.times tick)) 0 ∧
    ∃ q, interval mesh.times tick (currentFrame mesh.times tick)
        (nextFrame mesh.times (currentFrame mesh.times tick)) = some q ∧ 0 ≤ q ∧ q ≤ 1 ∧
      (mesh.times.getLastD 0 - mesh.times.getD 0 0 ≤ 16777216 → q < 1) := by
  have hlen : mesh.times.length = mesh.frames.length := by
    unfold Mesh.times; rw [List.length_map]
  have hne : mesh.times ≠ [] := by
    intro h; rw [h] at hlen; simp at hlen; omega
  have hex : ∃ t ∈ mesh.times, tick < t := ⟨_, getLastD_mem hne, hhi⟩
  obtain ⟨k, hk⟩ := firstAbove_isSome 0 hex
  obtain ⟨_, hklt, hkgt, hkle⟩ := firstAbove_eq_some hk
  simp only [Nat.sub_zero] at hklt hkgt hkle
  have hkpos : 0 < k := by
    rcases Nat.eq_zero_or_pos k with h | h
    · subst h; omega
    · exact h
  have hcur : currentFrame mesh.times tick = k - 1 := by
    unfold currentFrame
    rw [hk]
    simp only
    rw [if_neg (by omega)]
    omega
  have hnext : nextFrame mesh.times (k - 1) = k := by
    unfold nextFrame
    rw [if_neg (by omega)]
    omega
  rw [hcur, hnext]
  have hcle := hkle (k - 1) (by omega)
  -- the frame `current` is not before the first frame
  have hc0 : mesh.times.getD 0 0 ≤ mesh.times.getD (k - 1) 0 := by
    rcases Nat.eq_zero_or_pos (k - 1) with h | h
    · rw [h]
    · have hp := List.pairwise_iff_getElem.1 hsorted 0 (k - 1) (by omega) (by omega) h
      rw [List.getD_eq_getElem _ _ (by omega : k - 1 < mesh.times.length),
        List.getD_eq_getElem _ _ (by omega : 0 < mesh.times.length)]
      omega
  -- the frame `next` is not after the last frame
  have hkP : mesh.times.getD k 0 ≤ mesh.times.getLastD 0 := by
    rw [List.getD_eq_getElem _ _ hklt]
    exact le_getLastD_of_sorted _ _ hsorted _ (List.getElem_mem _)
  refine ⟨by omega, by omega, by omega, hcle, hkgt, ?_⟩
  have hnum0 : (0 : Int) ≤ tick - mesh.times.getD (k - 1) 0 := by omega
  have hnumden : tick - mesh.times.getD (k - 1) 0 + 1 ≤
      mesh.times.getD k 0 - mesh.times.getD (k - 1) 0 := by omega
  have hdenle : mesh.times.getD k 0 - mesh.times.getD (k - 1) 0 ≤
      mesh.times.getLastD 0 - mesh.times.getD 0 0 := by omega
  unfold interval
  simp only
  have hgen : ∀ (a b : Int), 0 ≤ a → a + 1 ≤ b →
      b ≤ mesh.times.getLastD 0 - mesh.times.getD 0 0 →
      ∃ q, (if roundFloat ((wrap32 b : Int) : ℚ) = 0 then none
          else some (roundFloat (roundFloat ((wrap32 a : Int) : ℚ) /
            roundFloat ((wrap32 b : Int) : ℚ)))) = some q ∧ 0 ≤ q ∧ q ≤ 1 ∧
        (mesh.times.getLastD 0 - mesh.times.getD 0 0 ≤ 16777216 → q < 1) := by
    intro a b ha hab hb
    rw [wrap32_of_range ha (by omega), wrap32_of_range (by omega) (by omega)]
    have haQ : (0 : ℚ) ≤ (a : ℚ) := by exact_mod_cast ha
    have habQ : (a : ℚ) ≤ (b : ℚ) := by exact_mod_cast (by omega : a ≤ b)
    have hb1 : (1 : ℚ) ≤ (b : ℚ) := by exact_mod_cast (by omega : (1 : Int) ≤ b)
    have hfa : 0 ≤ roundFloat (a : ℚ) := roundFloat_nonneg haQ
    have hfab : roundFloat (a : ℚ) ≤ roundFloat (b : ℚ) := roundFloat_mono haQ habQ
    have hfb : 1 ≤ roundFloat (b : ℚ) := by
      have := roundFloat_mono (by norm_num : (0 : ℚ) ≤ 1) hb1
      rwa [roundFloat_one] at this
    have hfbpos : 0 < roundFloat (b : ℚ) := lt_of_lt_of_le (by norm_num) hfb
    rw [if_neg hfbpos.ne']
    have hq0 : 0 ≤ roundFloat (a : ℚ) / roundFloat (b : ℚ) := div_nonneg hfa hfbpos.le
    have hq1 : roundFloat (a : ℚ) / roundFloat (b : ℚ) ≤ 1 := by
      rw [div_le_one hfbpos]
      exact hfab
    refine ⟨_, rfl, roundFloat_nonneg hq0, ?_, ?_⟩
    · have := roundFloat_mono hq0 hq1
      rwa [roundFloat_one] at this
    · intro hsmall
      rw [roundFloat_intCast ha (by omega), roundFloat_intCast (by omega) (by omega)]
      have hbpos : (0 : ℚ) < (b : ℚ) := lt_of_lt_of_le (by norm_num) hb1
      have hle : (a : ℚ) / (b : ℚ) ≤ 16777215 / 16777216 := by
        rw [div_le_div_iff₀ hbpos (by norm_num)]
        have h1 : a * 16777216 ≤ 16777215 * b := by omega
        exact_mod_cast h1
      have := roundFloat_mono (div_nonneg haQ hbpos.le) hle
      rw [roundFloat_below_one] at this
      exact lt_of_le_of_lt this (by norm_num)
  exact hgen _ _ hnum0 hnumden hdenle

set_option maxRecDepth 1000000 in
/-- Counterexample to C20 as stated.  Frames at the times 100 and 200 and the playback
position 50, which is at least 0 and below P = 200: the scan stops at index 0, `current` is
clamped from -1 to 0, the time of frame `current` is 100 > 50, and the quotient is -1/2.
Frames at the times 0 and 16777217 and the playback position 16777216: the frames 0 and 1 are
chosen, `(float) 16777217` is 16777216, and the quotient is 1. -/
theorem C20_counterexample :
    ((animatedMesh [100, 200]).times = [100, 200] ∧
    (100 : Int) < 200 ∧ (0 : Int) ≤ 50 ∧ (50 : Int) < (animatedMesh [100, 200]).times.getLastD 0 ∧
    currentFrame (animatedMesh [100, 200]).times 50 = 0 ∧
    nextFrame (animatedMesh [100, 200]).times 0 = 1 ∧
    ¬ ((animatedMesh [100, 200]).times.getD 0 0 ≤ 50) ∧
    interval (animatedMesh [100, 200]).times 50 0 1 = some (-1 / 2)) ∧
    ((animatedMesh [0, 16777217]).times = [0, 16777217] ∧
    (0 : Int) < 16777217 ∧ (0 : Int) ≤ 16777216 ∧
    (16777216 : Int) < (animatedMesh [0, 16777217]).times.getLastD 0 ∧
    currentFrame (animatedMesh [0, 16777217]).times 16777216 = 0 ∧
    nextFrame (animatedMesh [0, 16777217]).times 0 = 1 ∧
    (animatedMesh [0, 16777217]).times.getD 0 0 ≤ 16777216 ∧
    roundFloat ((16777217 : Int) : ℚ) = 16777216 ∧
    interval (animatedMesh [0, 16777217]).times 16777216 0 1 = some 1) := by
  refine ⟨⟨by decide!, by decide!, by decide!, by decide!, by decide!, by decide!, by decide!,
    by decide!⟩, by decide!, by decide!, by decide!, by decide!, by decide!, by decide!,
    by decide!, by decide!, by decide!⟩

/-- Witness of C20: frames at the times 0 and 200, playback position 50. -/
theorem C20_interpolation_fraction_witness :
    ∃ q, interval (animatedMesh [0, 200]).times 50
        (currentFrame (animatedMesh [0, 200]).times 50)
        (nextFrame (animatedMesh [0, 200]).times
          (currentFrame (animatedMesh [0, 200]).times 50)) = some q ∧ 0 ≤ q ∧ q ≤ 1 ∧
      ((animatedMesh [0, 200]).times.getLastD 0 - (animatedMesh [0, 200]).times.getD 0 0 ≤
        16777216 → q < 1) :=
  (C20_interpolation_fraction (animatedMesh [0, 200]) 50 (by decide) (by decide) (by decide)
    (by decide) (by decide) (by decide) (by decide)).2.2.2.2.2

/-- When the last frame has time 0, the rotation is the first frame's normalized quaternion,
for every clock value. -/
theorem poseRotation_last_zero (glm : Glm) (millis : Option Int) (mesh : Mesh) (m : RMat4)
    (hframes : mesh.frames.length ≠ 0) (hlast : mesh.times.getLastD 0 = 0) :
    poseRotation glm millis mesh m =
      some (m.mul (glm.toMat4 (glm.normalize (mesh.quaternion glm 0)))) := by
  unfold poseRotation
  rw [if_neg hframes, if_neg (by simpa using hlast)]

/-- C19, failing input: a mesh with exactly one frame, at time 100.  Its last frame time is
not 0, so `calcMatrix1` takes the sampling branch for every clock value: `current` and `next`
are both 0 and the quotient divides by `frames[0]->time - frames[0]->time` = 0, which has no
value; the first frame's normalized quaternion is not applied directly. -/
theorem C19_single_frame_divides_by_zero (glm : Glm) (millis : Option Int) (m : RMat4)
    (bbrange bbmax : RVec3) :
    (animatedMesh [100]).frames.length = 1 ∧
    nextFrame (animatedMesh [100]).times
      (currentFrame (animatedMesh [100]).times
        (playbackTick (animatedMesh [100]).times millis)) =
      currentFrame (animatedMesh [100]).times
        (playbackTick (animatedMesh [100]).times millis) ∧
    interval (animatedMesh [100]).times (playbackTick (animatedMesh [100]).times millis)
      (currentFrame (animatedMesh [100]).times
        (playbackTick (animatedMesh [100]).times millis))
      (nextFrame (animatedMesh [100]).times
        (currentFrame (animatedMesh [100]).times
          (playbackTick (animatedMesh [100]).times millis))) = none ∧
    (animatedMesh [100]).sample glm millis = none ∧
    poseRotation glm millis (animatedMesh [100]) m = none ∧
    Mesh.matrix1 glm millis bbrange bbmax (animatedMesh [100]) none 0 = none := by
  have htimes : (animatedMesh [100]).times = [100] := by decide
  have hcur : ∀ tick, currentFrame [100] tick = 0 := by
    intro tick
    unfold currentFrame
    by_cases h : 100 > tick
    · simp [firstAbove, h]
    · simp [firstAbove, h]
  have hint : ∀ tick, interval [100] tick 0 0 = none := by
    intro tick
    simp [interval, wrap32_zero, roundFloat_zero]
  have hnext : nextFrame [100] 0 = 0 := by decide
  have hsample : (animatedMesh [100]).sample glm millis = none := by
    unfold Mesh.sample
    rw [htimes]
    simp only [hcur, hnext, hint]
  have hrot : ∀ m, poseRotation glm millis (animatedMesh [100]) m = none := by
    intro m
    unfold poseRotation
    rw [htimes, hsample, if_neg (by decide), if_pos (by decide)]
  refine ⟨by decide, ?_, ?_, hsample, hrot m, ?_⟩
  · rw [htimes, hcur, hnext]
  · rw [htimes, hcur, hnext, hint]
  · unfold Mesh.matrix1
    simp only [hrot]

/-! ### Matrices -/

theorem RVec4.eq_iff {a b : RVec4} :
    a = b ↔ a.x = b.x ∧ a.y = b.y ∧ a.z = b.z ∧ a.w = b.w := by
  cases a; cases b; simp

theorem RMat4.mulVec_unit_w (m : RMat4) : m.mulVec ⟨0, 0, 0, 1⟩ = m.c3 := by
  rw [RVec4.eq_iff]
  simp [RMat4.mulVec, RVec4.add, RVec4.smul]

/-- Scaling a matrix is multiplying it with a scaling matrix: `glm::scale(m, s) = m * S`. -/
theorem RMat4.scale_eq_mul (m : RMat4) (s : RVec3) :
    m.scale s = m.mul (RMat4.identity.scale s) := by
  cases m with
  | mk c0 c1 c2 c3 =>
    cases c0; cases c1; cases c2; cases c3
    simp [RMat4.scale, RMat4.mul, RMat4.mulVec, RMat4.identity, RVec4.add, RVec4.smul]

/-- Translating the identity gives the translation vector as last column. -/
theorem RMat4.translate_identity_c3 (v : RVec3) :
    (RMat4.identity.translate v).c3 = ⟨v.x, v.y, v.z, 1⟩ := by
  simp [RMat4.translate, RMat4.identity, RVec4.add, RVec4.smul]

theorem RMat4.scale_c3 (m : RMat4) (s : RVec3) : (m.scale s).c3 = m.c3 := rfl

theorem RMat4.mul_c3 (a b : RMat4) : (a.mul b).c3 = a.mulVec b.c3 := rfl

/-- C13: a small static rotation is skipped.  For a mesh without frames and with
|rotangle| ≤ 0.01 the rotation step of `calcMatrix1` leaves the matrix as it is, so the pose
matrix is translate(t) × scale(s), t being the pose translation and s the scale; the stored
rotation axis has no effect on it. -/
theorem C13_small_rotation_skipped (glm : Glm) (millis : Option Int) (bbrange bbmax : RVec3)
    (mesh : Mesh) (parent : Option Nat) (nChildren : Nat)
    (hframes : mesh.frames.length = 0) (hangle : |glm.val mesh.rotangle| ≤ 1 / 100) :
    poseRotation glm millis mesh
        (RMat4.identity.translate (poseTranslation glm bbrange bbmax mesh parent nChildren)) =
      some (RMat4.identity.translate (poseTranslation glm bbrange bbmax mesh parent nChildren)) ∧
    Mesh.matrix1 glm millis bbrange bbmax mesh parent nChildren =
      some ((RMat4.identity.translate
          (poseTranslation glm bbrange bbmax mesh parent nChildren)).mul
        (RMat4.identity.scale (glm.vec3 mesh.scale))) ∧
    ∀ axis : Vec3,
      Mesh.matrix1 glm millis bbrange bbmax { mesh with rotaxis := axis } parent nChildren =
        Mesh.matrix1 glm millis bbrange bbmax mesh parent nChildren := by
  have key : ∀ mesh' : Mesh, mesh'.frames.length = 0 → |glm.val mesh'.rotangle| ≤ 1 / 100 →
      (∀ m, poseRotation glm millis mesh' m = some m) ∧
      Mesh.matrix1 glm millis bbrange bbmax mesh' parent nChildren =
        some ((RMat4.identity.translate
            (poseTranslation glm bbrange bbmax mesh' parent nChildren)).mul
          (RMat4.identity.scale (glm.vec3 mesh'.scale))) := by
    intro mesh' hframes' hangle'
    have hrot : ∀ m, poseRotation glm millis mesh' m = some m := by
      intro m
      unfold poseRotation
      rw [if_pos hframes', if_neg (not_lt.2 hangle')]
    refine ⟨hrot, ?_⟩
    unfold Mesh.matrix1
    simp only [hrot]
    rw [RMat4.scale_eq_mul]
  refine ⟨(key mesh hframes hangle).1 _, (key mesh hframes hangle).2, ?_⟩
  intro axis
  rw [(key mesh hframes hangle).2, (key { mesh with rotaxis := axis } hframes hangle).2]
  rfl

set_option maxRecDepth 1000000 in
theorem floatValue_zero : floatValue 0 = 0 := by with_unfolding_all decide

set_option maxRecDepth 1000000 in
theorem floatValue_one32 : floatValue one32 = 1 := by with_unfolding_all decide

set_option maxRecDepth 1000000 in
theorem floatValue_two32 : floatValue two32 = 2 := by with_unfolding_all decide

set_option maxRecDepth 1000000 in
theorem floatValue_four32 : floatValue four32 = 4 := by with_unfolding_all decide

/-- Witness of C13: the mesh `boxMesh`, whose angle is 0. -/
theorem C13_small_rotation_skipped_witness :
    boxMesh.frames.length = 0 ∧ |restGlm.val boxMesh.rotangle| ≤ 1 / 100 ∧
    Mesh.matrix1 restGlm none ⟨1, 2, 1⟩ ⟨2, 4, 2⟩ boxMesh none 0 =
      some ((RMat4.identity.translate
          (poseTranslation restGlm ⟨1, 2, 1⟩ ⟨2, 4, 2⟩ boxMesh none 0)).mul
        (RMat4.identity.scale (restGlm.vec3 boxMesh.scale))) :=
  have hangle : |restGlm.val boxMesh.rotangle| ≤ 1 / 100 := by
    show |floatValue 0| ≤ 1 / 100
    rw [floatValue_zero]
    norm_num
  ⟨rfl, hangle,
    (C13_small_rotation_skipped restGlm none ⟨1, 2, 1⟩ ⟨2, 4, 2⟩ boxMesh none 0 rfl hangle).2.1⟩

/-! ### The passes over the tree -/

theorem length_nodeChildren : ∀ cs : List Pose, (nodeChildren cs).length = cs.length
  | [] => rfl
  | c :: cs => by
    rw [nodeChildren, List.length_cons, List.length_cons, length_nodeChildren cs]

theorem length_mapDerivedChildren (f : Mesh → Option Nat → Nat → Derived → Derived) :
    ∀ cs : List Pose, (mapDerivedChildren f cs).length = cs.length
  | [] => rfl
  | c :: cs => by
    rw [mapDerivedChildren, List.length_cons, List.length_cons, length_mapDerivedChildren f cs]

mutual
theorem node_mapDerived (f : Mesh → Option Nat → Nat → Derived → Derived) :
    ∀ p : Pose, (p.mapDerived f).node = p.node
  | .mk mesh parent derived children => by
    rw [Pose.mapDerived, Pose.node, Pose.node, nodeChildren_mapDerived f children]
theorem nodeChildren_mapDerived (f : Mesh → Option Nat → Nat → Derived → Derived) :
    ∀ cs : List Pose, nodeChildren (mapDerivedChildren f cs) = nodeChildren cs
  | [] => by rw [mapDerivedChildren]
  | c :: cs => by
    rw [mapDerivedChildren, nodeChildren, nodeChildren, node_mapDerived f c,
      nodeChildren_mapDerived f cs]
end

mutual
theorem mapDerived_comp (f g : Mesh → Option Nat → Nat → Derived → Derived) :
    ∀ p : Pose, (p.mapDerived f).mapDerived g =
      p.mapDerived (fun m pa n d => g m pa n (f m pa n d))
  | .mk mesh parent derived children => by
    rw [Pose.mapDerived, Pose.mapDerived, Pose.mapDerived, length_mapDerivedChildren,
      mapDerivedChildren_comp f g children]
theorem mapDerivedChildren_comp (f g : Mesh → Option Nat → Nat → Derived → Derived) :
    ∀ cs : List Pose, mapDerivedChildren g (mapDerivedChildren f cs) =
      mapDerivedChildren (fun m pa n d => g m pa n (f m pa n d)) cs
  | [] => by rw [mapDerivedChildren, mapDerivedChildren, mapDerivedChildren]
  | c :: cs => by
    rw [mapDerivedChildren, mapDerivedChildren, mapDerivedChildren, mapDerived_comp f g c,
      mapDerivedChildren_comp f g cs]
end

theorem node_eq_mk {q : Pose} {mesh : Mesh} {parent : Option Nat} {children : List Node}
    (h : q.node = Node.mk mesh parent children) :
    ∃ d cs, q = Pose.mk mesh parent d cs ∧ nodeChildren cs = children := by
  cases q with
  | mk m pa d cs =>
    rw [Pose.node] at h
    injection h with h1 h2 h3
    subst h1 h2
    exact ⟨d, cs, rfl, h3⟩

theorem nodeChildren_eq_nil {qs : List Pose} (h : nodeChildren qs = []) : qs = [] := by
  cases qs with
  | nil => rfl
  | cons q qs => rw [nodeChildren] at h; cases h

theorem nodeChildren_eq_cons {qs : List Pose} {n : Node} {ns : List Node}
    (h : nodeChildren qs = n :: ns) :
    ∃ q qs', qs = q :: qs' ∧ q.node = n ∧ nodeChildren qs' = ns := by
  cases qs with
  | nil => rw [nodeChildren] at h; cases h
  | cons q qs =>
    rw [nodeChildren] at h
    injection h with h1 h2
    exact ⟨q, qs, rfl, h1, h2⟩

/-! ### The face loops -/

theorem RVec3.le_refl (a : RVec3) : a.le a := ⟨le_rfl, le_rfl, le_rfl⟩

theorem RVec3.le_trans {a b c : RVec3} (h1 : a.le b) (h2 : b.le c) : a.le c :=
  ⟨h1.1.trans h2.1, h1.2.1.trans h2.2.1, h1.2.2.trans h2.2.2⟩

theorem RVec4.within_mono {v : RVec4} {lo hi lo' hi' : RVec3} (h : v.within lo hi)
    (hlo : lo'.le lo) (hhi : hi.le hi') : v.within lo' hi' :=
  ⟨⟨hlo.1.trans h.1.1, h.1.2.trans hhi.1⟩, ⟨hlo.2.1.trans h.2.1.1, h.2.1.2.trans hhi.2.1⟩,
    ⟨hlo.2.2.trans h.2.2.1, h.2.2.2.trans hhi.2.2⟩⟩

theorem minWith_le (a : RVec3) (v : RVec4) : (a.minWith v).le a :=
  ⟨min_le_left _ _, min_le_left _ _, min_le_left _ _⟩

theorem le_maxWith (a : RVec3) (v : RVec4) : a.le (a.maxWith v) :=
  ⟨le_max_left _ _, le_max_left _ _, le_max_left _ _⟩

theorem within_minWith_maxWith (lo hi : RVec3) (v : RVec4) :
    v.within (lo.minWith v) (hi.maxWith v) :=
  ⟨⟨min_le_right _ _, le_max_right _ _⟩, ⟨min_le_right _ _, le_max_right _ _⟩,
    ⟨min_le_right _ _, le_max_right _ _⟩⟩

theorem position_isSome (glm : Glm) (mesh : Mesh) (m : RMat4) (shift : RVec4) {i : Nat}
    (h : i < mesh.vertices.length) : ∃ v, mesh.position glm m shift i = some v := by
  unfold Mesh.position
  rw [List.getElem?_eq_getElem h]
  exact ⟨_, rfl⟩

theorem mergeCorners_isSome (glm : Glm) (mesh : Mesh) (m : RMat4) (shift : RVec4) :
    ∀ (l : List Nat) (lo hi : RVec3), (∀ i ∈ l, i < mesh.vertices.length) →
      ∃ r, mergeCorners glm mesh m shift l lo hi = some r
  | [], lo, hi, _ => ⟨_, rfl⟩
  | i :: l, lo, hi, h => by
    obtain ⟨v, hv⟩ := position_isSome glm mesh m shift (h i (List.mem_cons_self _ _))
    rw [mergeCorners, hv]
    exact mergeCorners_isSome glm mesh m shift l _ _
      (fun j hj => h j (List.mem_cons_of_mem _ hj))

/-- What a face loop does to the accumulator: it only grows, and it holds every position
that the loop computes. -/
theorem mergeCorners_bounds (glm : Glm) (mesh : Mesh) (m : RMat4) (shift : RVec4) :
    ∀ (l : List Nat) (lo hi lo' hi' : RVec3),
      mergeCorners glm mesh m shift l lo hi = some (lo', hi') →
      lo'.le lo ∧ hi.le hi' ∧
      ∀ i ∈ l, ∃ v, mesh.position glm m shift i = some v ∧ v.within lo' hi'
  | [], lo, hi, lo', hi', h => by
    rw [mergeCorners] at h
    cases h
    exact ⟨RVec3.le_refl _, RVec3.le_refl _, fun i hi => absurd hi (List.not_mem_nil _)⟩
  | i :: l, lo, hi, lo', hi', h => by
    rw [mergeCorners] at h
    cases hv : mesh.position glm m shift i with
    | none => rw [hv] at h; cases h
    | some v =>
      rw [hv] at h
      obtain ⟨h1, h2, h3⟩ := mergeCorners_bounds glm mesh m shift l _ _ _ _ h
      refine ⟨RVec3.le_trans h1 (minWith_le _ _), RVec3.le_trans (le_maxWith _ _) h2, ?_⟩
      intro j hj
      rcases List.mem_cons.1 hj with rfl | hj
      · exact ⟨v, hv, RVec4.within_mono (within_minWith_maxWith lo hi v) h1 h2⟩
      · exact h3 j hj

theorem box_isSome (glm : Glm) (mesh : Mesh) (parent : Option Nat) (nChildren : Nat)
    (h : ∀ i ∈ mesh.corners, i < mesh.vertices.length) :
    ∃ r, mesh.box glm parent nChildren = some r := by
  unfold Mesh.box
  exact mergeCorners_isSome glm mesh _ _ _ _ _ h

/-! ### The object-space pass -/

mutual
theorem setBoundingBox_of_node (glm : Glm) :
    ∀ (n : Node), (∀ mesh ∈ n.preorder, ∀ i ∈ mesh.corners, i < mesh.vertices.length) →
      ∀ lo hi : RVec3, ∃ lo' hi' : RVec3, ∀ q : Pose, q.node = n →
        q.setBoundingBox glm lo hi = some (q.mapDerived (boxFields glm), lo', hi')
  | .mk mesh parent children, hr, lo, hi => by
    rw [Node.preorder] at hr
    obtain ⟨⟨a, b⟩, hbox⟩ := box_isSome glm mesh parent children.length
      (hr mesh (List.mem_cons_self _ _))
    obtain ⟨lo', hi', hch⟩ := setBoundingBoxChildren_of_node glm children
      (fun m hm => hr m (List.mem_cons_of_mem _ hm)) (lo.inf a) (hi.sup b)
    refine ⟨lo', hi', ?_⟩
    intro q hq
    obtain ⟨d, cs, rfl, hcs⟩ := node_eq_mk hq
    have hlen : cs.length = children.length := by
      rw [← hcs, length_nodeChildren]
    rw [Pose.setBoundingBox, Pose.mapDerived, boxFields, hlen, hbox]
    simp only
    rw [hch cs hcs]
theorem setBoundingBoxChildren_of_node (glm : Glm) :
    ∀ (ns : List Node),
      (∀ mesh ∈ preorderChildren ns, ∀ i ∈ mesh.corners, i < mesh.vertices.length) →
      ∀ lo hi : RVec3, ∃ lo' hi' : RVec3, ∀ qs : List Pose, nodeChildren qs = ns →
        setBoundingBoxChildren glm qs lo hi = some (mapDerivedChildren (boxFields glm) qs, lo', hi')
  | [], _, lo, hi => by
    refine ⟨lo, hi, ?_⟩
    intro qs hqs
    rw [nodeChildren_eq_nil hqs, setBoundingBoxChildren, mapDerivedChildren]
  | n :: ns, hr, lo, hi => by
    rw [preorderChildren] at hr
    obtain ⟨lo1, hi1, h1⟩ := setBoundingBox_of_node glm n
      (fun m hm => hr m (List.mem_append_left _ hm)) lo hi
    obtain ⟨lo2, hi2, h2⟩ := setBoundingBoxChildren_of_node glm ns
      (fun m hm => hr m (List.mem_append_right _ hm)) lo1 hi1
    refine ⟨lo2, hi2, ?_⟩
    intro qs hqs
    obtain ⟨q, qs', rfl, hq, hqs'⟩ := nodeChildren_eq_cons hqs
    rw [setBoundingBoxChildren, h1 q hq]
    simp only
    rw [h2 qs' hqs', mapDerivedChildren]
end

/-! ### The pose pass and the offset pass -/

theorem poseRotation_isSome (glm : Glm) (millis : Option Int) (mesh : Mesh) (m : RMat4)
    (h : mesh.frames.length ≠ 0 → mesh.times.getLastD 0 ≠ 0 → mesh.sample glm millis ≠ none) :
    ∃ r, poseRotation glm millis mesh m = some r := by
  unfold poseRotation
  split
  · split
    · exact ⟨_, rfl⟩
    · exact ⟨_, rfl⟩
  · rename_i hframes
    split
    · rename_i hlast
      cases hs : mesh.sample glm millis with
      | none => exact absurd hs (h hframes hlast)
      | some quat => exact ⟨_, rfl⟩
    · exact ⟨_, rfl⟩

theorem matrix1_isSome (glm : Glm) (millis : Option Int) (bbrange bbmax : RVec3) (mesh : Mesh)
    (parent : Option Nat) (nChildren : Nat)
    (h : mesh.frames.length ≠ 0 → mesh.times.getLastD 0 ≠ 0 → mesh.sample glm millis ≠ none) :
    ∃ r, Mesh.matrix1 glm millis bbrange bbmax mesh parent nChildren = some r := by
  unfold Mesh.matrix1
  obtain ⟨r, hr⟩ := poseRotation_isSome glm millis mesh
    (RMat4.identity.translate (poseTranslation glm bbrange bbmax mesh parent nChildren)) h
  simp only [hr]
  exact ⟨_, rfl⟩

mutual
theorem calcMatrix1_of_node (glm : Glm) (millis : Option Int) (bbrange bbmax : RVec3) :
    ∀ (n : Node), (∀ mesh ∈ n.preorder, mesh.frames.length ≠ 0 → mesh.times.getLastD 0 ≠ 0 →
        mesh.sample glm millis ≠ none) →
      ∀ q : Pose, q.node = n →
        q.calcMatrix1 glm millis bbrange bbmax =
          some (q.mapDerived (matrix1Field glm millis bbrange bbmax))
  | .mk mesh parent children, hr, q, hq => by
    rw [Node.preorder] at hr
    obtain ⟨d, cs, rfl, hcs⟩ := node_eq_mk hq
    obtain ⟨m, hm⟩ := matrix1_isSome glm millis bbrange bbmax mesh parent cs.length
      (hr mesh (List.mem_cons_self _ _))
    rw [Pose.calcMatrix1, Pose.mapDerived, matrix1Field, hm]
    simp only
    rw [calcMatrix1Children_of_node glm millis bbrange bbmax children
      (fun m hm => hr m (List.mem_cons_of_mem _ hm)) cs hcs]
theorem calcMatrix1Children_of_node (glm : Glm) (millis : Option Int) (bbrange bbmax : RVec3) :
    ∀ (ns : List Node), (∀ mesh ∈ preorderChildren ns, mesh.frames.length ≠ 0 →
        mesh.times.getLastD 0 ≠ 0 → mesh.sample glm millis ≠ none) →
      ∀ qs : List Pose, nodeChildren qs = ns →
        calcMatrix1Children glm millis bbrange bbmax qs =
          some (mapDerivedChildren (matrix1Field glm millis bbrange bbmax) qs)
  | [], _, qs, hqs => by
    rw [nodeChildren_eq_nil hqs, calcMatrix1Children, mapDerivedChildren]
  | n :: ns, hr, qs, hqs => by
    rw [preorderChildren] at hr
    obtain ⟨q, qs', rfl, hq, hqs'⟩ := nodeChildren_eq_cons hqs
    rw [calcMatrix1Children, calcMatrix1_of_node glm millis bbrange bbmax n
      (fun m hm => hr m (List.mem_append_left _ hm)) q hq]
    simp only
    rw [calcMatrix1Children_of_node glm millis bbrange bbmax ns
      (fun m hm => hr m (List.mem_append_right _ hm)) qs' hqs', mapDerivedChildren]
end

mutual
theorem calcMatrix2_eq (glm : Glm) (bbrange : RVec3) :
    ∀ p : Pose, p.calcMatrix2 glm bbrange = p.mapDerived (matrix2Field glm bbrange)
  | .mk mesh parent derived children => by
    rw [Pose.calcMatrix2, Pose.mapDerived, calcMatrix2Children_eq glm bbrange children,
      matrix2Field]
theorem calcMatrix2Children_eq (glm : Glm) (bbrange : RVec3) :
    ∀ cs : List Pose,
      calcMatrix2Children glm bbrange cs = mapDerivedChildren (matrix2Field glm bbrange) cs
  | [] => by rw [calcMatrix2Children, mapDerivedChildren]
  | c :: cs => by
    rw [calcMatrix2Children, mapDerivedChildren, calcMatrix2_eq glm bbrange c,
      calcMatrix2Children_eq glm bbrange cs]
end

/-! ### The world-space pass -/

theorem mergeVisits_append (glm : Glm) :
    ∀ (l1 l2 : List (RMat4 × Pose)) (lo hi : RVec3),
      mergeVisits glm (l1 ++ l2) lo hi =
        (mergeVisits glm l1 lo hi).bind (fun r => mergeVisits glm l2 r.1 r.2)
  | [], l2, lo, hi => by rw [List.nil_append, mergeVisits, Option.some_bind]
  | v :: l1, l2, lo, hi => by
    rw [List.cons_append, mergeVisits, mergeVisits]
    cases mergeCorners glm v.2.mesh (composed v) ⟨0, 0, 0, 0⟩ v.2.mesh.corners lo hi with
    | none => rfl
    | some r => exact mergeVisits_append glm l1 l2 r.1 r.2

mutual
/-- The world-space pass is the face loops of its visits, one after the other. -/
theorem setBoundingBox2_eq (glm : Glm) :
    ∀ (p : Pose) (mat : RMat4) (lo hi : RVec3),
      p.setBoundingBox2 glm mat lo hi = mergeVisits glm (p.placed mat) lo hi
  | .mk mesh parent derived children, mat, lo, hi => by
    rw [Pose.setBoundingBox2, Pose.placed, mergeVisits]
    simp only [composed, Pose.mesh, Pose.derived]
    cases mergeCorners glm mesh ((mat.mul derived.matrix1).mul derived.matrix2) ⟨0, 0, 0, 0⟩
        mesh.corners lo hi with
    | none => rfl
    | some r => exact setBoundingBox2Children_eq glm children _ r.1 r.2
theorem setBoundingBox2Children_eq (glm : Glm) :
    ∀ (cs : List Pose) (mat : RMat4) (lo hi : RVec3),
      setBoundingBox2Children glm cs mat lo hi = mergeVisits glm (placedChildren cs mat) lo hi
  | [], mat, lo, hi => by rw [setBoundingBox2Children, placedChildren, mergeVisits]
  | c :: cs, mat, lo, hi => by
    rw [setBoundingBox2Children, placedChildren, mergeVisits_append,
      setBoundingBox2_eq glm c mat lo hi]
    cases mergeVisits glm (c.placed mat) lo hi with
    | none => rfl
    | some r => exact setBoundingBox2Children_eq glm cs mat r.1 r.2
end

theorem mergeVisits_isSome (glm : Glm) :
    ∀ (l : List (RMat4 × Pose)) (lo hi : RVec3),
      (∀ v ∈ l, ∀ i ∈ v.2.mesh.corners, i < v.2.mesh.vertices.length) →
      ∃ r, mergeVisits glm l lo hi = some r
  | [], lo, hi, _ => ⟨_, rfl⟩
  | v :: l, lo, hi, h => by
    obtain ⟨r, hr⟩ := mergeCorners_isSome glm v.2.mesh (composed v) ⟨0, 0, 0, 0⟩
      v.2.mesh.corners lo hi (h v (List.mem_cons_self _ _))
    rw [mergeVisits, hr]
    exact mergeVisits_isSome glm l _ _ (fun w hw => h w (List.mem_cons_of_mem _ hw))

/-- What the world-space pass does to the accumulator: it only grows, and it holds the
position of every vertex of every face of every visit. -/
theorem mergeVisits_bounds (glm : Glm) :
    ∀ (l : List (RMat4 × Pose)) (lo hi lo' hi' : RVec3),
      mergeVisits glm l lo hi = some (lo', hi') →
      lo'.le lo ∧ hi.le hi' ∧
      ∀ v ∈ l, ∀ i ∈ v.2.mesh.corners,
        ∃ x, v.2.mesh.position glm (composed v) ⟨0, 0, 0, 0⟩ i = some x ∧ x.within lo' hi'
  | [], lo, hi, lo', hi', h => by
    rw [mergeVisits] at h
    cases h
    exact ⟨RVec3.le_refl _, RVec3.le_refl _, fun v hv => absurd hv (List.not_mem_nil _)⟩
  | v :: l, lo, hi, lo', hi', h => by
    rw [mergeVisits] at h
    cases hm : mergeCorners glm v.2.mesh (composed v) ⟨0, 0, 0, 0⟩ v.2.mesh.corners lo hi with
    | none => rw [hm] at h; cases h
    | some r =>
      obtain ⟨lo1, hi1⟩ := r
      rw [hm] at h
      obtain ⟨a1, a2, a3⟩ := mergeCorners_bounds glm _ _ _ _ _ _ _ _ hm
      obtain ⟨b1, b2, b3⟩ := mergeVisits_bounds glm l _ _ _ _ h
      refine ⟨RVec3.le_trans b1 a1, RVec3.le_trans a2 b2, ?_⟩
      intro w hw i hi
      rcases List.mem_cons.1 hw with rfl | hw
      · obtain ⟨x, hx, hin⟩ := a3 i hi
        exact ⟨x, hx, RVec4.within_mono hin b1 b2⟩
      · exact b3 w hw i hi

mutual
/-- The visits of the world-space pass are the nodes reachable from the root. -/
theorem placed_node : ∀ (p : Pose) (mat : RMat4),
    (p.placed mat).map (fun v => v.2.node) = p.node.reachable
  | .mk mesh parent derived children, mat => by
    rw [Pose.placed, List.map_cons, Pose.node, Node.reachable, placedChildren_node children]
theorem placedChildren_node : ∀ (cs : List Pose) (mat : RMat4),
    (placedChildren cs mat).map (fun v => v.2.node) = reachableChildren (nodeChildren cs)
  | [], mat => by rw [placedChildren, nodeChildren, reachableChildren, List.map_nil]
  | c :: cs, mat => by
    rw [placedChildren, nodeChildren, reachableChildren, List.map_append, placed_node c mat,
      placedChildren_node cs mat]
end

theorem node_mesh (p : Pose) : p.node.mesh = p.mesh := by
  cases p; rfl

theorem placed_mesh (p : Pose) (mat : RMat4) :
    (p.placed mat).map (fun v => v.2.mesh) = p.node.preorder := by
  rw [preorder_eq_map_reachable, ← placed_node p mat, List.map_map]
  apply List.map_congr_left
  intro v _
  exact (node_mesh v.2).symm

theorem mem_preorder_of_placed {p : Pose} {mat : RMat4} {v : RMat4 × Pose}
    (h : v ∈ p.placed mat) : v.2.mesh ∈ p.node.preorder := by
  rw [← placed_mesh p mat]
  exact List.mem_map.2 ⟨v, h, rfl⟩

theorem placed_head (p : Pose) (mat : RMat4) : (mat, p) ∈ p.placed mat := by
  cases p
  rw [Pose.placed]
  exact List.mem_cons_self _ _

/-! ### The whole recomputation -/

theorem updateMatrices_eq {glm : Glm} {millis : Option Int} {model : Model}
    {r1 r2 : Pose} {lo hi rlo rhi : RVec3}
    (h1 : model.rootMesh.setBoundingBox glm ⟨999999, 999999, 999999⟩
      ⟨-999999, -999999, -9999999⟩ = some (r1, lo, hi))
    (h2 : r1.calcMatrix1 glm millis (lo.mid hi) hi = some r2)
    (h3 : (r2.calcMatrix2 glm (lo.mid hi)).setBoundingBox2 glm flipY ⟨999999, 999999, 999999⟩
      ⟨-999999, -999999, -999999⟩ = some (rlo, rhi)) :
    updateMatrices glm millis model =
      some { bbmin := lo, bbmax := hi, bbrange := lo.mid hi, realbbmin := rlo, realbbmax := rhi,
             realbbrange := rhi.mid rlo,
             maxRange := max (max rhi.x (-rlo.x)) (max (max rhi.y (-rlo.y)) (max rhi.z (-rlo.z))),
             rootMesh := r2.calcMatrix2 glm (lo.mid hi) } := by
  unfold updateMatrices
  simp only [h1, h2, h3]

/-- The result of a run of `updateMatrices` on a defined input depends on the tree of the
model only: the object-space box `lo`, `hi` is the same for every model on the same tree,
every node gets the fields `updatedFields`, and the world-space box is that of the visits of
the new tree. -/
theorem updateMatrices_of_node (glm : Glm) (millis : Option Int) (p : Pose)
    (hdef : p.Defined glm millis) :
    ∃ lo hi : RVec3, ∀ model : Model, model.rootMesh.node = p.node →
      ∃ rlo rhi : RVec3,
        mergeVisits glm
          ((model.rootMesh.mapDerived (updatedFields glm millis (lo.mid hi) hi)).placed flipY)
          ⟨999999, 999999, 999999⟩ ⟨-999999, -999999, -999999⟩ = some (rlo, rhi) ∧
        updateMatrices glm millis model =
          some { bbmin := lo, bbmax := hi, bbrange := lo.mid hi, realbbmin := rlo,
                 realbbmax := rhi, realbbrange := rhi.mid rlo,
                 maxRange := max (max rhi.x (-rlo.x))
                   (max (max rhi.y (-rlo.y)) (max rhi.z (-rlo.z))),
                 rootMesh :=
                   model.rootMesh.mapDerived (updatedFields glm millis (lo.mid hi) hi) } := by
  obtain ⟨lo, hi, hbox⟩ := setBoundingBox_of_node glm p.node (fun m hm => (hdef m hm).1)
    ⟨999999, 999999, 999999⟩ ⟨-999999, -999999, -9999999⟩
  refine ⟨lo, hi, ?_⟩
  intro model hnode
  have h1 := hbox model.rootMesh hnode
  have h2 := calcMatrix1_of_node glm millis (lo.mid hi) hi p.node (fun m hm => (hdef m hm).2)
    (model.rootMesh.mapDerived (boxFields glm)) (by rw [node_mapDerived, hnode])
  have htree : ((model.rootMesh.mapDerived (boxFields glm)).mapDerived
        (matrix1Field glm millis (lo.mid hi) hi)).calcMatrix2 glm (lo.mid hi) =
      model.rootMesh.mapDerived (updatedFields glm millis (lo.mid hi) hi) := by
    rw [calcMatrix2_eq, mapDerived_comp, mapDerived_comp]
    rfl
  obtain ⟨⟨rlo, rhi⟩, h3⟩ := mergeVisits_isSome glm
    ((model.rootMesh.mapDerived (updatedFields glm millis (lo.mid hi) hi)).placed flipY)
    ⟨999999, 999999, 999999⟩ ⟨-999999, -999999, -999999⟩ (by
      intro v hv
      have hm := mem_preorder_of_placed hv
      rw [node_mapDerived, hnode] at hm
      exact (hdef _ hm).1)
  refine ⟨rlo, rhi, h3, ?_⟩
  have h3' : (((model.rootMesh.mapDerived (boxFields glm)).mapDerived
        (matrix1Field glm millis (lo.mid hi) hi)).calcMatrix2 glm (lo.mid hi)).setBoundingBox2
      glm flipY ⟨999999, 999999, 999999⟩ ⟨-999999, -999999, -999999⟩ = some (rlo, rhi) := by
    rw [htree, setBoundingBox2_eq, h3]
  rw [updateMatrices_eq h1 h2 h3', htree]

/-! ### The hierarchy builder on a cycle of parent names -/

set_option maxRecDepth 1000000 in
theorem loadBody_cycleFile (fuel : Nat) : loadBody fuel cycleFile =
    (orOutOfFuel (fetchChildren cycleMeshes fuel (meshOf 0 nameA nameB) none) >>=
      fun root => pure (documentOf root)) (writeInt 0 ++ writeInt 0) := by
  rfl

theorem fetchChildren_cycle : ∀ (fuel : Nat) (parent : Option Nat),
    fetchChildren cycleMeshes fuel (meshOf 0 nameA nameB) parent = none ∧
    fetchChildren cycleMeshes fuel (meshOf 1 nameB nameA) parent = none
  | 0, _ => ⟨rfl, rfl⟩
  | fuel + 1, parent => by
    have hA : newChildren cycleMeshes (meshOf 0 nameA nameB) = [meshOf 1 nameB nameA] := by
      decide
    have hB : newChildren cycleMeshes (meshOf 1 nameB nameA) = [meshOf 0 nameA nameB] := by
      decide
    constructor
    · rw [fetchChildren, hA, List.map_cons, List.map_nil,
        (fetchChildren_cycle fuel (some (meshOf 0 nameA nameB).addr)).2]
      rfl
    · rw [fetchChildren, hB, List.map_cons, List.map_nil,
        (fetchChildren_cycle fuel (some (meshOf 1 nameB nameA).addr)).1]
      rfl

/-- C17, failing input: the file with the meshes "A" (parent name "B") and "B" (parent name
"A") and the main node "A".  The root is "A"; `fetchChildren` visits "B" as its child, then
"A" as the child of "B", and so on: no recursion depth is enough, so hierarchy building does
not terminate and no tree is built. -/
theorem C17_cycle_through_root (fuel : Nat) :
    selectRoot cycleMeshes nameA = .ok (meshOf 0 nameA nameB) ∧
    (meshOf 0 nameA nameB).parentName = (meshOf 1 nameB nameA).name ∧
    (meshOf 1 nameB nameA).parentName = (meshOf 0 nameA nameB).name ∧
    fetchChildren cycleMeshes fuel (meshOf 0 nameA nameB) none = none ∧
    parse fuel cycleFile = .error .outOfFuel := by
  refine ⟨by rfl, by decide, by decide, (fetchChildren_cycle fuel none).1, ?_⟩
  rw [parse_eq_error]
  apply load_eq_error_of_body
  rw [loadBody_cycleFile, (fetchChildren_cycle fuel none).1]
  rfl

/-! ### The recomputation on the example models -/

theorem boxModel_defined : boxModel.rootMesh.Defined restGlm none := by
  intro mesh hmesh
  have h : mesh = boxMesh := by
    have : boxModel.rootMesh.node.preorder = [boxMesh] := rfl
    rw [this] at hmesh
    exact List.mem_singleton.1 hmesh
  subst h
  refine ⟨?_, fun h => absurd rfl h⟩
  have : boxMesh.corners = [0, 1, 1] := rfl
  rw [this]
  intro i hi
  have hlen : boxMesh.vertices.length = 2 := rfl
  rw [hlen]
  simp only [List.mem_cons, List.mem_singleton, List.not_mem_nil, or_false] at hi
  omega

/-- C11: world-space containment.  On every input on which `updateMatrices` is defined (the
vertex indices of the faces are indices of the vertex lists, and no sampled mesh divides by
zero) it returns a model on the same tree, the visits of the world-space pass are the nodes
reachable from the root, and for every visit and every vertex index of a face of its mesh the
position that the pass computes with the composed matrix of the visit lies in the box
`realbbmin`, `realbbmax` on all three axes. -/
theorem C11_world_space_containment (glm : Glm) (millis : Option Int) (model : Model)
    (hdef : model.rootMesh.Defined glm millis) :
    ∃ model', updateMatrices glm millis model = some model' ∧
      model'.rootMesh.node = model.rootMesh.node ∧
      (model'.rootMesh.placed flipY).map (fun v => v.2.node) = model'.rootMesh.node.reachable ∧
      ∀ v ∈ model'.rootMesh.placed flipY, ∀ i ∈ v.2.mesh.corners,
        ∃ x, v.2.mesh.position glm (composed v) ⟨0, 0, 0, 0⟩ i = some x ∧
          x.within model'.realbbmin model'.realbbmax := by
  obtain ⟨lo, hi, h⟩ := updateMatrices_of_node glm millis model.rootMesh hdef
  obtain ⟨rlo, rhi, h3, hu⟩ := h model rfl
  exact ⟨_, hu, node_mapDerived _ _, placed_node _ _, (mergeVisits_bounds glm _ _ _ _ _ h3).2.2⟩

/-- Witness of C11: the model with the one mesh `boxMesh`. -/
theorem C11_world_space_containment_witness :
    boxModel.rootMesh.Defined restGlm none ∧
    ∃ model', updateMatrices restGlm none boxModel = some model' ∧
      model'.rootMesh.node = boxModel.rootMesh.node :=
  ⟨boxModel_defined,
    (C11_world_space_containment restGlm none boxModel boxModel_defined).imp
      (fun _ h => ⟨h.1, h.2.1⟩)⟩

/-! ### The anchoring of a root without children -/

theorem poseRotation_c3 {glm : Glm} {millis : Option Int} {mesh : Mesh} {m r : RMat4}
    (hrotate : ∀ m angle axis, (glm.rotate m angle axis).c3 = m.c3)
    (htoMat4 : ∀ q, (glm.toMat4 q).c3 = ⟨0, 0, 0, 1⟩)
    (h : poseRotation glm millis mesh m = some r) : r.c3 = m.c3 := by
  unfold poseRotation at h
  split at h
  · split at h
    · cases h; exact hrotate _ _ _
    · cases h; rfl
  · split at h
    · cases hs : mesh.sample glm millis with
      | none => rw [hs] at h; cases h
      | some quat =>
        rw [hs] at h
        cases h
        rw [RMat4.mul_c3, htoMat4, RMat4.mulVec_unit_w]
    · cases h
      rw [RMat4.mul_c3, htoMat4, RMat4.mulVec_unit_w]

theorem matrix1_c3 {glm : Glm} {millis : Option Int} {bbrange bbmax : RVec3} {mesh : Mesh}
    {parent : Option Nat} {nChildren : Nat} {r : RMat4}
    (hrotate : ∀ m angle axis, (glm.rotate m angle axis).c3 = m.c3)
    (htoMat4 : ∀ q, (glm.toMat4 q).c3 = ⟨0, 0, 0, 1⟩)
    (h : Mesh.matrix1 glm millis bbrange bbmax mesh parent nChildren = some r) :
    r.c3 = ⟨(poseTranslation glm bbrange bbmax mesh parent nChildren).x,
      (poseTranslation glm bbrange bbmax mesh parent nChildren).y,
      (poseTranslation glm bbrange bbmax mesh parent nChildren).z, 1⟩ := by
  unfold Mesh.matrix1 at h
  simp only at h
  cases hp : poseRotation glm millis mesh
      (RMat4.identity.translate (poseTranslation glm bbrange bbmax mesh parent nChildren)) with
  | none => rw [hp] at h; cases h
  | some m =>
    rw [hp] at h
    cases h
    rw [RMat4.scale_c3, poseRotation_c3 hrotate htoMat4 hp, RMat4.translate_identity_c3]

/-- C14, amended: the vertical anchoring of a root without children.  When the root has no
parent and no children, the last column of its pose matrix after `updateMatrices` is
(0, −(bbmax.y − bbrange.y), 0, 1) with bbrange = (bbmin + bbmax) / 2 of the model, the sum,
the halving and the difference each rounded to binary32; it is
(0, −(bbmax.y − bbmin.y) / 2, 0, 1) whenever these three operations are exact.  The library
functions are taken to keep the translation column, as `glm::rotate` and `glm::toMat4` do. -/
theorem C14_childless_root_anchoring (glm : Glm) (millis : Option Int) (model : Model)
    (hdef : model.rootMesh.Defined glm millis)
    (hparent : model.rootMesh.parent = none) (hchildren : model.rootMesh.children = [])
    (hrotate : ∀ m angle axis, (glm.rotate m angle axis).c3 = m.c3)
    (htoMat4 : ∀ q, (glm.toMat4 q).c3 = ⟨0, 0, 0, 1⟩) :
    ∃ model', updateMatrices glm millis model = some model' ∧
      model'.bbrange = model'.bbmin.mid model'.bbmax ∧
      model'.bbrange.y = roundFloat (roundFloat (model'.bbmin.y + model'.bbmax.y) / 2) ∧
      model'.rootMesh.derived.matrix1.c3 =
        ⟨0, -roundFloat (model'.bbmax.y - model'.bbrange.y), 0, 1⟩ ∧
      (roundFloat (model'.bbmin.y + model'.bbmax.y) = model'.bbmin.y + model'.bbmax.y →
        roundFloat ((model'.bbmin.y + model'.bbmax.y) / 2) =
          (model'.bbmin.y + model'.bbmax.y) / 2 →
        roundFloat (model'.bbmax.y - (model'.bbmin.y + model'.bbmax.y) / 2) =
          model'.bbmax.y - (model'.bbmin.y + model'.bbmax.y) / 2 →
        model'.rootMesh.derived.matrix1.c3 =
          ⟨0, -(model'.bbmax.y - model'.bbmin.y) / 2, 0, 1⟩) := by
  obtain ⟨lo, hi, h⟩ := updateMatrices_of_node glm millis model.rootMesh hdef
  obtain ⟨rlo, rhi, h3, hu⟩ := h model rfl
  refine ⟨_, hu, rfl, rfl, ?_⟩
  simp only
  obtain ⟨bbmin, bbmax, bbrange, realbbmin, realbbmax, realbbrange, maxRange, root⟩ := model
  obtain ⟨mesh, parent, derived, children⟩ := root
  simp only [Pose.parent, Pose.children] at hparent hchildren
  subst hparent hchildren
  have hmem : mesh ∈ (Pose.mk mesh none derived []).node.preorder := by
    rw [Pose.node, Node.preorder]
    exact List.mem_cons_self _ _
  obtain ⟨m, hm⟩ := matrix1_isSome glm millis (lo.mid hi) hi mesh none 0 (hdef mesh hmem).2
  have hc3 := matrix1_c3 hrotate htoMat4 hm
  have hfield : ((Pose.mk mesh none derived []).mapDerived
      (updatedFields glm millis (lo.mid hi) hi)).derived.matrix1 = m := by
    simp only [Pose.mapDerived, Pose.derived, updatedFields, matrix2Field, matrix1Field,
      List.length_nil, hm]
  rw [hfield, hc3]
  have ht : poseTranslation glm (lo.mid hi) hi mesh none 0 =
      ⟨0, roundFloat (-hi.y + (lo.mid hi).y), 0⟩ := by
    unfold poseTranslation
    simp
  have hneg : roundFloat (-hi.y + (lo.mid hi).y) = -roundFloat (hi.y - (lo.mid hi).y) := by
    rw [← roundFloat_neg]
    congr 1
    ring
  rw [ht]
  simp only
  rw [hneg]
  refine ⟨rfl, ?_⟩
  intro hsum hhalf hdiff
  have hmid : (lo.mid hi).y = (lo.y + hi.y) / 2 := by
    simp only [RVec3.mid]
    rw [hsum, hhalf]
  rw [hmid, hdiff, RVec4.eq_iff]
  refine ⟨rfl, ?_, rfl, rfl⟩
  simp only
  ring

set_option maxRecDepth 1000000 in
theorem boxModel_box :
    (updateMatrices restGlm none boxModel).map (fun m => (m.bbmin, m.bbmax, m.bbrange)) =
      some (⟨0, 0, 0⟩, ⟨2, 4, 2⟩, ⟨1, 2, 1⟩) := by
  decide!

set_option maxRecDepth 1000000 in
theorem roundFloat_two : roundFloat 2 = 2 := by
  decide!

/-- Witness of C14: the model with the one mesh `boxMesh`, with the identity as offset matrix
and the face vertices (0, 0, 0) and (2, 4, 2): the box is (0, 0, 0) to (2, 4, 2), the height
is 4 and the translation is (0, −2, 0). -/
theorem C14_childless_root_anchoring_witness :
    boxModel.rootMesh.Defined restGlm none ∧ boxModel.rootMesh.parent = none ∧
    boxModel.rootMesh.children = [] ∧
    ∃ model', updateMatrices restGlm none boxModel = some model' ∧
      model'.bbmin = ⟨0, 0, 0⟩ ∧ model'.bbmax = ⟨2, 4, 2⟩ ∧
      model'.bbmax.y - model'.bbmin.y = 4 ∧
      model'.rootMesh.derived.matrix1.c3 = ⟨0, -2, 0, 1⟩ ∧
      model'.rootMesh.derived.matrix1.c3 =
        ⟨0, -(model'.bbmax.y - model'.bbmin.y) / 2, 0, 1⟩ := by
  refine ⟨boxModel_defined, rfl, rfl, ?_⟩
  obtain ⟨model', hu, _, _, hc3, _⟩ := C14_childless_root_anchoring restGlm none boxModel
    boxModel_defined rfl rfl (fun _ _ _ => rfl) (fun _ => rfl)
  have hbox := boxModel_box
  rw [hu, Option.map_some'] at hbox
  injection hbox with hbox
  injection hbox with hmin hbox
  injection hbox with hmax hrange
  refine ⟨model', hu, hmin, hmax, ?_, ?_, ?_⟩
  · rw [hmin, hmax]; norm_num
  · rw [hc3, hmax, hrange]
    norm_num [roundFloat_two]
  · rw [hc3, hmax, hrange, hmin]
    norm_num [roundFloat_two]

set_option maxRecDepth 1000000 in
/-- Counterexample to C14 as stated: the model with the one mesh `thinMesh`, a root without
children whose face vertices have the heights 1 and 1 + 2^-23.  The box has bbmin.y = 1 and
bbmax.y = 1 + 2^-23; the sum 2 + 2^-23 is halfway between two binary32 values and is rounded
to 2, so bbrange.y = 1 and the translation is −(bbmax.y − bbrange.y) = −2^-23, while
−(bbmax.y − bbmin.y) / 2 = −2^-24. -/
theorem C14_counterexample :
    thinModel.rootMesh.parent = none ∧ thinModel.rootMesh.children = [] ∧
    thinModel.rootMesh.mesh.corners = [0, 1, 1] ∧
    (updateMatrices restGlm none thinModel).map
        (fun m => (m.bbmin.y, m.bbmax.y, m.bbrange.y, m.rootMesh.derived.matrix1.c3)) =
      some (1, 8388609 / 8388608, 1, ⟨0, -1 / 8388608, 0, 1⟩) ∧
    -((8388609 / 8388608 : ℚ) - 1) / 2 = -1 / 16777216 ∧
    (-1 / 8388608 : ℚ) ≠ -1 / 16777216 := by
  refine ⟨rfl, rfl, rfl, by decide!, by decide!, by decide!⟩

/-! ### Running the recomputation again -/

theorem updatedFields_idem (glm : Glm) (millis : Option Int) (bbrange bbmax : RVec3) :
    (fun (m : Mesh) (pa : Option Nat) (n : Nat) (d : Derived) =>
      updatedFields glm millis bbrange bbmax m pa n
        (updatedFields glm millis bbrange bbmax m pa n d)) =
    updatedFields glm millis bbrange bbmax := by
  funext m pa n d
  unfold updatedFields matrix2Field matrix1Field boxFields
  cases m.box glm pa n with
  | none =>
    cases Mesh.matrix1 glm millis bbrange bbmax m pa n with
    | none => rfl
    | some r => rfl
  | some b =>
    cases Mesh.matrix1 glm millis bbrange bbmax m pa n with
    | none => rfl
    | some r => rfl

/-- C15: recomputing is idempotent.  On every input on which `updateMatrices` is defined,
for a fixed clock sample, a second run on the result of the first returns that same result:
the same derived fields in every node and the same boxes, centers and maximal range of the
model. -/
theorem C15_recompute_idempotent (glm : Glm) (millis : Option Int) (model : Model)
    (hdef : model.rootMesh.Defined glm millis) :
    ∃ model', updateMatrices glm millis model = some model' ∧
      updateMatrices glm millis model' = some model' := by
  obtain ⟨lo, hi, h⟩ := updateMatrices_of_node glm millis model.rootMesh hdef
  obtain ⟨rlo, rhi, h3, hu⟩ := h model rfl
  refine ⟨_, hu, ?_⟩
  obtain ⟨rlo', rhi', h3', hu'⟩ := h
    { bbmin := lo, bbmax := hi, bbrange := lo.mid hi, realbbmin := rlo, realbbmax := rhi,
      realbbrange := rhi.mid rlo,
      maxRange := max (max rhi.x (-rlo.x)) (max (max rhi.y (-rlo.y)) (max rhi.z (-rlo.z))),
      rootMesh := model.rootMesh.mapDerived (updatedFields glm millis (lo.mid hi) hi) }
    (node_mapDerived _ _)
  simp only [mapDerived_comp, updatedFields_idem] at h3' hu'
  rw [h3] at h3'
  injection h3' with h3'
  injection h3' with h4 h5
  subst h4 h5
  exact hu'

/-- Witness of C15: the model with the one mesh `boxMesh`. -/
theorem C15_recompute_idempotent_witness :
    boxModel.rootMesh.Defined restGlm none ∧
    ∃ model', updateMatrices restGlm none boxModel = some model' ∧
      updateMatrices restGlm none model' = some model' :=
  ⟨boxModel_defined, C15_recompute_idempotent restGlm none boxModel boxModel_defined⟩

/-! ### The largest absolute extent -/

theorem max_neg_eq_max_abs {lo hi : ℚ} (h : lo ≤ hi) : max hi (-lo) = max |lo| |hi| := by
  apply le_antisymm
  · exact max_le (le_max_of_le_right (le_abs_self hi)) (le_max_of_le_left (neg_le_abs lo))
  · apply max_le
    · rw [abs_le]
      constructor
      · have : -lo ≤ max hi (-lo) := le_max_right _ _
        linarith
      · exact h.trans (le_max_left _ _)
    · rw [abs_le]
      constructor
      · have : -lo ≤ max hi (-lo) := le_max_right _ _
        linarith
      · exact le_max_left _ _

theorem abs_le_max_neg {lo hi x : ℚ} (h1 : lo ≤ x) (h2 : x ≤ hi) : |x| ≤ max hi (-lo) := by
  rw [abs_le]
  constructor
  · have : -lo ≤ max hi (-lo) := le_max_right _ _
    linarith
  · exact h2.trans (le_max_left _ _)

theorem RVec3.mid_comm (a b : RVec3) : a.mid b = b.mid a := by
  unfold RVec3.mid
  rw [add_comm a.x, add_comm a.y, add_comm a.z]

/-- C16: the maximal range is the largest absolute extent.  On every defined input with at
least one vertex index in a face, after `updateMatrices` the field `maxRange` is the maximum
over the three axes of max(|realbbmin.c|, |realbbmax.c|), the centers are
bbrange = (bbmin + bbmax) / 2 and realbbrange = (realbbmin + realbbmax) / 2, and every
position that the world-space pass computes has |v.c| ≤ maxRange on every axis. -/
theorem C16_max_range (glm : Glm) (millis : Option Int) (model : Model)
    (hdef : model.rootMesh.Defined glm millis)
    (hvertex : ∃ mesh ∈ model.rootMesh.node.preorder, mesh.corners ≠ []) :
    ∃ model', updateMatrices glm millis model = some model' ∧
      model'.maxRange =
        max (max |model'.realbbmin.x| |model'.realbbmax.x|)
          (max (max |model'.realbbmin.y| |model'.realbbmax.y|)
            (max |model'.realbbmin.z| |model'.realbbmax.z|)) ∧
      model'.bbrange = model'.bbmin.mid model'.bbmax ∧
      model'.realbbrange = model'.realbbmin.mid model'.realbbmax ∧
      ∀ v ∈ model'.rootMesh.placed flipY, ∀ i ∈ v.2.mesh.corners,
        ∃ x, v.2.mesh.position glm (composed v) ⟨0, 0, 0, 0⟩ i = some x ∧
          |x.x| ≤ model'.maxRange ∧ |x.y| ≤ model'.maxRange ∧ |x.z| ≤ model'.maxRange := by
  obtain ⟨lo, hi, h⟩ := updateMatrices_of_node glm millis model.rootMesh hdef
  obtain ⟨rlo, rhi, h3, hu⟩ := h model rfl
  have hin := (mergeVisits_bounds glm _ _ _ _ _ h3).2.2
  refine ⟨_, hu, ?_, rfl, RVec3.mid_comm _ _, ?_⟩
  · obtain ⟨mesh, hmesh, hcorners⟩ := hvertex
    rw [← node_mapDerived (updatedFields glm millis (lo.mid hi) hi) model.rootMesh,
      ← placed_mesh _ flipY] at hmesh
    obtain ⟨v, hv, rfl⟩ := List.mem_map.1 hmesh
    obtain ⟨i, hi'⟩ := List.exists_mem_of_ne_nil _ hcorners
    obtain ⟨x, _, hx⟩ := hin v hv i hi'
    simp only
    rw [max_neg_eq_max_abs (hx.1.1.trans hx.1.2), max_neg_eq_max_abs (hx.2.1.1.trans hx.2.1.2),
      max_neg_eq_max_abs (hx.2.2.1.trans hx.2.2.2)]
  · intro v hv i hi'
    obtain ⟨x, hpos, hx⟩ := hin v hv i hi'
    refine ⟨x, hpos, ?_, ?_, ?_⟩
    · exact (abs_le_max_neg hx.1.1 hx.1.2).trans (le_max_left _ _)
    · exact (abs_le_max_neg hx.2.1.1 hx.2.1.2).trans
        ((le_max_left _ _).trans (le_max_right _ _))
    · exact (abs_le_max_neg hx.2.2.1 hx.2.2.2).trans
        ((le_max_right _ _).trans (le_max_right _ _))

set_option maxRecDepth 1000000 in
theorem boxModel_maxRange :
    (updateMatrices restGlm none boxModel).map
        (fun m => (m.realbbmin, m.realbbmax, m.maxRange)) =
      some (⟨-1, 0, -1⟩, ⟨1, 4, 1⟩, 4) := by
  with_unfolding_all decide

/-- Witness of C16: the model with the one mesh `boxMesh`; its world-space box is
(−1, 0, −1) to (1, 4, 1) and its maximal range is 4. -/
theorem C16_max_range_witness :
    boxModel.rootMesh.Defined restGlm none ∧
    (∃ mesh ∈ boxModel.rootMesh.node.preorder, mesh.corners ≠ []) ∧
    ∃ model', updateMatrices restGlm none boxModel = some model' ∧
      model'.realbbmin = ⟨-1, 0, -1⟩ ∧ model'.realbbmax = ⟨1, 4, 1⟩ ∧ model'.maxRange = 4 ∧
      model'.maxRange =
        max (max |model'.realbbmin.x| |model'.realbbmax.x|)
          (max (max |model'.realbbmin.y| |model'.realbbmax.y|)
            (max |model'.realbbmin.z| |model'.realbbmax.z|)) := by
  have hvertex : ∃ mesh ∈ boxModel.rootMesh.node.preorder, mesh.corners ≠ [] :=
    ⟨boxMesh, List.mem_cons_self _ _, by decide⟩
  refine ⟨boxModel_defined, hvertex, ?_⟩
  obtain ⟨model', hu, hmax, _⟩ := C16_max_range restGlm none boxModel boxModel_defined hvertex
  have hbox := boxModel_maxRange
  rw [hu, Option.map_some'] at hbox
  injection hbox with hbox
  injection hbox with hmin hbox
  injection hbox with hhi hrange
  exact ⟨model', hu, hmin, hhi, hrange, hmax⟩

/-! ### The composition of the world-space pass -/

/-- C18, amended: the composition of the world-space pass.  `updateMatrices` visits the root
with the base matrix scale(1, −1, 1).  A node visited with the base matrix B has its vertices
transformed by B × pose × offset (`matrix1`, then `matrix2`) before they are merged into the
accumulator, and each of its children is visited with the base matrix B × pose; the pass is
the face loops of these visits, one after the other. -/
theorem C18_world_pass_composition (glm : Glm) (millis : Option Int) (model : Model)
    (hdef : model.rootMesh.Defined glm millis) :
    (∃ model', updateMatrices glm millis model = some model' ∧
      model'.rootMesh.setBoundingBox2 glm (RMat4.identity.scale ⟨1, -1, 1⟩) realStart.1
        realStart.2 = some (model'.realbbmin, model'.realbbmax)) ∧
    ∀ (p : Pose) (mat : RMat4) (lo hi : RVec3),
      p.setBoundingBox2 glm mat lo hi =
        (mergeCorners glm p.mesh ((mat.mul p.derived.matrix1).mul p.derived.matrix2)
          ⟨0, 0, 0, 0⟩ p.mesh.corners lo hi).bind
          (fun r => setBoundingBox2Children glm p.children (mat.mul p.derived.matrix1) r.1 r.2) ∧
      p.placed mat = (mat, p) :: placedChildren p.children (mat.mul p.derived.matrix1) ∧
      p.setBoundingBox2 glm mat lo hi = mergeVisits glm (p.placed mat) lo hi := by
  constructor
  · obtain ⟨lo, hi, h⟩ := updateMatrices_of_node glm millis model.rootMesh hdef
    obtain ⟨rlo, rhi, h3, hu⟩ := h model rfl
    refine ⟨_, hu, ?_⟩
    rw [setBoundingBox2_eq]
    exact h3
  · intro p mat lo hi
    refine ⟨?_, ?_, setBoundingBox2_eq glm p mat lo hi⟩
    · cases p with
      | mk mesh parent derived children =>
        rw [Pose.setBoundingBox2]
        simp only [Pose.mesh, Pose.derived, Pose.children]
        cases mergeCorners glm mesh ((mat.mul derived.matrix1).mul derived.matrix2)
            ⟨0, 0, 0, 0⟩ mesh.corners lo hi with
        | none => rfl
        | some r => rfl
    · cases p with
      | mk mesh parent derived children => rw [Pose.placed]; rfl

/-- Witness of C18: the model with the one mesh `boxMesh`. -/
theorem C18_world_pass_composition_witness :
    boxModel.rootMesh.Defined restGlm none ∧
    ∃ model', updateMatrices restGlm none boxModel = some model' ∧
      model'.rootMesh.setBoundingBox2 restGlm (RMat4.identity.scale ⟨1, -1, 1⟩) realStart.1
        realStart.2 = some (model'.realbbmin, model'.realbbmax) :=
  ⟨boxModel_defined, (C18_world_pass_composition restGlm none boxModel boxModel_defined).1⟩

set_option maxRecDepth 1000000 in
/-- Counterexample to C18 as stated.  On the model with the one mesh `boxMesh` the pass gives
the box (−1, 0, −1) to (1, 4, 1), while transforming the vertices by B × pose gives (0, −2, 0)
to (2, 2, 2).  On the model whose root has the pivot (1, 0, 0), no faces and one child with the
vertex (2, 4, 2), the pass gives the point (1, 0, 1), while visiting the child with
B × pose × offset gives (2, 0, 1). -/
theorem C18_counterexample :
    (updateMatrices restGlm none boxModel).bind
        (fun m => m.rootMesh.setBoundingBox2 restGlm flipY realStart.1 realStart.2) =
      some (⟨-1, 0, -1⟩, ⟨1, 4, 1⟩) ∧
    (updateMatrices restGlm none boxModel).bind
        (fun m => m.rootMesh.setBoundingBox2Spec restGlm flipY realStart.1 realStart.2) =
      some (⟨0, -2, 0⟩, ⟨2, 2, 2⟩) ∧
    (updateMatrices restGlm none pivotModel).bind
        (fun m => m.rootMesh.setBoundingBox2 restGlm flipY realStart.1 realStart.2) =
      some (⟨1, 0, 1⟩, ⟨1, 0, 1⟩) ∧
    (updateMatrices restGlm none pivotModel).bind
        (fun m => m.rootMesh.setBoundingBox2Spec restGlm flipY realStart.1 realStart.2) =
      some (⟨2, 0, 1⟩, ⟨2, 0, 1⟩) := by
  refine ⟨?_, ?_, ?_, ?_⟩ <;> with_unfolding_all decide

/-! ### The vertex indices of the faces -/

set_option maxRecDepth 1000000 in
theorem parse_strayFile : parse 1 strayFile = .ok (documentOf (.mk strayMesh none [])) := by
  rfl

/-- C21, failing input: a file whose only mesh record has one vertex and a face with the
vertex indices 0, 0 and 7.  No step of the constructor compares a face index with the vertex
count: the file is loaded, the lookup `vertices[f->vertices[2]]` for the face normal is outside
the vertex list, and so are the lookups of the object-space pass, of the world-space pass and
of `updateMatrices`, which have no value. -/
theorem C21_face_index_unchecked (glm : Glm) (millis : Option Int) (derived : Derived)
    (mat : RMat4) (lo hi : RVec3) :
    parse 1 strayFile = .ok (documentOf (.mk strayMesh none [])) ∧
    strayMesh.faces = [strayFace] ∧ strayMesh.vertices.length = 1 ∧
    ¬ strayFace.vertices2.val < strayMesh.vertices.length ∧
    strayMesh.normalCorners strayFace = none ∧
    strayMesh.box glm none 0 = none ∧
    (Pose.mk strayMesh none derived []).setBoundingBox glm lo hi = none ∧
    (Pose.mk strayMesh none derived []).setBoundingBox2 glm mat lo hi = none ∧
    updateMatrices glm millis (freshModel (.mk strayMesh none derived [])) = none := by
  have hbox : ∀ parent n, strayMesh.box glm parent n = none := fun _ _ => rfl
  refine ⟨parse_strayFile, rfl, rfl, by decide, rfl, hbox none 0, ?_, rfl, ?_⟩
  · rw [Pose.setBoundingBox, hbox]
  · unfold updateMatrices freshModel
    simp only [Pose.setBoundingBox, hbox]

end Rsm
